import Mathlib

/-!
# SimSiPM: device properties and settings ingestion

A shallow embedding of `src/src/SiPMProperties.cpp` and of the accessors of
`src/include/SiPMAnalogSignal.h`.

Numbers.  A C++ `double` is modelled by `Dbl F`: either a finite value taken from a
linear ordered field `F`, or one of the IEEE special values NaN, -inf, +inf.  The
operations `Dbl.add`, `Dbl.sub`, `Dbl.mul`, `Dbl.div` give the exact result on finite
values and follow IEEE 754 / C99 Annex F on the special values; the two zeros are not told
apart.  In `setPdeSpectrum` every arithmetic operation stores its result in a `double`, so
there each exact result goes through a rounding function `fl : F → Dbl F`, which is a
parameter of the embedding: `round64` is the rounding of IEEE 754 binary64 on `F = ℚ` (to
nearest, ties to even, with subnormal numbers, overflow to an infinity), and `Dbl.fin` is
arithmetic without rounding.  Each operation is rounded on its own: the sum of a product is
not fused into one operation.  The statements about `setPdeSpectrum` that depend on the
values computed are made for `round64`.  The constructor and `length()` are stated with the
exact operations.  The C library functions `log` and `exp` are taken as a parameter
`Libm F` that gives the values they return at finite arguments; their behaviour at the
special values and outside the domain of `log` is fixed by the embedding.  Container sizes
are assumed to fit the 32-bit loop counters.

Undefined behaviour (an out-of-range access, a NaN used as the key of a `std::map`) and a
thrown exception are both modelled by `none`; so is an infinite target wavelength in
`setPdeSpectrum`, the keys of the embedded map being finite values.  `std::stod` is a
parameter of `readSettings`; `stod` below is a model of it with exact values, used where a
concrete text has to be read.
-/

namespace sipm

/-! ## Floating-point values -/

/-- A C++ `double`: NaN, the two infinities, or a finite value. -/
inductive Dbl (F : Type) where
  | nan : Dbl F
  | ninf : Dbl F
  | pinf : Dbl F
  | fin (x : F) : Dbl F
  deriving DecidableEq, Repr

/-- The functions `log` and `exp` of the C library at finite arguments (`log` is only
consulted at strictly positive ones). -/
structure Libm (F : Type) where
  log : F → F
  exp : F → F

namespace Dbl

variable {F : Type} [LinearOrderedField F]

/-- Unary minus. -/
def neg : Dbl F → Dbl F
  | nan => nan
  | ninf => pinf
  | pinf => ninf
  | fin x => fin (-x)

/-- Addition `a + b`. -/
def add : Dbl F → Dbl F → Dbl F
  | nan, _ => nan
  | _, nan => nan
  | pinf, ninf => nan
  | ninf, pinf => nan
  | pinf, _ => pinf
  | ninf, _ => ninf
  | _, pinf => pinf
  | _, ninf => ninf
  | fin a, fin b => fin (a + b)

/-- Subtraction `a - b`. -/
def sub (a b : Dbl F) : Dbl F := add a (neg b)

/-- Multiplication `a * b`; an infinity times zero is NaN. -/
def mul : Dbl F → Dbl F → Dbl F
  | nan, _ => nan
  | _, nan => nan
  | fin a, fin b => fin (a * b)
  | fin a, pinf => if a = 0 then nan else if 0 < a then pinf else ninf
  | fin a, ninf => if a = 0 then nan else if 0 < a then ninf else pinf
  | pinf, fin b => if b = 0 then nan else if 0 < b then pinf else ninf
  | ninf, fin b => if b = 0 then nan else if 0 < b then ninf else pinf
  | pinf, pinf => pinf
  | pinf, ninf => ninf
  | ninf, pinf => ninf
  | ninf, ninf => pinf

/-- Division `a / b`; a non-zero value over zero is an infinity, `0 / 0` and
`inf / inf` are NaN. -/
def div : Dbl F → Dbl F → Dbl F
  | nan, _ => nan
  | _, nan => nan
  | fin a, fin b =>
    if b = 0 then (if a = 0 then nan else if 0 < a then pinf else ninf) else fin (a / b)
  | fin _, pinf => fin 0
  | fin _, ninf => fin 0
  | pinf, fin b => if 0 ≤ b then pinf else ninf
  | ninf, fin b => if 0 ≤ b then ninf else pinf
  | pinf, pinf => nan
  | pinf, ninf => nan
  | ninf, pinf => nan
  | ninf, ninf => nan

/-- The comparison `a < b`; false as soon as one side is NaN. -/
def lt : Dbl F → Dbl F → Bool
  | nan, _ => false
  | _, nan => false
  | ninf, ninf => false
  | ninf, _ => true
  | _, ninf => false
  | pinf, _ => false
  | fin _, pinf => true
  | fin a, fin b => decide (a < b)

/-- The comparison `a >= b`; false as soon as one side is NaN. -/
def ge : Dbl F → Dbl F → Bool
  | nan, _ => false
  | _, nan => false
  | _, ninf => true
  | ninf, _ => false
  | pinf, _ => true
  | fin _, pinf => false
  | fin a, fin b => decide (b ≤ a)

/-- The C function `log`: NaN below zero, -inf at zero. -/
def log (L : Libm F) : Dbl F → Dbl F
  | nan => nan
  | ninf => nan
  | pinf => pinf
  | fin x => if x < 0 then nan else if x = 0 then ninf else fin (L.log x)

/-- The C function `exp`: `exp(-inf) = 0`, `exp(+inf) = +inf`. -/
def exp (L : Libm F) : Dbl F → Dbl F
  | nan => nan
  | ninf => fin 0
  | pinf => pinf
  | fin x => fin (L.exp x)

/-- The value a `double` holds for the exact result of an operation: a finite result is
rounded by `fl`, an infinity or NaN is kept. -/
def rnd (fl : F → Dbl F) : Dbl F → Dbl F
  | fin x => fl x
  | d => d

/-- The `double` sum `a + b`. -/
def addR (fl : F → Dbl F) (a b : Dbl F) : Dbl F := rnd fl (add a b)

/-- The `double` difference `a - b`. -/
def subR (fl : F → Dbl F) (a b : Dbl F) : Dbl F := rnd fl (sub a b)

/-- The `double` product `a * b`. -/
def mulR (fl : F → Dbl F) (a b : Dbl F) : Dbl F := rnd fl (mul a b)

/-- The `double` quotient `a / b`. -/
def divR (fl : F → Dbl F) (a b : Dbl F) : Dbl F := rnd fl (div a b)

end Dbl

/-! ## IEEE 754 binary64 rounding -/

/-- The integer nearest to `m`, the even one of the two when `m` lies halfway. -/
def roundHalfEven (m : ℚ) : Int :=
  if 2 * (m - ⌊m⌋) < 1 then ⌊m⌋
  else if 1 < 2 * (m - ⌊m⌋) then ⌊m⌋ + 1
  else if ⌊m⌋ % 2 = 0 then ⌊m⌋ else ⌊m⌋ + 1

/-- Halving `n` until it is below 2, at most `fuel` times: the number of halvings. -/
def log2Fuel : Nat → Nat → Nat
  | 0, _ => 0
  | fuel + 1, n => if n < 2 then 0 else log2Fuel fuel (n / 2) + 1

/-- The exponent of the largest power of two that is at most `n`, for `n` at least 1. -/
def natLog2 (n : Nat) : Nat := log2Fuel n n

/-- The binary exponent of a positive rational `x`: the exponent of the largest power of
two that is at most `x`.  It is the difference of the exponents of numerator and
denominator, or one less. -/
def ilog2 (x : ℚ) : Int :=
  if (2 : ℚ) ^ ((natLog2 x.num.natAbs : Int) - (natLog2 x.den : Int)) ≤ x
  then (natLog2 x.num.natAbs : Int) - (natLog2 x.den : Int)
  else (natLog2 x.num.natAbs : Int) - (natLog2 x.den : Int) - 1

/-- The exponent of the spacing of the binary64 numbers around a positive `x`: 52 below
the exponent of `x`, and -1074 throughout the subnormal range. -/
def quantumExp (x : ℚ) : Int := max (ilog2 x) (-1022) - 52

/-- A positive `x` rounded to the nearest multiple of the spacing around it, ties to the
even multiple. -/
def roundPos (x : ℚ) : ℚ := (roundHalfEven (x / 2 ^ quantumExp x) : ℚ) * 2 ^ quantumExp x

/-- The binary64 number that holds the exact value `x`, in the default rounding mode: the
nearest one, ties to even; a result of magnitude `2 ^ 1024` or more is an infinity. -/
def round64 (x : ℚ) : Dbl ℚ :=
  if x = 0 then Dbl.fin 0
  else if 0 < x then (if roundPos x < 2 ^ (1024 : Int) then Dbl.fin (roundPos x) else Dbl.pinf)
  else (if roundPos (-x) < 2 ^ (1024 : Int) then Dbl.fin (-roundPos (-x)) else Dbl.ninf)

/-! ## `std::map<double, V>` -/

section StdMap

variable {F : Type} [LinearOrderedField F] {V : Type}

/-- The statement `m[k] = v` on a `std::map` kept as a list sorted by key: the entry of
key `k` is overwritten, or a new entry is put at its place in the order. -/
def mapAssign : List (F × V) → F → V → List (F × V)
  | [], k, v => [(k, v)]
  | (k0, v0) :: t, k, v =>
    if k < k0 then (k, v) :: (k0, v0) :: t
    else if k0 < k then (k0, v0) :: mapAssign t k v
    else (k, v) :: t

/-- The position `m.upper_bound(k)`: the index of the first entry whose key is greater
than `k`, the length of the list (`end()`) when there is none. -/
def upper_bound : List (F × V) → F → Nat
  | [], _ => 0
  | (k0, _) :: t, k => if k < k0 then 0 else upper_bound t k + 1

/-- First-match lookup, the value `m.at(k)` of a `std::map`. -/
def mapFind : List (F × V) → F → Option V
  | [], _ => none
  | (k0, v0) :: t, k => if k0 = k then some v0 else mapFind t k

end StdMap

/-! ## The properties object -/

/-- The three forms of the detection efficiency. -/
inductive PdeType where
  | kNoPde
  | kSimplePde
  | kSpectrumPde
  deriving DecidableEq, Repr

/-- Where photons are presumed to land. -/
inductive HitDistribution where
  | kUniform
  | kCircle
  | kGaussian
  deriving DecidableEq, Repr

/-- The data members of `SiPMProperties` that the source file reads or writes. -/
structure SiPMProperties (F : Type) where
  m_Size : Dbl F
  m_Pitch : Dbl F
  m_Ncells : Nat
  m_SideCells : Nat
  m_HitDistribution : HitDistribution
  m_Sampling : Dbl F
  m_SignalLength : Dbl F
  m_SignalPoints : Nat
  m_RiseTime : Dbl F
  m_FallTimeFast : Dbl F
  m_FallTimeSlow : Dbl F
  m_SlowComponentFraction : Dbl F
  m_RecoveryTime : Dbl F
  m_Dcr : Dbl F
  m_Xt : Dbl F
  m_DXt : Dbl F
  m_Ap : Dbl F
  m_TauApFastComponent : Dbl F
  m_TauApSlowComponent : Dbl F
  m_Ccgv : Dbl F
  m_SnrdB : Dbl F
  m_SnrLinear : Dbl F
  m_Pde : Dbl F
  m_PdeSpectrum : List (F × Dbl F)
  m_HasPde : PdeType
  m_HasDcr : Bool
  m_HasXt : Bool
  m_HasDXt : Bool
  m_HasAp : Bool
  m_HasSlowComponent : Bool
  deriving DecidableEq, Repr

/-! ## `setPdeSpectrum` -/

section Spectrum

variable {F : Type} [LinearOrderedField F]

/-- The first loop of `setPdeSpectrum`: `inputSpectrum[wav[i]] = pde[i]` for every index
of `wav`; reading `pde` past its end is undefined. -/
def fillInput : List F → List F → List (F × F) → Option (List (F × F))
  | [], _, m => some m
  | _ :: _, [], _ => none
  | w :: ws, p :: ps, m => fillInput ws ps (mapAssign m w p)

/-- The value computed for the target wavelength `newx` from the bracket
`(x0, y0)`, `(x1, y1)`: log-log interpolation, the linear fallback when the result
compares below zero, and the final clamp.  Every operation is rounded by `fl`. -/
def interpolate (fl : F → Dbl F) (L : Libm F) (x0 y0 x1 y1 newx : F) : Dbl F :=
  let logNewy :=
    Dbl.divR fl
      (Dbl.addR fl
        (Dbl.mulR fl (Dbl.log L (.fin y0)) (Dbl.log L (Dbl.divR fl (.fin x1) (.fin newx))))
        (Dbl.mulR fl (Dbl.log L (.fin y1)) (Dbl.log L (Dbl.divR fl (.fin newx) (.fin x0)))))
      (Dbl.log L (Dbl.divR fl (.fin x1) (.fin x0)))
  let newy := Dbl.exp L logNewy
  let newy :=
    if Dbl.lt newy (.fin 0) then
      let m := Dbl.divR fl (Dbl.subR fl (.fin y1) (.fin y0)) (Dbl.subR fl (.fin x1) (.fin x0))
      let q := Dbl.subR fl (.fin y0) (Dbl.mulR fl m (.fin x0))
      Dbl.addR fl (Dbl.mulR fl m (.fin newx)) q
    else newy
  if Dbl.lt newy (.fin 0) then .fin 0 else newy

/-- The index of the upper bracket entry for `newx`: the upper bound, moved one step back
from `end()` and one step forward from `begin()`. -/
def bracketIndex (inputSpectrum : List (F × F)) (newx : F) : Nat :=
  let it1 := upper_bound inputSpectrum newx
  let it1 := if it1 = inputSpectrum.length then it1 - 1 else it1
  if it1 = 0 then it1 + 1 else it1

/-- One pass of the body of the main loop up to the value `newy`; `none` when an iterator
that is dereferenced points outside the map. -/
def pdePoint (fl : F → Dbl F) (L : Libm F) (inputSpectrum : List (F × F)) (newx : F) :
    Option (Dbl F) :=
  let it1 := bracketIndex inputSpectrum newx
  let it0 := it1 - 1
  match inputSpectrum[it0]?, inputSpectrum[it1]? with
  | some (x0, y0), some (x1, y1) => some (interpolate fl L x0 y0 x1 y1 newx)
  | _, _ => none

/-- The number of target wavelengths, `N` in the source. -/
def N : Nat := 32

/-- The step `dx = (xmax - xmin) / N`; the counter `N` converts to a `double` exactly. -/
def gridStep (fl : F → Dbl F) (xmin xmax : F) : Dbl F :=
  Dbl.divR fl (Dbl.subR fl (.fin xmax) (.fin xmin)) (.fin (N : F))

/-- The target wavelength `newx = xmin + i * dx` of pass `i`; the counter `i` converts to a
`double` exactly. -/
def gridPoint (fl : F → Dbl F) (xmin dx : F) (i : Nat) : Dbl F :=
  Dbl.addR fl (.fin xmin) (Dbl.mulR fl (.fin (i : F)) (.fin dx))

/-- The main loop over the indices `is`: each pass stores `m_PdeSpectrum[newx] = newy`
with `newx = xmin + i * dx`.  A target that is not finite gives `none`: a NaN is no valid
key of the map, and an infinite key is outside the embedding, whose keys are finite
values. -/
def pdeLoop (fl : F → Dbl F) (L : Libm F) (inputSpectrum : List (F × F)) (xmin dx : F) :
    List Nat → List (F × Dbl F) → Option (List (F × Dbl F))
  | [], spectrum => some spectrum
  | i :: is, spectrum =>
    match gridPoint fl xmin dx i with
    | Dbl.fin newx =>
      match pdePoint fl L inputSpectrum newx with
      | none => none
      | some newy => pdeLoop fl L inputSpectrum xmin dx is (mapAssign spectrum newx newy)
    | _ => none

/-- `SiPMProperties::setPdeSpectrum(wav, pde)`.  When `dx` is not finite the first target
`xmin + 0 * dx` is NaN, which is undefined as above. -/
def setPdeSpectrum (fl : F → Dbl F) (L : Libm F) (wav pde : List F) (s : SiPMProperties F) :
    Option (SiPMProperties F) :=
  match fillInput wav pde [] with
  | none => none
  | some inputSpectrum =>
    match inputSpectrum.head?, inputSpectrum.getLast? with
    | some (xmin, _), some (xmax, _) =>
      match gridStep fl xmin xmax with
      | Dbl.fin dx =>
        match pdeLoop fl L inputSpectrum xmin dx (List.range N) s.m_PdeSpectrum with
        | none => none
        | some spectrum =>
          some { s with m_PdeSpectrum := spectrum, m_HasPde := PdeType.kSpectrumPde }
      | _ => none
    | _, _ => none

end Spectrum


/-! ## `setProperty` -/

/-- The typed setters of the class and the conversion `float(val)`.  The setters are
declared in the class header, which is not among the sources, so they are parameters of
the embedding. -/
structure Setters (F : Type) where
  setSize : Dbl F → SiPMProperties F → SiPMProperties F
  setPitch : Dbl F → SiPMProperties F → SiPMProperties F
  setSampling : Dbl F → SiPMProperties F → SiPMProperties F
  setRecoveryTime : Dbl F → SiPMProperties F → SiPMProperties F
  setSignalLength : Dbl F → SiPMProperties F → SiPMProperties F
  setRiseTime : Dbl F → SiPMProperties F → SiPMProperties F
  setFallTimeFast : Dbl F → SiPMProperties F → SiPMProperties F
  setFallTimeSlow : Dbl F → SiPMProperties F → SiPMProperties F
  setSlowComponentFraction : Dbl F → SiPMProperties F → SiPMProperties F
  setTauApFastComponent : Dbl F → SiPMProperties F → SiPMProperties F
  setTauApSlowComponent : Dbl F → SiPMProperties F → SiPMProperties F
  setCcgv : Dbl F → SiPMProperties F → SiPMProperties F
  setSnr : Dbl F → SiPMProperties F → SiPMProperties F
  setPde : Dbl F → SiPMProperties F → SiPMProperties F
  setDcr : Dbl F → SiPMProperties F → SiPMProperties F
  setXt : Dbl F → SiPMProperties F → SiPMProperties F
  setDXt : Dbl F → SiPMProperties F → SiPMProperties F
  setAp : Dbl F → SiPMProperties F → SiPMProperties F
  toFloat : Dbl F → Dbl F

/-- The function `std::tolower` in the C locale. -/
def tolower (c : Char) : Char :=
  if 'A' ≤ c ∧ c ≤ 'Z' then Char.ofNat (c.toNat + 32) else c

/-- The copy `aProp` of a property name with every character lower-cased. -/
def lowercase (prop : String) : String := String.mk (prop.data.map tolower)

/-- `SiPMProperties::setProperty(prop, val)`: the state after the call and the lines
written to `std::cerr`. -/
def setProperty {F : Type} (σ : Setters F) (prop : String) (val : Dbl F)
    (s : SiPMProperties F) : SiPMProperties F × List String :=
  let aProp := lowercase prop
  if aProp = "size" then (σ.setSize val s, [])
  else if aProp = "pitch" then (σ.setPitch val s, [])
  else if aProp = "sampling" then (σ.setSampling val s, [])
  else if aProp = "cellrecovery" then (σ.setRecoveryTime val s, [])
  else if aProp = "signallength" then (σ.setSignalLength val s, [])
  else if aProp = "risetime" then (σ.setRiseTime val s, [])
  else if aProp = "falltimefast" then (σ.setFallTimeFast val s, [])
  else if aProp = "falltimeslow" then (σ.setFallTimeSlow val s, [])
  else if aProp = "slowcomponentfraction" then (σ.setSlowComponentFraction val s, [])
  else if aProp = "recoverytime" then (σ.setRecoveryTime val s, [])
  else if aProp = "tauapfast" then (σ.setTauApFastComponent val s, [])
  else if aProp = "tauapslow" then (σ.setTauApSlowComponent val s, [])
  else if aProp = "ccgv" then (σ.setCcgv (σ.toFloat val) s, [])
  else if aProp = "snr" then (σ.setSnr val s, [])
  else if aProp = "pde" then (σ.setPde val s, [])
  else if aProp = "dcr" then (σ.setDcr val s, [])
  else if aProp = "xt" then (σ.setXt val s, [])
  else if aProp = "dxt" then (σ.setDXt val s, [])
  else if aProp = "ap" then (σ.setAp val s, [])
  else (s, ["Property: " ++ prop ++ " not found!"])

/-- The recognized property names, as the settings format lists them. -/
def propertyTokens : List String :=
  ["size", "pitch", "sampling", "cellrecovery", "recoverytime", "signallength", "risetime",
    "falltimefast", "falltimeslow", "slowcomponentfraction", "tauapfast", "tauapslow",
    "ccgv", "snr", "pde", "dcr", "xt", "dxt", "ap"]

/-! ## `readSettings` -/

/-- The function `isspace` in the C locale. -/
def isspace (c : Char) : Bool :=
  c = ' ' || c = '\t' || c = '\n' || c = '\x0b' || c = '\x0c' || c = '\r'

/-- The lines that successive calls `getline(file, line)` read from a text: the text is
cut at each newline, and a last line needs no newline after it.  `acc` holds, reversed,
the characters of the line being read. -/
def getlines : List Char → List Char → List (List Char)
  | [], acc => if acc = [] then [] else [acc.reverse]
  | c :: cs, acc => if c = '\n' then acc.reverse :: getlines cs [] else getlines cs (c :: acc)

/-- The position `line.find(c)`; `none` stands for `npos`. -/
def find : List Char → Char → Option Nat
  | [], _ => none
  | c :: cs, d => if c = d then some 0 else (find cs d).map (· + 1)

/-- The statement `line.erase(std::remove_if(line.begin(), line.end(), isspace), line.end())`:
every whitespace character is removed. -/
def removeSpaces (line : List Char) : List Char := line.filter fun c => !isspace c

/-- The body of the loop of `readSettings` for one line; `none` when `std::stod` throws.
After the empty check, whitespace is removed; `line[0]` of an empty string is the null
character; with `delimiterPos == npos` both `substr(0, npos)` and `substr(npos + 1)`
(the position wraps to 0) are the whole line. -/
def readLine {F : Type} (stod : String → Option (Dbl F)) (σ : Setters F) (line : List Char)
    (retval : SiPMProperties F) : Option (SiPMProperties F × List String) :=
  if line = [] then some (retval, [])
  else
    let line := removeSpaces line
    if line.headD '\x00' = '#' ∨ line.headD '\x00' = '/' then some (retval, [])
    else
      let varName := match find line '=' with
        | some delimiterPos => line.take delimiterPos
        | none => line
      let varValue := match find line '=' with
        | some delimiterPos => line.drop (delimiterPos + 1)
        | none => line
      match stod (String.mk varValue) with
      | none => none
      | some val => some (setProperty σ (String.mk varName) val retval)

/-- The loop of `readSettings` over the lines read; `out` collects what is written to
`std::cerr`. -/
def readLines {F : Type} (stod : String → Option (Dbl F)) (σ : Setters F) :
    List (List Char) → SiPMProperties F → List String →
      Option (SiPMProperties F × List String)
  | [], retval, out => some (retval, out)
  | line :: rest, retval, out =>
    match readLine stod σ line retval with
    | none => none
    | some (retval1, msgs) => readLines stod σ rest retval1 (out ++ msgs)

/-- `SiPMProperties::readSettings(fname)`.  `retval` is the default-constructed object
the function starts from, `file` the text of the file, `none` when it cannot be opened,
and `stod` is `std::stod`, `none` where it throws.  The result is the returned object and
the lines written to `std::cerr`, or `none` when an exception leaves the function. -/
def readSettings {F : Type} (stod : String → Option (Dbl F)) (σ : Setters F)
    (retval : SiPMProperties F) (fname : String) (file : Option String) :
    Option (SiPMProperties F × List String) :=
  match file with
  | some text => readLines stod σ (getlines text.data []) retval []
  | none => some (retval, ["Could not open " ++ fname ++ " for reading!"])

/-- Spec: a line is blank when nothing is left of it after whitespace removal. -/
def isBlankLine (line : List Char) : Bool := removeSpaces line = []

/-- Spec: a line is a comment when its first non-whitespace character is `#` or `/`. -/
def isCommentLine (line : List Char) : Bool :=
  match removeSpaces line with
  | c :: _ => c = '#' || c = '/'
  | [] => false

/-- Spec: the name and the value text of an assignment line, the texts before and after
the first `=` of the line with whitespace removed. -/
def splitAssignment (line : List Char) : Option (String × String) :=
  match find (removeSpaces line) '=' with
  | some p => some (String.mk ((removeSpaces line).take p),
      String.mk ((removeSpaces line).drop (p + 1)))
  | none => none

/-- Spec: `setProperty(name, value)` applied once per assignment line in file order, blank
and comment lines being skipped; the second component collects the diagnostics. -/
def applyAssignments {F : Type} (stod : String → Option (Dbl F)) (σ : Setters F) :
    List (List Char) → SiPMProperties F × List String → SiPMProperties F × List String
  | [], r => r
  | line :: rest, r =>
    if isBlankLine line || isCommentLine line then applyAssignments stod σ rest r
    else
      match splitAssignment line with
      | none => applyAssignments stod σ rest r
      | some (name, value) =>
        match stod value with
        | none => applyAssignments stod σ rest r
        | some val =>
          applyAssignments stod σ rest
            ((setProperty σ name val r.1).1, r.2 ++ (setProperty σ name val r.1).2)

/-- A stand-in for `std::stod` used to run the embedding on concrete inputs: it reads a
non-empty string of decimal digits and rejects every other string. -/
def sampleStod (str : String) : Option (Dbl ℚ) :=
  if str.data ≠ [] ∧ str.data.all Char.isDigit then
    some (Dbl.fin ((str.data.foldl (fun n c => 10 * n + (c.toNat - 48)) 0 : Nat) : ℚ))
  else none

/-- A stand-in for the setters of the header used to run the embedding on concrete
inputs: each stores its argument in the data member it names, and `float(val)` keeps the
value. -/
def sampleSetters : Setters ℚ :=
  { setSize := fun v s => { s with m_Size := v }
    setPitch := fun v s => { s with m_Pitch := v }
    setSampling := fun v s => { s with m_Sampling := v }
    setRecoveryTime := fun v s => { s with m_RecoveryTime := v }
    setSignalLength := fun v s => { s with m_SignalLength := v }
    setRiseTime := fun v s => { s with m_RiseTime := v }
    setFallTimeFast := fun v s => { s with m_FallTimeFast := v }
    setFallTimeSlow := fun v s => { s with m_FallTimeSlow := v }
    setSlowComponentFraction := fun v s => { s with m_SlowComponentFraction := v }
    setTauApFastComponent := fun v s => { s with m_TauApFastComponent := v }
    setTauApSlowComponent := fun v s => { s with m_TauApSlowComponent := v }
    setCcgv := fun v s => { s with m_Ccgv := v }
    setSnr := fun v s => { s with m_SnrdB := v }
    setPde := fun v s => { s with m_Pde := v }
    setDcr := fun v s => { s with m_Dcr := v }
    setXt := fun v s => { s with m_Xt := v }
    setDXt := fun v s => { s with m_DXt := v }
    setAp := fun v s => { s with m_Ap := v }
    toFloat := fun v => v }

/-! ## Sample data for running the embedding -/

/-- A stand-in for the C library over the rationals, used to run the embedding on concrete
inputs: it has `log 1 = 0`, `exp (log y) = y` for positive `y`, and `exp` never negative. -/
def sampleLibm : Libm ℚ := ⟨fun x => x - 1, fun x => max (x + 1) 0⟩

/-- The values of `log` and `exp`, rounded to the nearest double, at the arguments that
occur in the examples of this file; the C library returns these values at them.  The
arguments of `log` are 1, 2, 3, the double nearest to 0.3 and the rounded quotients
`800 / 362.5`, `362.5 / 300`, `800 / 300`, `800 / 690.625`, `690.625 / 300`.  At any other
argument the table has 0; the stored values that the examples state are computed from the
tabulated arguments alone. -/
def roundedLibm : Libm ℚ :=
  { log := fun x =>
      if x = 1 then 0
      else if x = 2 then 6243314768165359 / 9007199254740992
      else if x = 3 then 4947709893870347 / 4503599627370496
      else if x = 5404319552844595 / 18014398509481984 then
        -5422211472926497 / 4503599627370496
      else if x = 2484744621997515 / 1125899906842624 then
        222812003707673 / 281474976710656
      else if x = 5441849549739349 / 4503599627370496 then
        3409080796219695 / 18014398509481984
      else if x = 6004799503160661 / 2251799813685248 then
        1104315564594423 / 1125899906842624
      else if x = 5216839387361299 / 4503599627370496 then
        5296764332966205 / 36028797018963968
      else if x = 5183830821087915 / 2251799813685248 then
        7510333433513835 / 9007199254740992
      else 0
    exp := fun x =>
      if x = 4947709893870347 / 4503599627370496 then
        6755399441055745 / 2251799813685248
      else if x = -169444108528953 / 140737488355328 then
        1351079888211149 / 4503599627370496
      else if x = -2711105736463249 / 2251799813685248 then
        5404319552844593 / 18014398509481984
      else 0 }

/-- A properties object that holds no spectrum, used to run the embedding on concrete
inputs. -/
def blankProperties : SiPMProperties ℚ :=
  { m_Size := .fin 1, m_Pitch := .fin 25, m_Ncells := 1600, m_SideCells := 40,
    m_HitDistribution := .kUniform, m_Sampling := .fin 1, m_SignalLength := .fin 500,
    m_SignalPoints := 500, m_RiseTime := .fin 1, m_FallTimeFast := .fin 50,
    m_FallTimeSlow := .fin 100, m_SlowComponentFraction := .fin 0, m_RecoveryTime := .fin 50,
    m_Dcr := .fin 200000, m_Xt := .fin 0, m_DXt := .fin 0, m_Ap := .fin 0,
    m_TauApFastComponent := .fin 10, m_TauApSlowComponent := .fin 80, m_Ccgv := .fin 0,
    m_SnrdB := .fin 30, m_SnrLinear := .fin 0, m_Pde := .fin 1, m_PdeSpectrum := [],
    m_HasPde := .kNoPde, m_HasDcr := true, m_HasXt := false, m_HasDXt := false,
    m_HasAp := false, m_HasSlowComponent := false }

/-! ## A model of `std::stod` -/

/-- The value of a decimal or hexadecimal digit, 0 for any other character. -/
def digitValue (c : Char) : Nat :=
  if '0' ≤ c ∧ c ≤ '9' then c.toNat - 48
  else if 'a' ≤ c ∧ c ≤ 'f' then c.toNat - 87
  else if 'A' ≤ c ∧ c ≤ 'F' then c.toNat - 55
  else 0

/-- Whether a character is a hexadecimal digit. -/
def isHexDigit (c : Char) : Bool :=
  decide (('0' ≤ c ∧ c ≤ '9') ∨ ('a' ≤ c ∧ c ≤ 'f') ∨ ('A' ≤ c ∧ c ≤ 'F'))

/-- The number written by a digit string in the given base. -/
def digitsValue (base : Nat) (ds : List Char) : Nat :=
  ds.foldl (fun n c => base * n + digitValue c) 0

/-- An optional sign: whether it is a minus, and the text after it. -/
def readSign : List Char → Bool × List Char
  | '-' :: t => (true, t)
  | '+' :: t => (false, t)
  | s => (false, s)

/-- An optional exponent part: the marker (`e` or `p`, either case), an optional sign and
at least one decimal digit.  The result is the exponent and the text after it; when the
part is absent or incomplete the exponent is 0 and nothing is read. -/
def readExponent (marker : Char) (s : List Char) : Int × List Char :=
  match s with
  | [] => (0, s)
  | c :: t =>
    if tolower c = marker then
      if ((readSign t).2.takeWhile Char.isDigit) = [] then (0, s)
      else
        ((if (readSign t).1 then -1 else 1) *
            (digitsValue 10 ((readSign t).2.takeWhile Char.isDigit) : Int),
          (readSign t).2.dropWhile Char.isDigit)
    else (0, s)

/-- A mantissa in the given base: digits with an optional point.  The result is the digits
before the point, the digits after it, and the text after the mantissa. -/
def readMantissa (isDig : Char → Bool) (s : List Char) :
    List Char × List Char × List Char :=
  match s.dropWhile isDig with
  | '.' :: t => (s.takeWhile isDig, t.takeWhile isDig, t.dropWhile isDig)
  | r => (s.takeWhile isDig, [], r)

/-- The text after `nan`: an optional parenthesised run of letters, digits and
underscores is read with it. -/
def readNanTail (s : List Char) : List Char :=
  match s with
  | '(' :: t =>
    match t.dropWhile (fun c => c.isAlphanum || c = '_') with
    | ')' :: u => u
    | _ => s
  | _ => s

/-- The unsigned part of the subject sequence of `strtod`: `infinity`, `inf`, `nan`, a
hexadecimal number after `0x`, or a decimal number.  The result is the value, exact, and
the text that is not read; `none` when no number can be read. -/
def strtodUnsigned (s : List Char) : Option (Dbl ℚ × List Char) :=
  if (s.take 8).map tolower = ['i', 'n', 'f', 'i', 'n', 'i', 't', 'y'] then
    some (Dbl.pinf, s.drop 8)
  else if (s.take 3).map tolower = ['i', 'n', 'f'] then some (Dbl.pinf, s.drop 3)
  else if (s.take 3).map tolower = ['n', 'a', 'n'] then some (Dbl.nan, readNanTail (s.drop 3))
  else if (s.take 2).map tolower = ['0', 'x'] ∧
      ((readMantissa isHexDigit (s.drop 2)).1 ≠ [] ∨
        (readMantissa isHexDigit (s.drop 2)).2.1 ≠ []) then
    let m := readMantissa isHexDigit (s.drop 2)
    let e := readExponent 'p' m.2.2
    some (Dbl.fin ((digitsValue 16 (m.1 ++ m.2.1) : ℚ) / (16 : ℚ) ^ m.2.1.length *
      (2 : ℚ) ^ e.1), e.2)
  else
    let m := readMantissa Char.isDigit s
    if m.1 = [] ∧ m.2.1 = [] then none
    else
      let e := readExponent 'e' m.2.2
      some (Dbl.fin ((digitsValue 10 (m.1 ++ m.2.1) : ℚ) / (10 : ℚ) ^ m.2.1.length *
        (10 : ℚ) ^ e.1), e.2)

/-- The C function `strtod` with exact values: leading whitespace is skipped, then an
optional sign and the longest number that starts the text are read.  The result is the
value and the text left unread; `none` when no conversion can be made.  Rounding and range
errors are outside the model. -/
def strtod (str : List Char) : Option (Dbl ℚ × List Char) :=
  match strtodUnsigned (readSign (str.dropWhile isspace)).2 with
  | none => none
  | some (v, rest) => some (if (readSign (str.dropWhile isspace)).1 then Dbl.neg v else v, rest)

/-- The function `std::stod(str)`: the number `strtod` reads at the start of the text,
whatever follows it; `none` when it throws `std::invalid_argument`. -/
def stod (str : String) : Option (Dbl ℚ) := (strtod str.data).map Prod.fst

/-- Spec: a text is a floating-point literal when a number can be read from it and
nothing is left over. -/
def isFloatLiteral (str : String) : Bool := (strtod str.data).map Prod.snd = some []

/-! ## The bracket of a target wavelength -/

section BracketDefs

variable {F : Type} [LinearOrderedField F]

/-- The two entries `*it0` and `*it1` that one pass of the main loop of `setPdeSpectrum`
reads for the target wavelength `newx`; `none` when one of the iterators points outside
the map. -/
def bracket (inputSpectrum : List (F × F)) (newx : F) : Option ((F × F) × (F × F)) :=
  match inputSpectrum[bracketIndex inputSpectrum newx - 1]?,
      inputSpectrum[bracketIndex inputSpectrum newx]? with
  | some e0, some e1 => some (e0, e1)
  | _, _ => none

/-- The expression `logNewy` of the loop body. -/
def logNewy (fl : F → Dbl F) (L : Libm F) (x0 y0 x1 y1 newx : F) : Dbl F :=
  Dbl.divR fl
    (Dbl.addR fl
      (Dbl.mulR fl (Dbl.log L (.fin y0)) (Dbl.log L (Dbl.divR fl (.fin x1) (.fin newx))))
      (Dbl.mulR fl (Dbl.log L (.fin y1)) (Dbl.log L (Dbl.divR fl (.fin newx) (.fin x0)))))
    (Dbl.log L (Dbl.divR fl (.fin x1) (.fin x0)))

/-- The value of the linear fallback of the loop body, `m * newx + q`. -/
def linearNewy (fl : F → Dbl F) (x0 y0 x1 y1 newx : F) : Dbl F :=
  Dbl.addR fl
    (Dbl.mulR fl
      (Dbl.divR fl (Dbl.subR fl (.fin y1) (.fin y0)) (Dbl.subR fl (.fin x1) (.fin x0)))
      (.fin newx))
    (Dbl.subR fl (.fin y0)
      (Dbl.mulR fl
        (Dbl.divR fl (Dbl.subR fl (.fin y1) (.fin y0)) (Dbl.subR fl (.fin x1) (.fin x0)))
        (.fin x0)))

/-- Spec: the wavelength-to-efficiency mapping of an input given as pairs, in which a later
pair overwrites an earlier one of the same wavelength. -/
def inputMapping (pairs : List (F × F)) (k : F) : Option F := mapFind pairs.reverse k

/-- Spec: the input that keeps, for every wavelength, only its last pair. -/
def keepLast : List (F × F) → List (F × F)
  | [] => []
  | (w, p) :: t => if w ∈ t.map Prod.fst then keepLast t else (w, p) :: keepLast t

end BracketDefs

/-! ## The constructor -/

section Constructor

variable {F : Type} [LinearOrderedField F] [FloorRing F]

/-- The C function `round` at a finite argument: the nearest integer, halves away from
zero. -/
def cround (x : F) : Int := if 0 ≤ x then ⌊x + 1 / 2⌋ else -⌊-x + 1 / 2⌋

/-- The conversion `(uint32_t)round(x)`.  It is defined when `x` is finite and the rounded
value fits 32 bits; otherwise the conversion is undefined. -/
def roundToUInt32 (x : Dbl F) : Option Nat :=
  match x with
  | Dbl.fin v => if 0 ≤ cround v ∧ cround v < 2 ^ 32 then some (cround v).toNat else none
  | _ => none

/-- `SiPMProperties::SiPMProperties()`.  `members` is the object as the default member
initialisers of the header leave it (the header is not among the sources, so the defaults
are a parameter), `pow` is the C function `pow`.  The body computes the four derived
members; `m_Ncells` is a product of 32-bit unsigned numbers. -/
def SiPMProperties.construct (pow : Dbl F → Dbl F → Dbl F) (members : SiPMProperties F) :
    Option (SiPMProperties F) :=
  match roundToUInt32 (Dbl.div (Dbl.mul (Dbl.fin 1000) members.m_Size) members.m_Pitch) with
  | none => none
  | some sideCells =>
    match roundToUInt32 (Dbl.div members.m_SignalLength members.m_Sampling) with
    | none => none
    | some signalPoints =>
      some { members with
        m_SideCells := sideCells
        m_Ncells := (sideCells * sideCells) % 2 ^ 32
        m_SignalPoints := signalPoints
        m_SnrLinear := pow (Dbl.fin 10) (Dbl.div (Dbl.neg members.m_SnrdB) (Dbl.fin 20)) }

end Constructor

/-- A stand-in for the C function `pow` used to run the embedding on concrete inputs: it
knows `pow(10, 0) = 1` and `pow(10, -1) = 1/10` and gives NaN elsewhere. -/
def samplePow (b e : Dbl ℚ) : Dbl ℚ :=
  if b = Dbl.fin 10 ∧ e = Dbl.fin 0 then Dbl.fin 1
  else if b = Dbl.fin 10 ∧ e = Dbl.fin (-1) then Dbl.fin (1 / 10)
  else Dbl.nan

/-! ## `SiPMAnalogSignal` -/

/-- The data members of `SiPMAnalogSignal`; its constructor stores the waveform and the
sampling it is given. -/
structure SiPMAnalogSignal (F : Type) where
  m_Waveform : List (Dbl F)
  m_Sampling : Dbl F

section AnalogSignal

variable {F : Type} [LinearOrderedField F]

/-- `SiPMAnalogSignal::size()`: the size of the waveform converted to `uint32_t`. -/
def SiPMAnalogSignal.size (a : SiPMAnalogSignal F) : Nat := a.m_Waveform.length % 2 ^ 32

/-- `SiPMAnalogSignal::sampling()`. -/
def SiPMAnalogSignal.sampling (a : SiPMAnalogSignal F) : Dbl F := a.m_Sampling

/-- `SiPMAnalogSignal::length()`: `(double)m_Waveform.size() / m_Sampling`. -/
def SiPMAnalogSignal.length (a : SiPMAnalogSignal F) : Dbl F :=
  Dbl.div (Dbl.fin (a.m_Waveform.length : F)) a.m_Sampling

/-- `SiPMAnalogSignal::waveform()`. -/
def SiPMAnalogSignal.waveform (a : SiPMAnalogSignal F) : List (Dbl F) := a.m_Waveform

end AnalogSignal

/-! ## Lemmas on the map operations -/

section MapLemmas

variable {F : Type} [LinearOrderedField F] {V : Type}


theorem mapAssign_keys (m : List (F × V)) (k : F) (v : V) (k1 : F) :
    k1 ∈ (mapAssign m k v).map Prod.fst ↔ k1 = k ∨ k1 ∈ m.map Prod.fst := by
  induction m with
  | nil => simp [mapAssign]
  | cons h t ih =>
    obtain ⟨k0, v0⟩ := h
    unfold mapAssign
    split_ifs with h1 h2
    · simp
    · simp only [List.map_cons, List.mem_cons, ih]
      tauto
    · have hk : k0 = k := le_antisymm (not_lt.mp h1) (not_lt.mp h2)
      subst hk
      simp

theorem mapAssign_sorted (m : List (F × V)) (k : F) (v : V)
    (hm : (m.map Prod.fst).Pairwise (· < ·)) :
    ((mapAssign m k v).map Prod.fst).Pairwise (· < ·) := by
  induction m with
  | nil => simp [mapAssign]
  | cons h t ih =>
    obtain ⟨k0, v0⟩ := h
    simp only [List.map_cons, List.pairwise_cons] at hm
    unfold mapAssign
    split_ifs with h1 h2
    · simp only [List.map_cons, List.pairwise_cons, List.mem_cons]
      refine ⟨?_, hm⟩
      rintro a (rfl | ha)
      · exact h1
      · exact lt_trans h1 (hm.1 a ha)
    · simp only [List.map_cons, List.pairwise_cons]
      refine ⟨?_, ih hm.2⟩
      intro a ha
      rcases (mapAssign_keys t k v a).mp ha with rfl | ha
      · exact h2
      · exact hm.1 a ha
    · have hk : k0 = k := le_antisymm (not_lt.mp h1) (not_lt.mp h2)
      subst hk
      simpa using hm

theorem mapFind_mapAssign_self (m : List (F × V)) (k : F) (v : V) :
    mapFind (mapAssign m k v) k = some v := by
  induction m with
  | nil => simp [mapAssign, mapFind]
  | cons h t ih =>
    obtain ⟨k0, v0⟩ := h
    unfold mapAssign
    split_ifs with h1 h2
    · simp [mapFind]
    · simp [mapFind, ne_of_lt h2, ih]
    · simp [mapFind]

theorem mapFind_mapAssign_of_ne (m : List (F × V)) (k : F) (v : V) (k1 : F) (hne : k1 ≠ k) :
    mapFind (mapAssign m k v) k1 = mapFind m k1 := by
  induction m with
  | nil => simp [mapAssign, mapFind, Ne.symm hne]
  | cons h t ih =>
    obtain ⟨k0, v0⟩ := h
    unfold mapAssign
    split_ifs with h1 h2
    · simp [mapFind, Ne.symm hne]
    · simp [mapFind, ih]
    · have hk : k0 = k := le_antisymm (not_lt.mp h1) (not_lt.mp h2)
      subst hk
      simp [mapFind, Ne.symm hne]

/-- Assigning a key above every stored key appends the entry. -/
theorem mapAssign_append (m : List (F × V)) (k : F) (v : V)
    (hk : ∀ k0 ∈ m.map Prod.fst, k0 < k) : mapAssign m k v = m ++ [(k, v)] := by
  induction m with
  | nil => simp [mapAssign]
  | cons h t ih =>
    obtain ⟨k0, v0⟩ := h
    have h0 : k0 < k := hk k0 (by simp)
    unfold mapAssign
    rw [if_neg (not_lt.mpr (le_of_lt h0)), if_pos h0, ih]
    · simp
    · intro a ha
      exact hk a (by simp only [List.map_cons, List.mem_cons]; exact Or.inr ha)

end MapLemmas

section SpectrumLemmas

variable {F : Type} [LinearOrderedField F]

theorem fillInput_some (wav pde : List F) (m : List (F × F)) (h : wav.length ≤ pde.length) :
    ∃ r, fillInput wav pde m = some r := by
  induction wav generalizing pde m with
  | nil => exact ⟨m, rfl⟩
  | cons w ws ih =>
    cases pde with
    | nil => simp at h
    | cons p ps =>
      simp only [List.length_cons, Nat.add_le_add_iff_right] at h
      exact ih ps (mapAssign m w p) h

theorem fillInput_keys (wav pde : List F) (m r : List (F × F))
    (h : fillInput wav pde m = some r) (k : F) :
    k ∈ r.map Prod.fst ↔ k ∈ wav ∨ k ∈ m.map Prod.fst := by
  induction wav generalizing pde m with
  | nil =>
    simp only [fillInput, Option.some.injEq] at h
    subst h
    simp
  | cons w ws ih =>
    cases pde with
    | nil => simp [fillInput] at h
    | cons p ps =>
      simp only [fillInput] at h
      rw [ih ps _ h, mapAssign_keys]
      simp only [List.mem_cons]
      tauto

theorem fillInput_sorted (wav pde : List F) (m r : List (F × F))
    (h : fillInput wav pde m = some r) (hm : (m.map Prod.fst).Pairwise (· < ·)) :
    (r.map Prod.fst).Pairwise (· < ·) := by
  induction wav generalizing pde m with
  | nil =>
    simp only [fillInput, Option.some.injEq] at h
    subst h
    exact hm
  | cons w ws ih =>
    cases pde with
    | nil => simp [fillInput] at h
    | cons p ps =>
      simp only [fillInput] at h
      exact ih ps _ h (mapAssign_sorted m w p hm)

theorem sorted_head_le (m : List (F × F)) (hm : (m.map Prod.fst).Pairwise (· < ·))
    (e : F × F) (he : m.head? = some e) : ∀ k ∈ m.map Prod.fst, e.1 ≤ k := by
  cases m with
  | nil => simp at he
  | cons h t =>
    simp only [List.head?_cons, Option.some.injEq] at he
    subst he
    simp only [List.map_cons, List.pairwise_cons] at hm
    intro k hk
    simp only [List.map_cons, List.mem_cons] at hk
    rcases hk with rfl | hk
    · exact le_refl _
    · exact le_of_lt (hm.1 k hk)

theorem sorted_le_getLast (m : List (F × F)) (hm : (m.map Prod.fst).Pairwise (· < ·))
    (e : F × F) (he : m.getLast? = some e) : ∀ k ∈ m.map Prod.fst, k ≤ e.1 := by
  induction m with
  | nil => simp at he
  | cons h t ih =>
    simp only [List.map_cons, List.pairwise_cons] at hm
    intro k hk
    cases t with
    | nil =>
      simp only [List.getLast?_singleton, Option.some.injEq] at he
      subst he
      have hk1 : k = h.1 := by simpa using hk
      exact le_of_eq hk1
    | cons h1 t1 =>
      rw [List.getLast?_cons_cons] at he
      have hlast : e.1 ∈ (h1 :: t1).map Prod.fst :=
        List.mem_map_of_mem _ (List.mem_of_getLast?_eq_some he)
      simp only [List.map_cons, List.mem_cons] at hk
      rcases hk with rfl | hk
      · exact le_of_lt (hm.1 _ hlast)
      · exact ih hm.2 he k (by simpa using hk)

end SpectrumLemmas

section BracketLemmas

variable {F : Type} [LinearOrderedField F]

theorem upper_bound_le_length (m : List (F × F)) (k : F) : upper_bound m k ≤ m.length := by
  induction m with
  | nil => simp [upper_bound]
  | cons h t ih =>
    obtain ⟨k0, v0⟩ := h
    unfold upper_bound
    split_ifs
    · exact Nat.zero_le _
    · simpa using ih

theorem upper_bound_pos (m : List (F × F)) (k : F) (e : F × F) (he : m.head? = some e)
    (hle : e.1 ≤ k) : 0 < upper_bound m k := by
  cases m with
  | nil => simp at he
  | cons h t =>
    simp only [List.head?_cons, Option.some.injEq] at he
    subst he
    obtain ⟨k0, v0⟩ := h
    unfold upper_bound
    rw [if_neg (not_lt.mpr hle)]
    exact Nat.succ_pos _

theorem upper_bound_lt_length (m : List (F × F)) (k : F) (k1 : F)
    (hk1 : k1 ∈ m.map Prod.fst) (hlt : k < k1) : upper_bound m k < m.length := by
  induction m with
  | nil => simp at hk1
  | cons h t ih =>
    obtain ⟨k0, v0⟩ := h
    unfold upper_bound
    split_ifs with h1
    · simp
    · simp only [List.map_cons, List.mem_cons] at hk1
      rcases hk1 with rfl | hk1
      · exact absurd hlt h1
      · simpa using ih hk1

/-- The entry at the upper bound has a key above the argument. -/
theorem upper_bound_key_gt (m : List (F × F)) (k : F) (e : F × F)
    (he : m[upper_bound m k]? = some e) : k < e.1 := by
  induction m with
  | nil => simp at he
  | cons h t ih =>
    obtain ⟨k0, v0⟩ := h
    unfold upper_bound at he
    split_ifs at he with h1
    · simp only [List.getElem?_cons_zero, Option.some.injEq] at he
      subst he
      exact h1
    · simp only [List.getElem?_cons_succ] at he
      exact ih he

/-- Every entry before the upper bound has a key at most the argument. -/
theorem upper_bound_key_le (m : List (F × F)) (k : F) (j : Nat) (e : F × F)
    (hj : j < upper_bound m k) (he : m[j]? = some e) : e.1 ≤ k := by
  induction m generalizing j with
  | nil => simp at he
  | cons h t ih =>
    obtain ⟨k0, v0⟩ := h
    unfold upper_bound at hj
    split_ifs at hj with h1
    · exact absurd hj (Nat.not_lt_zero _)
    · cases j with
      | zero =>
        simp only [List.getElem?_cons_zero, Option.some.injEq] at he
        subst he
        exact not_lt.mp h1
      | succ j0 =>
        simp only [List.getElem?_cons_succ] at he
        exact ih j0 (Nat.lt_of_succ_lt_succ hj) he

theorem bracketIndex_eq (m : List (F × F)) (k : F) (h0 : 0 < upper_bound m k)
    (h1 : upper_bound m k < m.length) : bracketIndex m k = upper_bound m k := by
  unfold bracketIndex
  simp only
  rw [if_neg (Nat.ne_of_lt h1), if_neg (Nat.pos_iff_ne_zero.mp h0)]

end BracketLemmas

/-! ## Lemmas on the binary64 rounding -/

section Binary64Lemmas

theorem log2Fuel_spec (fuel n : Nat) (h : n ≤ fuel) (hn : n ≠ 0) :
    2 ^ log2Fuel fuel n ≤ n ∧ n < 2 ^ (log2Fuel fuel n + 1) := by
  induction fuel generalizing n with
  | zero => omega
  | succ f ih =>
    unfold log2Fuel
    split_ifs with h2
    · have h1 : n = 1 := by omega
      subst h1
      simp
    · obtain ⟨a, b⟩ := ih (n / 2) (by omega) (by omega)
      rw [pow_succ] at b
      rw [pow_succ, pow_succ, pow_succ]
      generalize 2 ^ log2Fuel f (n / 2) = P at a b
      constructor <;> omega

theorem natLog2_spec (n : Nat) (hn : n ≠ 0) :
    2 ^ natLog2 n ≤ n ∧ n < 2 ^ (natLog2 n + 1) :=
  log2Fuel_spec n n (le_refl n) hn

/-- The binary exponent of a positive rational brackets it between two powers of two. -/
theorem ilog2_spec (x : ℚ) (hx : 0 < x) : (2 : ℚ) ^ ilog2 x ≤ x ∧ x < 2 ^ (ilog2 x + 1) := by
  have hnum : 0 < x.num := Rat.num_pos.mpr hx
  have hp0 : x.num.natAbs ≠ 0 := Int.natAbs_ne_zero.mpr (ne_of_gt hnum)
  obtain ⟨p1, p2⟩ := natLog2_spec x.num.natAbs hp0
  obtain ⟨q1, q2⟩ := natLog2_spec x.den x.den_nz
  have hxeq : x = (x.num.natAbs : ℚ) / (x.den : ℚ) := by
    have h0 : (x.num.natAbs : Int) = x.num := Int.natAbs_of_nonneg (le_of_lt hnum)
    have h2 : (x.num.natAbs : ℚ) = (x.num : ℚ) := by
      rw [← h0, Int.cast_natCast, h0]
    rw [h2]
    exact (Rat.num_div_den x).symm
  have hq : (0 : ℚ) < (x.den : ℚ) := by exact_mod_cast x.den_pos
  have P1 : (2 : ℚ) ^ (natLog2 x.num.natAbs : Int) ≤ (x.num.natAbs : ℚ) := by
    rw [zpow_natCast]
    exact_mod_cast p1
  have P2 : (x.num.natAbs : ℚ) < 2 ^ ((natLog2 x.num.natAbs : Int) + 1) := by
    have : (x.num.natAbs : ℚ) < 2 ^ (natLog2 x.num.natAbs + 1) := by exact_mod_cast p2
    rw [show ((natLog2 x.num.natAbs : Int) + 1) = ((natLog2 x.num.natAbs + 1 : Nat) : Int) by
      push_cast; rfl, zpow_natCast]
    exact this
  have Q1 : (2 : ℚ) ^ (natLog2 x.den : Int) ≤ (x.den : ℚ) := by
    rw [zpow_natCast]
    exact_mod_cast q1
  have Q2 : (x.den : ℚ) < 2 ^ ((natLog2 x.den : Int) + 1) := by
    have : (x.den : ℚ) < 2 ^ (natLog2 x.den + 1) := by exact_mod_cast q2
    rw [show ((natLog2 x.den : Int) + 1) = ((natLog2 x.den + 1 : Nat) : Int) by
      push_cast; rfl, zpow_natCast]
    exact this
  have two : (2 : ℚ) ≠ 0 := by norm_num
  have hup : x < 2 ^ ((natLog2 x.num.natAbs : Int) - (natLog2 x.den : Int) + 1) := by
    have e : (2 : ℚ) ^ ((natLog2 x.num.natAbs : Int) - (natLog2 x.den : Int) + 1) =
        2 ^ ((natLog2 x.num.natAbs : Int) + 1) / 2 ^ (natLog2 x.den : Int) := by
      rw [← zpow_sub₀ two]
      congr 1
      ring
    rw [e]
    refine lt_of_eq_of_lt hxeq ?_
    rw [div_lt_div_iff₀ hq (zpow_pos (by norm_num) _)]
    calc (x.num.natAbs : ℚ) * 2 ^ (natLog2 x.den : Int)
        ≤ (x.num.natAbs : ℚ) * (x.den : ℚ) :=
          mul_le_mul_of_nonneg_left Q1 (Nat.cast_nonneg _)
      _ < 2 ^ ((natLog2 x.num.natAbs : Int) + 1) * (x.den : ℚ) :=
          mul_lt_mul_of_pos_right P2 hq
  have hlo : (2 : ℚ) ^ ((natLog2 x.num.natAbs : Int) - (natLog2 x.den : Int) - 1) ≤ x := by
    have e : (2 : ℚ) ^ ((natLog2 x.num.natAbs : Int) - (natLog2 x.den : Int) - 1) =
        2 ^ (natLog2 x.num.natAbs : Int) / 2 ^ ((natLog2 x.den : Int) + 1) := by
      rw [← zpow_sub₀ two]
      congr 1
      ring
    rw [e]
    refine le_of_le_of_eq ?_ hxeq.symm
    rw [div_le_div_iff₀ (zpow_pos (by norm_num) _) hq]
    calc (2 : ℚ) ^ (natLog2 x.num.natAbs : Int) * (x.den : ℚ)
        ≤ (x.num.natAbs : ℚ) * (x.den : ℚ) := mul_le_mul_of_nonneg_right P1 (le_of_lt hq)
      _ ≤ (x.num.natAbs : ℚ) * 2 ^ ((natLog2 x.den : Int) + 1) :=
          mul_le_mul_of_nonneg_left (le_of_lt Q2) (Nat.cast_nonneg _)
  unfold ilog2
  split_ifs with h
  · exact ⟨h, hup⟩
  · refine ⟨hlo, ?_⟩
    rw [sub_add_cancel]
    exact lt_of_not_le h

theorem ilog2_eq_log (x : ℚ) (hx : 0 < x) : ilog2 x = Int.log 2 x := by
  obtain ⟨h1, h2⟩ := ilog2_spec x hx
  have a : ilog2 x ≤ Int.log 2 x :=
    (Int.zpow_le_iff_le_log (by norm_num) hx).mp (by exact_mod_cast h1)
  have b : Int.log 2 x < ilog2 x + 1 :=
    (Int.lt_zpow_iff_log_lt (by norm_num) hx).mp (by exact_mod_cast h2)
  omega

theorem quantumExp_eq_log (x : ℚ) (hx : 0 < x) :
    quantumExp x = max (Int.log 2 x) (-1022) - 52 := by
  unfold quantumExp
  rw [ilog2_eq_log x hx]

theorem roundHalfEven_floor_le (m : ℚ) : ⌊m⌋ ≤ roundHalfEven m := by
  unfold roundHalfEven
  split_ifs <;> omega

theorem roundHalfEven_le_floor_succ (m : ℚ) : roundHalfEven m ≤ ⌊m⌋ + 1 := by
  unfold roundHalfEven
  split_ifs <;> omega

theorem roundHalfEven_intCast (n : Int) : roundHalfEven (n : ℚ) = n := by
  unfold roundHalfEven
  simp

theorem roundHalfEven_mono (a b : ℚ) (h : a ≤ b) : roundHalfEven a ≤ roundHalfEven b := by
  have hf : ⌊a⌋ ≤ ⌊b⌋ := Int.floor_mono h
  rcases lt_or_eq_of_le hf with hlt | heq
  · calc roundHalfEven a ≤ ⌊a⌋ + 1 := roundHalfEven_le_floor_succ a
      _ ≤ ⌊b⌋ := hlt
      _ ≤ roundHalfEven b := roundHalfEven_floor_le b
  · unfold roundHalfEven
    rw [heq]
    have hab : 2 * (a - ⌊b⌋) ≤ 2 * (b - ⌊b⌋) := by linarith
    split_ifs <;> first | omega | linarith

theorem roundHalfEven_le_of_le (m : ℚ) (k : Int) (h : m ≤ k) : roundHalfEven m ≤ k := by
  have := roundHalfEven_mono m k h
  rwa [roundHalfEven_intCast] at this

theorem roundHalfEven_ge_of_ge (m : ℚ) (k : Int) (h : (k : ℚ) ≤ m) : k ≤ roundHalfEven m := by
  have := roundHalfEven_mono k m h
  rwa [roundHalfEven_intCast] at this

theorem roundHalfEven_le_add_half (m : ℚ) : (roundHalfEven m : ℚ) ≤ m + 1 / 2 := by
  have h1 := Int.floor_le m
  have h2 := Int.lt_floor_add_one m
  unfold roundHalfEven
  split_ifs with a b c
  · linarith
  · push_cast; linarith
  · linarith
  · push_cast; linarith

theorem roundHalfEven_ge_sub_half (m : ℚ) : m - 1 / 2 ≤ (roundHalfEven m : ℚ) := by
  have h1 := Int.floor_le m
  have h2 := Int.lt_floor_add_one m
  unfold roundHalfEven
  split_ifs with a b c
  · linarith
  · push_cast; linarith
  · linarith
  · push_cast; linarith

theorem quantumExp_mono (x y : ℚ) (hx : 0 < x) (h : x ≤ y) : quantumExp x ≤ quantumExp y := by
  rw [quantumExp_eq_log x hx, quantumExp_eq_log y (lt_of_lt_of_le hx h)]
  have : Int.log 2 x ≤ Int.log 2 y := Int.log_mono_right hx h
  exact sub_le_sub_right (max_le_max this (le_refl _)) _

theorem quantumExp_ge (x : ℚ) : -1074 ≤ quantumExp x := by
  unfold quantumExp
  have := le_max_right (ilog2 x) (-1022)
  omega

theorem lt_quantum_top (x : ℚ) : x < 2 ^ (quantumExp x + 53) := by
  rcases le_or_lt x 0 with hx | hx
  · exact lt_of_le_of_lt hx (zpow_pos (by norm_num) _)
  · refine lt_of_lt_of_le (ilog2_spec x hx).2 ?_
    apply zpow_le_zpow_right₀ (by norm_num)
    unfold quantumExp
    have := le_max_left (ilog2 x) (-1022)
    omega

theorem quantum_bot_le (x : ℚ) (hx : 0 < x) (hn : -1022 ≤ Int.log 2 x) :
    2 ^ (quantumExp x + 52) ≤ x := by
  have h1 : (2 : ℚ) ^ (Int.log 2 x) ≤ x := by
    have := @Int.zpow_log_le_self ℚ _ _ 2 x (by norm_num) hx
    exact_mod_cast this
  refine le_trans (le_of_eq ?_) h1
  rw [quantumExp_eq_log x hx, max_eq_left hn]
  congr 1
  omega

theorem roundPos_nonneg (x : ℚ) (hx : 0 < x) : 0 ≤ roundPos x := by
  unfold roundPos
  have hq : (0 : ℚ) < 2 ^ quantumExp x := zpow_pos (by norm_num) _
  have h0 : (0 : Int) ≤ roundHalfEven (x / 2 ^ quantumExp x) :=
    roundHalfEven_ge_of_ge _ 0 (by simpa using le_of_lt (div_pos hx hq))
  exact mul_nonneg (by exact_mod_cast h0) (le_of_lt hq)

/-- A rounded positive value does not pass the top of its binade. -/
theorem roundPos_le_top (x : ℚ) : roundPos x ≤ 2 ^ (quantumExp x + 53) := by
  unfold roundPos
  have hq : (0 : ℚ) < 2 ^ quantumExp x := zpow_pos (by norm_num) _
  have h1 : x / 2 ^ quantumExp x ≤ ((2 ^ 53 : Int) : ℚ) := by
    rw [div_le_iff₀ hq]
    have := le_of_lt (lt_quantum_top x)
    rw [zpow_add₀ (by norm_num)] at this
    push_cast
    linarith [this]
  have h2 := roundHalfEven_le_of_le _ _ h1
  have h3 : (roundHalfEven (x / 2 ^ quantumExp x) : ℚ) ≤ 2 ^ (53 : Int) := by
    have e : (2 : ℚ) ^ (53 : Int) = ((2 ^ 53 : Int) : ℚ) := by norm_num
    rw [e]
    exact_mod_cast h2
  rw [zpow_add₀ (by norm_num), mul_comm ((2 : ℚ) ^ quantumExp x)]
  exact mul_le_mul_of_nonneg_right h3 (le_of_lt hq)

/-- A rounded positive normal value does not fall below the bottom of its binade. -/
theorem roundPos_ge_bot (x : ℚ) (hx : 0 < x) (hn : -1022 ≤ Int.log 2 x) :
    2 ^ (quantumExp x + 52) ≤ roundPos x := by
  unfold roundPos
  have hq : (0 : ℚ) < 2 ^ quantumExp x := zpow_pos (by norm_num) _
  have h1 : ((2 ^ 52 : Int) : ℚ) ≤ x / 2 ^ quantumExp x := by
    rw [le_div_iff₀ hq]
    have := quantum_bot_le x hx hn
    rw [zpow_add₀ (by norm_num)] at this
    push_cast
    linarith [this]
  have h2 := roundHalfEven_ge_of_ge _ _ h1
  have h3 : (2 : ℚ) ^ (52 : Int) ≤ (roundHalfEven (x / 2 ^ quantumExp x) : ℚ) := by
    have e : (2 : ℚ) ^ (52 : Int) = ((2 ^ 52 : Int) : ℚ) := by norm_num
    rw [e]
    exact_mod_cast h2
  rw [zpow_add₀ (by norm_num), mul_comm ((2 : ℚ) ^ quantumExp x)]
  exact mul_le_mul_of_nonneg_right h3 (le_of_lt hq)

theorem roundPos_mono (x y : ℚ) (hx : 0 < x) (h : x ≤ y) : roundPos x ≤ roundPos y := by
  have hy : 0 < y := lt_of_lt_of_le hx h
  rcases lt_or_eq_of_le (quantumExp_mono x y hx h) with hlt | heq
  · have hn : -1022 ≤ Int.log 2 y := by
      by_contra hc
      have h1 : quantumExp y = -1074 := by
        rw [quantumExp_eq_log y hy, max_eq_right (by omega)]
        norm_num
      have h2 := quantumExp_ge x
      omega
    refine le_trans (roundPos_le_top x) (le_trans ?_ (roundPos_ge_bot y hy hn))
    apply zpow_le_zpow_right₀ (by norm_num)
    omega
  · unfold roundPos
    rw [heq]
    have hq : (0 : ℚ) < 2 ^ quantumExp y := zpow_pos (by norm_num) _
    have h1 : x / 2 ^ quantumExp y ≤ y / 2 ^ quantumExp y := div_le_div_of_nonneg_right h (le_of_lt hq)
    have h2 := roundHalfEven_mono _ _ h1
    exact mul_le_mul_of_nonneg_right (by exact_mod_cast h2) (le_of_lt hq)

/-- Rounding is monotone: a value between two values that round to finite doubles rounds
to a finite double between them. -/
theorem round64_between (lo x hi a b : ℚ) (h1 : lo ≤ x) (h2 : x ≤ hi)
    (ha : round64 lo = Dbl.fin a) (hb : round64 hi = Dbl.fin b) :
    ∃ c, round64 x = Dbl.fin c ∧ a ≤ c ∧ c ≤ b := by
  have key : ∀ u v : ℚ, 0 < u → u ≤ v → ∀ w, round64 v = Dbl.fin w →
      round64 u = Dbl.fin (roundPos u) ∧ roundPos u ≤ w ∧ w = roundPos v := by
    intro u v hu huv w hw
    have hv : 0 < v := lt_of_lt_of_le hu huv
    unfold round64 at hw ⊢
    rw [if_neg (ne_of_gt hv), if_pos hv] at hw
    rw [if_neg (ne_of_gt hu), if_pos hu]
    split_ifs at hw with h3
    have hw1 : roundPos v = w := by injection hw
    have hm := roundPos_mono u v hu huv
    rw [if_pos (lt_of_le_of_lt hm h3)]
    exact ⟨rfl, by rw [← hw1]; exact hm, hw1.symm⟩
  have keyneg : ∀ u v : ℚ, v < 0 → u ≤ v → ∀ w, round64 u = Dbl.fin w →
      round64 v = Dbl.fin (-roundPos (-v)) ∧ w ≤ -roundPos (-v) ∧ w = -roundPos (-u) := by
    intro u v hv huv w hw
    have hu : u < 0 := lt_of_le_of_lt huv hv
    unfold round64 at hw ⊢
    rw [if_neg (ne_of_lt hu), if_neg (not_lt.mpr (le_of_lt hu))] at hw
    rw [if_neg (ne_of_lt hv), if_neg (not_lt.mpr (le_of_lt hv))]
    split_ifs at hw with h3
    have hw1 : -roundPos (-u) = w := by injection hw
    have hm := roundPos_mono (-v) (-u) (by linarith) (by linarith)
    rw [if_pos (lt_of_le_of_lt hm h3)]
    exact ⟨rfl, by rw [← hw1]; linarith, hw1.symm⟩
  have hzero : round64 0 = Dbl.fin 0 := by simp [round64]
  have hpos : ∀ u w : ℚ, 0 < u → round64 u = Dbl.fin w → 0 ≤ w := by
    intro u w hu hw
    obtain ⟨-, -, h⟩ := key u u hu (le_refl _) w hw
    rw [h]
    exact roundPos_nonneg u hu
  have hneg : ∀ u w : ℚ, u < 0 → round64 u = Dbl.fin w → w ≤ 0 := by
    intro u w hu hw
    obtain ⟨-, -, h⟩ := keyneg u u hu (le_refl _) w hw
    rw [h]
    have := roundPos_nonneg (-u) (by linarith)
    linarith
  rcases lt_trichotomy x 0 with hx | hx | hx
  · obtain ⟨e1, e2, e3⟩ := keyneg lo x hx h1 a ha
    refine ⟨_, e1, e2, ?_⟩
    rcases lt_trichotomy hi 0 with hh | hh | hh
    · obtain ⟨f1, f2, f3⟩ := keyneg x hi hh h2 _ e1
      rw [hb] at f1
      injection f1 with f1
      rw [f1]
      exact f2
    · subst hh
      rw [hzero] at hb
      injection hb with hb
      rw [← hb]
      have := roundPos_nonneg (-x) (by linarith)
      linarith
    · have := hpos hi b hh hb
      have := roundPos_nonneg (-x) (by linarith)
      linarith
  · subst hx
    refine ⟨0, hzero, ?_, ?_⟩
    · rcases lt_or_eq_of_le h1 with hl | hl
      · exact hneg lo a hl ha
      · rw [hl, hzero] at ha
        injection ha with ha
        exact le_of_eq ha.symm
    · rcases lt_or_eq_of_le h2 with hl | hl
      · exact hpos hi b hl hb
      · rw [← hl, hzero] at hb
        injection hb with hb
        exact le_of_eq hb
  · obtain ⟨e1, e2, e3⟩ := key x hi hx h2 b hb
    refine ⟨_, e1, ?_, e2⟩
    rcases lt_trichotomy lo 0 with hh | hh | hh
    · have := hneg lo a hh ha
      have := roundPos_nonneg x hx
      linarith
    · subst hh
      rw [hzero] at ha
      injection ha with ha
      rw [← ha]
      exact roundPos_nonneg x hx
    · obtain ⟨f1, f2, f3⟩ := key lo x hh h1 _ e1
      rw [ha] at f1
      injection f1 with f1
      rw [f1]
      exact f2

theorem quantumExp_le_of_lt (x : ℚ) (hx : 0 < x) (e : Int) (he : -1074 ≤ e)
    (h : x < 2 ^ (e + 53)) : quantumExp x ≤ e := by
  have h1 : Int.log 2 x < e + 53 :=
    (Int.lt_zpow_iff_log_lt (by norm_num) hx).mp (by exact_mod_cast h)
  rw [quantumExp_eq_log x hx]
  have : max (Int.log 2 x) (-1022) ≤ e + 52 := max_le (by omega) (by omega)
  omega

/-- A multiple of a power of two at or above the quantum of a value is left alone by the
rounding of that value. -/
theorem roundPos_of_multiple (x : ℚ) (n : Int) (e : Int) (hx : x = (n : ℚ) * 2 ^ e)
    (hq : quantumExp x ≤ e) : roundPos x = x := by
  obtain ⟨d, hd⟩ := Int.eq_ofNat_of_zero_le (sub_nonneg.mpr hq)
  have he : e = quantumExp x + (d : Int) := by omega
  have hx1 : x / 2 ^ quantumExp x = ((n * 2 ^ d : Int) : ℚ) := by
    have hq0 : (2 : ℚ) ^ quantumExp x ≠ 0 := ne_of_gt (zpow_pos (by norm_num) _)
    rw [div_eq_iff hq0]
    conv_lhs => rw [hx, he, zpow_add₀ (by norm_num : (2 : ℚ) ≠ 0), zpow_natCast]
    push_cast
    ring
  unfold roundPos
  rw [hx1, roundHalfEven_intCast, ← hx1]
  exact div_mul_cancel₀ _ (ne_of_gt (zpow_pos (by norm_num) _))

theorem round64_zero : round64 0 = Dbl.fin 0 := by simp [round64]

/-- The doubles: a number `m * 2 ^ e` with `m < 2 ^ 53`, `e` at least -1074 and magnitude
below `2 ^ 1024` is left alone by the rounding. -/
theorem round64_repr (m : Nat) (e : Int) (hm : m < 2 ^ 53) (he : -1074 ≤ e)
    (hlt : (m : ℚ) * 2 ^ e < 2 ^ (1024 : Int)) :
    round64 ((m : ℚ) * 2 ^ e) = Dbl.fin ((m : ℚ) * 2 ^ e) := by
  rcases Nat.eq_zero_or_pos m with h0 | h0
  · subst h0
    simp [round64]
  · have h2 : (0 : ℚ) < 2 ^ e := zpow_pos (by norm_num) _
    have hx : (0 : ℚ) < (m : ℚ) * 2 ^ e := mul_pos (by exact_mod_cast h0) h2
    have hlt2 : (m : ℚ) * 2 ^ e < 2 ^ (e + 53) := by
      rw [zpow_add₀ (by norm_num : (2 : ℚ) ≠ 0), mul_comm ((2 : ℚ) ^ e)]
      apply mul_lt_mul_of_pos_right _ h2
      have : ((m : Nat) : ℚ) < ((2 ^ 53 : Nat) : ℚ) := by exact_mod_cast hm
      have e2 : (2 : ℚ) ^ (53 : Int) = ((2 ^ 53 : Nat) : ℚ) := by norm_num
      rw [e2]
      exact this
    have hq := quantumExp_le_of_lt _ hx e he hlt2
    have hr := roundPos_of_multiple ((m : ℚ) * 2 ^ e) (m : Int) e (by push_cast; rfl) hq
    unfold round64
    rw [if_neg (ne_of_gt hx), if_pos hx, hr, if_pos hlt]

theorem round64_neg (x : ℚ) :
    round64 (-x) = (match round64 x with
      | Dbl.nan => Dbl.nan
      | Dbl.ninf => Dbl.pinf
      | Dbl.pinf => Dbl.ninf
      | Dbl.fin v => Dbl.fin (-v)) := by
  rcases lt_trichotomy x 0 with hx | hx | hx
  · have h1 : 0 < -x := by linarith
    unfold round64
    rw [if_neg (ne_of_gt h1), if_pos h1, if_neg (ne_of_lt hx), if_neg (not_lt.mpr (le_of_lt hx))]
    split_ifs <;> simp
  · subst hx
    simp [round64]
  · have h1 : -x < 0 := by linarith
    unfold round64
    rw [if_neg (ne_of_lt h1), if_neg (not_lt.mpr (le_of_lt h1)), if_neg (ne_of_gt hx),
      if_pos hx, neg_neg]
    split_ifs <;> simp

theorem round64_pos_fin (x a : ℚ) (hx : 0 < x) (h : round64 x = Dbl.fin a) :
    a = roundPos x ∧ roundPos x < 2 ^ (1024 : Int) := by
  unfold round64 at h
  rw [if_neg (ne_of_gt hx), if_pos hx] at h
  split_ifs at h with h3
  injection h with h
  exact ⟨h.symm, h3⟩

/-- A finite result of the rounding is itself left alone by the rounding. -/
theorem round64_idem (x a : ℚ) (h : round64 x = Dbl.fin a) : round64 a = Dbl.fin a := by
  have hpos : ∀ u b : ℚ, 0 < u → round64 u = Dbl.fin b → round64 b = Dbl.fin b := by
    intro u b hu hb
    obtain ⟨hb1, hb2⟩ := round64_pos_fin u b hu hb
    have hq : (0 : ℚ) < 2 ^ quantumExp u := zpow_pos (by norm_num) _
    have h0 : (0 : Int) ≤ roundHalfEven (u / 2 ^ quantumExp u) :=
      roundHalfEven_ge_of_ge _ 0 (by simpa using le_of_lt (div_pos hu hq))
    have h53 : roundHalfEven (u / 2 ^ quantumExp u) ≤ 2 ^ 53 := by
      apply roundHalfEven_le_of_le
      rw [div_le_iff₀ hq]
      have := le_of_lt (lt_quantum_top u)
      rw [zpow_add₀ (by norm_num)] at this
      push_cast
      linarith [this]
    obtain ⟨n, hn⟩ := Int.eq_ofNat_of_zero_le h0
    have hbn : b = (n : ℚ) * 2 ^ quantumExp u := by
      rw [hb1]
      unfold roundPos
      rw [hn]
      push_cast
      rfl
    rw [hn] at h53
    have hn53 : n ≤ 2 ^ 53 := by exact_mod_cast h53
    rcases lt_or_eq_of_le hn53 with hl | he
    · rw [hbn]
      apply round64_repr n _ hl (quantumExp_ge u)
      rw [← hbn, hb1]
      exact hb2
    · have hb2' : b = ((2 ^ 52 : Nat) : ℚ) * 2 ^ (quantumExp u + 1) := by
        rw [hbn, he, zpow_add₀ (by norm_num : (2 : ℚ) ≠ 0)]
        push_cast
        ring
      rw [hb2']
      apply round64_repr (2 ^ 52) _ (by norm_num) (by have := quantumExp_ge u; omega)
      rw [← hb2', hb1]
      exact hb2
  rcases lt_trichotomy x 0 with hx | hx | hx
  · have h1 := round64_neg x
    rw [h] at h1
    simp only at h1
    have h2 := hpos (-x) (-a) (by linarith) h1
    have h3 := round64_neg (-a)
    rw [h2, neg_neg] at h3
    simpa using h3
  · subst hx
    rw [round64_zero] at h
    injection h with h
    rw [← h]
    exact round64_zero
  · exact hpos x a hx h

theorem roundPos_le_add (x : ℚ) : roundPos x ≤ x + 2 ^ (quantumExp x - 1) := by
  have hq : (0 : ℚ) < 2 ^ quantumExp x := zpow_pos (by norm_num) _
  have h1 := roundHalfEven_le_add_half (x / 2 ^ quantumExp x)
  have h2 := mul_le_mul_of_nonneg_right h1 (le_of_lt hq)
  have h3 : (x / 2 ^ quantumExp x + 1 / 2) * 2 ^ quantumExp x = x + 2 ^ (quantumExp x - 1) := by
    rw [zpow_sub₀ (by norm_num : (2 : ℚ) ≠ 0)]
    field_simp
    ring
  unfold roundPos
  linarith

theorem roundPos_ge_sub (x : ℚ) : x - 2 ^ (quantumExp x - 1) ≤ roundPos x := by
  have hq : (0 : ℚ) < 2 ^ quantumExp x := zpow_pos (by norm_num) _
  have h1 := roundHalfEven_ge_sub_half (x / 2 ^ quantumExp x)
  have h2 := mul_le_mul_of_nonneg_right h1 (le_of_lt hq)
  have h3 : (x / 2 ^ quantumExp x - 1 / 2) * 2 ^ quantumExp x = x - 2 ^ (quantumExp x - 1) := by
    rw [zpow_sub₀ (by norm_num : (2 : ℚ) ≠ 0)]
    field_simp
    ring
  unfold roundPos
  linarith

/-- In the normal range the rounding error is at most `2 ^ -53` of the value. -/
theorem roundPos_le_rel (x : ℚ) (hx : 0 < x) (hn : -1022 ≤ Int.log 2 x) :
    roundPos x ≤ x * (1 + 2 ^ (-53 : Int)) := by
  have h1 := roundPos_le_add x
  have h2 := quantum_bot_le x hx hn
  have h3 : (2 : ℚ) ^ (quantumExp x - 1) = 2 ^ (quantumExp x + 52) * 2 ^ (-53 : Int) := by
    rw [← zpow_add₀ (by norm_num : (2 : ℚ) ≠ 0)]
    congr 1
    omega
  have h4 : (2 : ℚ) ^ (quantumExp x + 52) * 2 ^ (-53 : Int) ≤ x * 2 ^ (-53 : Int) :=
    mul_le_mul_of_nonneg_right h2 (le_of_lt (zpow_pos (by norm_num) _))
  rw [h3] at h1
  linarith

/-- Two distinct positive doubles are at least one quantum of the smaller apart. -/
theorem double_gap (x0 x1 : ℚ) (h0 : 0 < x0) (hlt : x0 < x1)
    (hd0 : round64 x0 = Dbl.fin x0) (hd1 : round64 x1 = Dbl.fin x1) :
    x0 + 2 ^ quantumExp x0 ≤ x1 := by
  have h1 : 0 < x1 := lt_trans h0 hlt
  obtain ⟨e0, -⟩ := round64_pos_fin x0 x0 h0 hd0
  obtain ⟨e1, -⟩ := round64_pos_fin x1 x1 h1 hd1
  have hq := quantumExp_mono x0 x1 h0 (le_of_lt hlt)
  obtain ⟨d, hd⟩ := Int.eq_ofNat_of_zero_le (sub_nonneg.mpr hq)
  have hq1 : quantumExp x1 = quantumExp x0 + (d : Int) := by omega
  have hp : (0 : ℚ) < 2 ^ quantumExp x0 := zpow_pos (by norm_num) _
  unfold roundPos at e0 e1
  rw [hq1, zpow_add₀ (by norm_num : (2 : ℚ) ≠ 0), zpow_natCast] at e1
  set n0 := roundHalfEven (x0 / 2 ^ quantumExp x0) with hn0
  set n1 := roundHalfEven (x1 / (2 ^ quantumExp x0 * 2 ^ d)) with hn1
  have hlt2 : (n0 : ℚ) * 2 ^ quantumExp x0 < ((n1 * 2 ^ d : Int) : ℚ) * 2 ^ quantumExp x0 := by
    have : x0 < x1 := hlt
    rw [e0, e1] at this
    push_cast
    linarith
  have hlt3 : (n0 : ℚ) < ((n1 * 2 ^ d : Int) : ℚ) := lt_of_mul_lt_mul_right hlt2 (le_of_lt hp)
  have hlt4 : n0 + 1 ≤ n1 * 2 ^ d := by exact_mod_cast hlt3
  have hlt5 : ((n0 + 1 : Int) : ℚ) ≤ ((n1 * 2 ^ d : Int) : ℚ) := by exact_mod_cast hlt4
  have hlt6 := mul_le_mul_of_nonneg_right hlt5 (le_of_lt hp)
  push_cast at hlt6
  linarith [e0, e1, hlt6]

end Binary64Lemmas

section BracketRange

variable {F : Type} [LinearOrderedField F]

/-- The loop body interpolates between the two entries of the bracket. -/
theorem pdePoint_bracket (fl : F → Dbl F) (L : Libm F) (m : List (F × F)) (k : F) :
    pdePoint fl L m k =
      (bracket m k).map fun b => interpolate fl L b.1.1 b.1.2 b.2.1 b.2.2 k := by
  unfold pdePoint bracket
  simp only
  cases m[bracketIndex m k - 1]? with
  | none => rfl
  | some e0 =>
    cases m[bracketIndex m k]? with
    | none => rfl
    | some e1 => rfl

/-- In a map of at least two entries the two boundary adjustments leave the upper bracket
index from 1 to the last index, whatever the target wavelength. -/
theorem bracketIndex_range (m : List (F × F)) (h2 : 2 ≤ m.length) (k : F) :
    1 ≤ bracketIndex m k ∧ bracketIndex m k < m.length := by
  have := upper_bound_le_length m k
  unfold bracketIndex
  simp only
  split_ifs <;> omega

theorem sorted_adjacent_lt (m : List (F × F)) (hm : (m.map Prod.fst).Pairwise (· < ·))
    (j : Nat) (e0 e1 : F × F) (h0 : m[j]? = some e0) (h1 : m[j + 1]? = some e1) :
    e0.1 < e1.1 := by
  induction m generalizing j with
  | nil => simp at h0
  | cons h t ih =>
    simp only [List.map_cons, List.pairwise_cons] at hm
    cases j with
    | zero =>
      simp only [List.getElem?_cons_zero, Option.some.injEq] at h0
      simp only [zero_add, List.getElem?_cons_succ] at h1
      subst h0
      exact hm.1 _ (List.mem_map_of_mem _ (List.getElem?_mem h1))
    | succ j0 =>
      simp only [List.getElem?_cons_succ] at h0 h1
      exact ih hm.2 j0 h0 h1

/-- In a sorted map of at least two entries the bracket of any target wavelength exists and
is made of two adjacent entries.  It is the pair around the upper bound when that is
neither `begin()` nor `end()`; at `begin()` the adjustment `++it1` gives the first two
entries, at `end()` the adjustment `--it1` gives the last two. -/
theorem bracket_cases (m : List (F × F)) (hm : (m.map Prod.fst).Pairwise (· < ·))
    (h2 : 2 ≤ m.length) (k : F) :
    ∃ j e0 e1, m[j]? = some e0 ∧ m[j + 1]? = some e1 ∧ bracket m k = some (e0, e1) ∧
      bracketIndex m k = j + 1 ∧ e0.1 < e1.1 ∧
      ((upper_bound m k = 0 ∧ j = 0 ∧ k < e0.1) ∨
        (upper_bound m k = j + 1 ∧ j + 1 < m.length ∧ e0.1 ≤ k ∧ k < e1.1) ∨
        (upper_bound m k = m.length ∧ j + 2 = m.length ∧ e1.1 ≤ k)) := by
  obtain ⟨hlo, hhi⟩ := bracketIndex_range m h2 k
  obtain ⟨j, hj⟩ := Nat.exists_eq_succ_of_ne_zero (Nat.pos_iff_ne_zero.mp hlo)
  have hj1 : j + 1 < m.length := by omega
  have hj0 : j < m.length := by omega
  have hg0 : m[j]? = some m[j] := List.getElem?_eq_getElem hj0
  have hg1 : m[j + 1]? = some m[j + 1] := List.getElem?_eq_getElem hj1
  have hb : bracket m k = some (m[j], m[j + 1]) := by
    unfold bracket
    rw [hj]
    simp only [Nat.succ_eq_add_one, Nat.add_sub_cancel, hg0, hg1]
  refine ⟨j, m[j], m[j + 1], hg0, hg1, hb, hj, sorted_adjacent_lt m hm j _ _ hg0 hg1, ?_⟩
  have hub := upper_bound_le_length m k
  have hidx : bracketIndex m k = j + 1 := hj
  rcases Nat.eq_zero_or_pos (upper_bound m k) with h0 | h0
  · left
    have hb1 : bracketIndex m k = 1 := by
      unfold bracketIndex
      simp only [h0]
      split_ifs <;> omega
    have hj00 : j = 0 := by omega
    refine ⟨h0, hj00, ?_⟩
    subst hj00
    exact upper_bound_key_gt m k _ (by rw [h0]; exact hg0)
  · rcases lt_or_eq_of_le hub with h1 | h1
    · right
      left
      have hb1 := bracketIndex_eq m k h0 h1
      have hub1 : upper_bound m k = j + 1 := by omega
      refine ⟨hub1, hj1, ?_, ?_⟩
      · exact upper_bound_key_le m k j _ (by omega) hg0
      · exact upper_bound_key_gt m k _ (by rw [hub1]; exact hg1)
    · right
      right
      have hb1 : bracketIndex m k = m.length - 1 := by
        unfold bracketIndex
        simp only [h1, if_true]
        split_ifs <;> omega
      refine ⟨h1, by omega, ?_⟩
      exact upper_bound_key_le m k (j + 1) _ (by omega) hg1

/-- With at least two entries in the input map every pass of the loop body finds its two
bracket entries and yields a value. -/
theorem pdePoint_some (fl : F → Dbl F) (L : Libm F) (m : List (F × F)) (h2 : 2 ≤ m.length)
    (k : F) : ∃ v, pdePoint fl L m k = some v := by
  obtain ⟨hlo, hhi⟩ := bracketIndex_range m h2 k
  have h0 : bracketIndex m k - 1 < m.length := by omega
  unfold pdePoint
  simp only [List.getElem?_eq_getElem h0, List.getElem?_eq_getElem hhi]
  exact ⟨_, rfl⟩

omit [LinearOrderedField F] in
theorem two_le_length_of_distinct (m : List (F × F)) (a b : F) (ha : a ∈ m.map Prod.fst)
    (hb : b ∈ m.map Prod.fst) (hab : a ≠ b) : 2 ≤ m.length := by
  match m, ha, hb with
  | [], ha, _ => simp at ha
  | [e], ha, hb =>
    simp only [List.map_cons, List.map_nil, List.mem_singleton] at ha hb
    exact absurd (ha.trans hb.symm) hab
  | _ :: _ :: _, _, _ => simp

end BracketRange

section LoopLemmas

variable {F : Type} [LinearOrderedField F]

/-- What the first loop and the reads of `xmin`, `xmax` give on an input whose smallest and
largest wavelengths are `xmin` and `xmax`. -/
theorem fillInput_spec (wav pde : List F) (hlen : wav.length ≤ pde.length) (xmin xmax : F)
    (hmin : xmin ∈ wav) (hminle : ∀ w ∈ wav, xmin ≤ w)
    (hmax : xmax ∈ wav) (hmaxle : ∀ w ∈ wav, w ≤ xmax) :
    ∃ input ymin ymax, fillInput wav pde [] = some input ∧
      (input.map Prod.fst).Pairwise (· < ·) ∧
      input.head? = some (xmin, ymin) ∧ input.getLast? = some (xmax, ymax) ∧
      ∀ k, k ∈ input.map Prod.fst ↔ k ∈ wav := by
  obtain ⟨input, hin⟩ := fillInput_some wav pde [] hlen
  have hkeys : ∀ k, k ∈ input.map Prod.fst ↔ k ∈ wav := by
    intro k
    rw [fillInput_keys wav pde [] input hin k]
    simp
  have hsorted : (input.map Prod.fst).Pairwise (· < ·) :=
    fillInput_sorted wav pde [] input hin (by simp)
  have hne : input ≠ [] := by
    intro h0
    have := (hkeys xmin).mpr hmin
    simp [h0] at this
  obtain ⟨e0, he0⟩ : ∃ e0, input.head? = some e0 := by
    cases input with
    | nil => exact absurd rfl hne
    | cons h t => exact ⟨h, rfl⟩
  obtain ⟨e1, he1⟩ : ∃ e1, input.getLast? = some e1 :=
    ⟨input.getLast hne, List.getLast?_eq_getLast _ hne⟩
  have hm0 : e0.1 ∈ input.map Prod.fst :=
    List.mem_map_of_mem _ (List.mem_of_mem_head? he0)
  have hm1 : e1.1 ∈ input.map Prod.fst :=
    List.mem_map_of_mem _ (List.mem_of_getLast?_eq_some he1)
  have h0 : e0.1 = xmin :=
    le_antisymm (sorted_head_le input hsorted e0 he0 xmin ((hkeys xmin).mpr hmin))
      (hminle _ ((hkeys _).mp hm0))
  have h1 : e1.1 = xmax :=
    le_antisymm (hmaxle _ ((hkeys _).mp hm1))
      (sorted_le_getLast input hsorted e1 he1 xmax ((hkeys xmax).mpr hmax))
  refine ⟨input, e0.2, e1.2, hin, hsorted, ?_, ?_, hkeys⟩
  · rw [he0, ← h0]
  · rw [he1, ← h1]

theorem mapAssign_length_le {V : Type} (m : List (F × V)) (k : F) (v : V) :
    (mapAssign m k v).length ≤ m.length + 1 := by
  induction m with
  | nil => simp [mapAssign]
  | cons h t ih =>
    obtain ⟨k0, v0⟩ := h
    unfold mapAssign
    split_ifs
    · simp
    · simpa using ih
    · simp

theorem mapAssign_mem {V : Type} (m : List (F × V)) (k : F) (v : V) (e : F × V)
    (he : e ∈ mapAssign m k v) : e = (k, v) ∨ e ∈ m := by
  induction m with
  | nil => simpa [mapAssign] using he
  | cons h t ih =>
    obtain ⟨k0, v0⟩ := h
    unfold mapAssign at he
    split_ifs at he with h1 h2
    · simpa using he
    · simp only [List.mem_cons] at he ⊢
      rcases he with he | he
      · exact Or.inr (Or.inl he)
      · rcases ih he with h3 | h3
        · exact Or.inl h3
        · exact Or.inr (Or.inr h3)
    · simp only [List.mem_cons] at he ⊢
      rcases he with he | he
      · exact Or.inl he
      · exact Or.inr (Or.inr he)

/-- One pass of the main loop at a finite target wavelength. -/
theorem pdeLoop_cons (fl : F → Dbl F) (L : Libm F) (input : List (F × F)) (xmin dx : F)
    (i : Nat) (is : List Nat) (sp : List (F × Dbl F)) (newx : F)
    (h : gridPoint fl xmin dx i = Dbl.fin newx) :
    pdeLoop fl L input xmin dx (i :: is) sp =
      (pdePoint fl L input newx).bind fun newy =>
        pdeLoop fl L input xmin dx is (mapAssign sp newx newy) := by
  simp only [pdeLoop, h]
  cases pdePoint fl L input newx with
  | none => rfl
  | some v => rfl

/-- The main loop returns when its targets are finite and the input map has at least two
entries; the keys it leaves are the previous ones and the targets, in increasing order; at
most one entry is added per pass; at each target the value computed for it is stored; the
other entries are untouched, and every entry is a previous one or comes from a pass. -/
theorem pdeLoop_spec (fl : F → Dbl F) (L : Libm F) (input : List (F × F)) (xmin dx : F)
    (t : Nat → F) (h2 : 2 ≤ input.length) (is : List Nat) (sp : List (F × Dbl F))
    (ht : ∀ i ∈ is, gridPoint fl xmin dx i = Dbl.fin (t i)) :
    ∃ r, pdeLoop fl L input xmin dx is sp = some r ∧
      (∀ k, k ∈ r.map Prod.fst ↔ k ∈ sp.map Prod.fst ∨ k ∈ is.map t) ∧
      ((sp.map Prod.fst).Pairwise (· < ·) → (r.map Prod.fst).Pairwise (· < ·)) ∧
      r.length ≤ sp.length + is.length ∧
      (∀ i ∈ is, mapFind r (t i) = pdePoint fl L input (t i)) ∧
      (∀ k, k ∉ is.map t → mapFind r k = mapFind sp k) ∧
      (∀ e ∈ r, e ∈ sp ∨ ∃ i ∈ is, e.1 = t i ∧ pdePoint fl L input (t i) = some e.2) := by
  induction is generalizing sp with
  | nil =>
    refine ⟨sp, rfl, ?_, fun h => h, by simp, ?_, fun _ _ => rfl, fun e he => Or.inl he⟩
    · intro k
      simp
    · intro i hi
      simp at hi
  | cons i0 is ih =>
    obtain ⟨v, hv⟩ := pdePoint_some fl L input h2 (t i0)
    obtain ⟨r, hr, hkeys, hsorted, hlen, hfind, hother, hval⟩ :=
      ih (mapAssign sp (t i0) v) (fun i hi => ht i (List.mem_cons_of_mem _ hi))
    refine ⟨r, ?_, ?_, ?_, ?_, ?_, ?_, ?_⟩
    · rw [pdeLoop_cons fl L input xmin dx i0 is sp (t i0) (ht i0 (List.mem_cons_self _ _)), hv]
      exact hr
    · intro k
      rw [hkeys k, mapAssign_keys]
      simp only [List.map_cons, List.mem_cons]
      tauto
    · intro hs
      exact hsorted (mapAssign_sorted sp (t i0) v hs)
    · have := mapAssign_length_le sp (t i0) v
      simp only [List.length_cons]
      omega
    · intro i hi
      by_cases hmem : t i ∈ is.map t
      · obtain ⟨i1, hi1, he⟩ := List.mem_map.mp hmem
        rw [← he]
        exact hfind i1 hi1
      · have hi0 : i = i0 := by
          rcases List.mem_cons.mp hi with h | h
          · exact h
          · exact absurd (List.mem_map_of_mem t h) hmem
        subst hi0
        rw [hother _ hmem, mapFind_mapAssign_self, hv]
    · intro k hk
      simp only [List.map_cons, List.mem_cons, not_or] at hk
      rw [hother k hk.2, mapFind_mapAssign_of_ne _ _ _ _ hk.1]
    · intro e he
      rcases hval e he with h | ⟨i, hi, h⟩
      · rcases mapAssign_mem sp (t i0) v e h with h1 | h1
        · right
          refine ⟨i0, List.mem_cons_self _ _, ?_, ?_⟩
          · rw [h1]
          · rw [h1, hv]
        · exact Or.inl h1
      · exact Or.inr ⟨i, List.mem_cons_of_mem _ hi, h⟩

/-- When the target wavelengths increase and lie above every stored key, the loop appends
one entry per pass. -/
theorem pdeLoop_append (fl : F → Dbl F) (L : Libm F) (input : List (F × F)) (xmin dx : F)
    (t : Nat → F) (h2 : 2 ≤ input.length) (is : List Nat) (sp : List (F × Dbl F))
    (ht : ∀ i ∈ is, gridPoint fl xmin dx i = Dbl.fin (t i))
    (hinc : (is.map t).Pairwise (· < ·))
    (hsp : ∀ k0 ∈ sp.map Prod.fst, ∀ i ∈ is, k0 < t i) :
    pdeLoop fl L input xmin dx is sp =
      some (sp ++ is.map fun i : Nat => (t i, (pdePoint fl L input (t i)).getD Dbl.nan)) := by
  induction is generalizing sp with
  | nil => simp [pdeLoop]
  | cons i is ih =>
    obtain ⟨v, hv⟩ := pdePoint_some fl L input h2 (t i)
    simp only [List.map_cons, List.pairwise_cons] at hinc
    rw [pdeLoop_cons fl L input xmin dx i is sp (t i) (ht i (List.mem_cons_self _ _)), hv]
    simp only [Option.some_bind]
    rw [mapAssign_append sp _ v (fun k0 hk0 => hsp k0 hk0 i (by simp))]
    rw [ih _ (fun j hj => ht j (List.mem_cons_of_mem _ hj)) hinc.2]
    · simp [hv]
    · intro k0 hk0 j hj
      simp only [List.map_append, List.map_cons, List.map_nil, List.mem_append,
        List.mem_singleton] at hk0
      rcases hk0 with hk0 | rfl
      · exact hsp k0 hk0 j (List.mem_cons_of_mem _ hj)
      · exact hinc.1 _ (List.mem_map_of_mem _ hj)

theorem lt_of_two_distinct (wav : List F) (h2 : ∃ a ∈ wav, ∃ b ∈ wav, a ≠ b) (xmin xmax : F)
    (hminle : ∀ w ∈ wav, xmin ≤ w) (hmaxle : ∀ w ∈ wav, w ≤ xmax) : xmin < xmax := by
  obtain ⟨a, ha, b, hb, hab⟩ := h2
  rcases lt_or_gt_of_ne hab with h | h
  · exact lt_of_le_of_lt (hminle a ha) (lt_of_lt_of_le h (hmaxle b hb))
  · exact lt_of_le_of_lt (hminle b hb) (lt_of_lt_of_le h (hmaxle a ha))

/-- A run of `setPdeSpectrum` on an input map of at least two entries whose step and 32
target wavelengths are finite: the call returns the state in which the map left by the main
loop is stored. -/
theorem setPdeSpectrum_run (fl : F → Dbl F) (L : Libm F) (wav pde : List F)
    (s : SiPMProperties F) (input : List (F × F)) (xmin xmax ymin ymax dx : F) (t : Nat → F)
    (hin : fillInput wav pde [] = some input) (hhead : input.head? = some (xmin, ymin))
    (hlast : input.getLast? = some (xmax, ymax)) (h2 : 2 ≤ input.length)
    (hdx : gridStep fl xmin xmax = Dbl.fin dx)
    (ht : ∀ i, i < 32 → gridPoint fl xmin dx i = Dbl.fin (t i)) :
    ∃ r, pdeLoop fl L input xmin dx (List.range 32) s.m_PdeSpectrum = some r ∧
      setPdeSpectrum fl L wav pde s =
        some { s with m_PdeSpectrum := r, m_HasPde := PdeType.kSpectrumPde } := by
  obtain ⟨r, hr, -⟩ := pdeLoop_spec fl L input xmin dx t h2 (List.range 32) s.m_PdeSpectrum
    (fun i hi => ht i (List.mem_range.mp hi))
  refine ⟨r, hr, ?_⟩
  unfold setPdeSpectrum
  simp only [hin, hhead, hlast, hdx, N, hr]

theorem gridStep_eq (fl : F → Dbl F) (xmin xmax D : F) (h : fl (xmax - xmin) = Dbl.fin D) :
    gridStep fl xmin xmax = fl (D / 32) := by
  have h32 : ((32 : Nat) : F) ≠ 0 := by norm_num
  unfold gridStep Dbl.divR Dbl.subR Dbl.sub
  simp only [Dbl.neg, Dbl.add, Dbl.rnd, ← sub_eq_add_neg, h, Dbl.div, N, if_neg h32]
  norm_num

theorem gridPoint_eq (fl : F → Dbl F) (xmin dx : F) (i : Nat) (p : F)
    (h : fl ((i : F) * dx) = Dbl.fin p) : gridPoint fl xmin dx i = fl (xmin + p) := by
  unfold gridPoint Dbl.addR Dbl.mulR
  simp only [Dbl.mul, Dbl.rnd, h, Dbl.add]

end LoopLemmas

section GridLemmas

theorem round64_one : round64 1 = Dbl.fin 1 := by
  have := round64_repr 1 0 (by norm_num) (by norm_num) (by norm_num)
  simpa using this

/-- A small multiple of a power of two is a double. -/
theorem round64_small_mul (m : Nat) (e : Int) (hm : m < 64) (he : -1074 ≤ e)
    (he1 : e ≤ 1018) : round64 ((m : ℚ) * 2 ^ e) = Dbl.fin ((m : ℚ) * 2 ^ e) := by
  apply round64_repr m e (lt_of_lt_of_le hm (by norm_num)) he
  have h1 : (m : ℚ) < 64 := by exact_mod_cast hm
  have h2 : (2 : ℚ) ^ e ≤ 2 ^ (1018 : Int) := zpow_le_zpow_right₀ (by norm_num) he1
  have h3 : (0 : ℚ) < 2 ^ e := zpow_pos (by norm_num) _
  have h4 : (64 : ℚ) * 2 ^ (1018 : Int) = 2 ^ (1024 : Int) := by
    rw [show (64 : ℚ) = 2 ^ (6 : Int) by norm_num, ← zpow_add₀ (by norm_num : (2 : ℚ) ≠ 0)]
    norm_num
  calc (m : ℚ) * 2 ^ e < 64 * 2 ^ e := mul_lt_mul_of_pos_right h1 h3
    _ ≤ 64 * 2 ^ (1018 : Int) := mul_le_mul_of_nonneg_left h2 (by norm_num)
    _ = 2 ^ (1024 : Int) := h4

theorem round64_two_zpow (e : Int) (he : -1074 ≤ e) (he1 : e ≤ 1023) :
    round64 (2 ^ e) = Dbl.fin (2 ^ e) := by
  have := round64_repr 1 e (by norm_num) he (by
    rw [Nat.cast_one, one_mul]
    exact zpow_lt_zpow_right₀ (by norm_num) (by omega))
  simpa using this

/-- For doubles of magnitude at most `2 ^ 1022` the step and the 32 target wavelengths are
finite, the first target is `xmin`, no target lies below `xmin`, and the targets do not
decrease with the index. -/
theorem grid_finite (xmin xmax : ℚ) (hlt : xmin < xmax)
    (hdmin : round64 xmin = Dbl.fin xmin) (hbmin : |xmin| ≤ 2 ^ (1022 : Int))
    (hbmax : |xmax| ≤ 2 ^ (1022 : Int)) :
    ∃ (dx : ℚ) (t : Nat → ℚ), gridStep round64 xmin xmax = Dbl.fin dx ∧ 0 ≤ dx ∧
      (∀ i, i < 32 → gridPoint round64 xmin dx i = Dbl.fin (t i)) ∧ t 0 = xmin ∧
      (∀ i, i < 32 → xmin ≤ t i) ∧ (∀ i j, i ≤ j → j < 32 → t i ≤ t j) := by
  have e1022 : (2 : ℚ) ^ (1022 : Int) = 16 * 2 ^ (1018 : Int) := by
    rw [show (16 : ℚ) = 2 ^ (4 : Int) by norm_num, ← zpow_add₀ (by norm_num : (2 : ℚ) ≠ 0)]
    norm_num
  have e1023 : (2 : ℚ) ^ (1023 : Int) = 32 * 2 ^ (1018 : Int) := by
    rw [show (32 : ℚ) = 2 ^ (5 : Int) by norm_num, ← zpow_add₀ (by norm_num : (2 : ℚ) ≠ 0)]
    norm_num
  have hp : (0 : ℚ) < 2 ^ (1018 : Int) := zpow_pos (by norm_num) _
  have hB := round64_small_mul 32 1018 (by norm_num) (by norm_num) (le_refl _)
  have hB1 := round64_small_mul 1 1018 (by norm_num) (by norm_num) (le_refl _)
  have hB31 := round64_small_mul 31 1018 (by norm_num) (by norm_num) (le_refl _)
  have hB47 := round64_small_mul 47 1018 (by norm_num) (by norm_num) (le_refl _)
  obtain ⟨hmin1, hmin2⟩ := abs_le.mp hbmin
  obtain ⟨hmax1, hmax2⟩ := abs_le.mp hbmax
  rw [e1022] at hmin1 hmin2 hmax1 hmax2
  obtain ⟨D, hD, hD0, hD1⟩ := round64_between 0 (xmax - xmin) _ 0 _ (by linarith)
    (by push_cast; linarith) round64_zero hB
  obtain ⟨dx, hdx, hdx0, hdx1⟩ := round64_between 0 (D / 32) _ 0 _
    (by positivity) (by push_cast at hD1 ⊢; linarith) round64_zero hB1
  have hstep : gridStep round64 xmin xmax = Dbl.fin dx := by
    rw [gridStep_eq round64 xmin xmax D hD, hdx]
  have hpass : ∀ i : Nat, i < 32 → ∃ p k, round64 ((i : ℚ) * dx) = Dbl.fin p ∧ 0 ≤ p ∧
      p ≤ 31 * 2 ^ (1018 : Int) ∧ round64 (xmin + p) = Dbl.fin k ∧ xmin ≤ k ∧
      gridPoint round64 xmin dx i = Dbl.fin k := by
    intro i hi
    have hi31 : (i : ℚ) ≤ 31 := by
      have : i ≤ 31 := Nat.le_of_lt_succ hi
      exact_mod_cast this
    have hi0 : (0 : ℚ) ≤ (i : ℚ) := Nat.cast_nonneg i
    obtain ⟨p, hp1, hp0, hp2⟩ := round64_between 0 ((i : ℚ) * dx) _ 0 _
      (mul_nonneg hi0 hdx0) (by
        push_cast at hdx1 ⊢
        have := mul_le_mul hi31 hdx1 hdx0 (by norm_num : (0 : ℚ) ≤ 31)
        linarith) round64_zero hB31
    obtain ⟨k, hk1, hk0, hk2⟩ := round64_between xmin (xmin + p) _ xmin _
      (by linarith) (by push_cast at hp2 ⊢; linarith) hdmin hB47
    refine ⟨p, k, hp1, hp0, by push_cast at hp2; exact hp2, hk1, hk0, ?_⟩
    rw [gridPoint_eq round64 xmin dx i p hp1, hk1]
  have hval : ∀ i : Nat, i < 32 → gridPoint round64 xmin dx i =
      Dbl.fin (match gridPoint round64 xmin dx i with
        | Dbl.fin k => k
        | _ => 0) := by
    intro i hi
    obtain ⟨p, k, -, -, -, -, -, hk⟩ := hpass i hi
    rw [hk]
  refine ⟨dx, fun i => (match gridPoint round64 xmin dx i with
        | Dbl.fin k => k
        | _ => 0), hstep, hdx0, hval, ?_, ?_, ?_⟩
  · have h0 : round64 (((0 : Nat) : ℚ) * dx) = Dbl.fin 0 := by
      rw [Nat.cast_zero, zero_mul]
      exact round64_zero
    have := gridPoint_eq round64 xmin dx 0 0 h0
    rw [add_zero, hdmin] at this
    simp only [this]
  · intro i hi
    obtain ⟨p, k, -, -, -, -, hk0, hk⟩ := hpass i hi
    simp only [hk]
    exact hk0
  · intro i j hij hj
    obtain ⟨p, k, hp1, hp0, hp2, hk1, -, hk⟩ := hpass i (lt_of_le_of_lt hij hj)
    obtain ⟨q, l, hq1, hq0, hq2, hl1, -, hl⟩ := hpass j hj
    simp only [hk, hl]
    have hij1 : (i : ℚ) ≤ (j : ℚ) := by exact_mod_cast hij
    have hj31 : (j : ℚ) ≤ 31 := by
      have : j ≤ 31 := Nat.le_of_lt_succ hj
      exact_mod_cast this
    obtain ⟨c, hc1, hc0, -⟩ := round64_between ((i : ℚ) * dx) ((j : ℚ) * dx) _ p _
      (mul_le_mul_of_nonneg_right hij1 hdx0) (by
        push_cast at hdx1 ⊢
        have := mul_le_mul hj31 hdx1 hdx0 (by norm_num : (0 : ℚ) ≤ 31)
        linarith) hp1 hB31
    rw [hq1] at hc1
    injection hc1 with hc1
    obtain ⟨d, hd1, hd0, -⟩ := round64_between (xmin + p) (xmin + q) _ k _
      (by linarith) (by push_cast at hq2 ⊢; linarith) hk1 hB47
    rw [hl1] at hd1
    injection hd1 with hd1
    rw [hd1]
    exact hd0

/-- A double of the normal range divided by 32 is a double. -/
theorem round64_div32 (D : ℚ) (hD : round64 D = Dbl.fin D) (hlo : 2 ^ (-1000 : Int) ≤ D)
    : round64 (D / 32) = Dbl.fin (D / 32) := by
  have hpos : 0 < D := lt_of_lt_of_le (zpow_pos (by norm_num) _) hlo
  obtain ⟨hfix, hfin⟩ := round64_pos_fin D D hpos hD
  have hlog : -1000 ≤ Int.log 2 D :=
    (Int.zpow_le_iff_le_log (by norm_num) hpos).mp (by exact_mod_cast hlo)
  have hq : quantumExp D = Int.log 2 D - 52 := by
    rw [quantumExp_eq_log D hpos, max_eq_left (by omega)]
  have hpos32 : 0 < D / 32 := by positivity
  have hlt : D / 32 < 2 ^ (quantumExp D - 5 + 53) := by
    have := lt_quantum_top D
    rw [show quantumExp D - 5 + 53 = (quantumExp D + 53) + (-5) by ring,
      zpow_add₀ (by norm_num : (2 : ℚ) ≠ 0)]
    have e5 : (2 : ℚ) ^ (-5 : Int) = 1 / 32 := by norm_num
    rw [e5]
    linarith
  have hq32 := quantumExp_le_of_lt (D / 32) hpos32 (quantumExp D - 5) (by omega) hlt
  have hform : D / 32 = ((roundHalfEven (D / 2 ^ quantumExp D) : Int) : ℚ) *
      2 ^ (quantumExp D - 5) := by
    have h1 : D = (roundHalfEven (D / 2 ^ quantumExp D) : ℚ) * 2 ^ quantumExp D := hfix
    rw [show quantumExp D - 5 = quantumExp D + (-5) by ring,
      zpow_add₀ (by norm_num : (2 : ℚ) ≠ 0)]
    have e5 : (2 : ℚ) ^ (-5 : Int) = 1 / 32 := by norm_num
    rw [e5]
    linarith
  have hr := roundPos_of_multiple (D / 32) _ _ hform hq32
  unfold round64
  rw [if_neg (ne_of_gt hpos32), if_pos hpos32, hr, if_pos]
  have : D < 2 ^ (1024 : Int) := by rw [hfix]; exact hfin
  linarith

/-- For positive doubles from `2 ^ -500` to `2 ^ 500` no target wavelength lies above
`xmax`. -/
theorem grid_le_xmax (xmin xmax : ℚ) (hlt : xmin < xmax)
    (hdmin : round64 xmin = Dbl.fin xmin) (hdmax : round64 xmax = Dbl.fin xmax)
    (hlo : 2 ^ (-500 : Int) ≤ xmin) (hhi : xmax ≤ 2 ^ (500 : Int)) (dx : ℚ)
    (hdx : gridStep round64 xmin xmax = Dbl.fin dx) (i : Nat) (hi : i < 32) (k : ℚ)
    (hk : gridPoint round64 xmin dx i = Dbl.fin k) : k ≤ xmax := by
  have hxmin : 0 < xmin := lt_of_lt_of_le (zpow_pos (by norm_num) _) hlo
  have hgap := double_gap xmin xmax hxmin hlt hdmin hdmax
  have hlogmin : -500 ≤ Int.log 2 xmin :=
    (Int.zpow_le_iff_le_log (by norm_num) hxmin).mp (by exact_mod_cast hlo)
  have hqmin : -552 ≤ quantumExp xmin := by
    rw [quantumExp_eq_log xmin hxmin]
    have := le_max_left (Int.log 2 xmin) (-1022)
    omega
  have hΔ : (2 : ℚ) ^ (-552 : Int) ≤ xmax - xmin := by
    have : (2 : ℚ) ^ (-552 : Int) ≤ 2 ^ quantumExp xmin :=
      zpow_le_zpow_right₀ (by norm_num) hqmin
    linarith
  have hΔpos : 0 < xmax - xmin := by linarith
  have h552 := round64_two_zpow (-552) (by norm_num) (by norm_num)
  have h501 := round64_two_zpow 501 (by norm_num) (by norm_num)
  have e501 : (2 : ℚ) ^ (501 : Int) = 2 * 2 ^ (500 : Int) := by
    rw [show (501 : Int) = 1 + 500 by norm_num, zpow_add₀ (by norm_num : (2 : ℚ) ≠ 0)]
    norm_num
  have hp500 : (0 : ℚ) < 2 ^ (500 : Int) := zpow_pos (by norm_num) _
  obtain ⟨D, hD, hD0, hD1⟩ := round64_between _ (xmax - xmin) _ _ _ hΔ
    (by rw [e501]; linarith) h552 h501
  have hDpos : 0 < D := lt_of_lt_of_le (zpow_pos (by norm_num) _) hD0
  obtain ⟨hDfix, -⟩ := round64_pos_fin (xmax - xmin) D hΔpos hD
  have hlogΔ : -1022 ≤ Int.log 2 (xmax - xmin) := by
    have : -552 ≤ Int.log 2 (xmax - xmin) :=
      (Int.zpow_le_iff_le_log (by norm_num) hΔpos).mp (by exact_mod_cast hΔ)
    omega
  have hDrel : D ≤ (xmax - xmin) * (1 + 2 ^ (-53 : Int)) := by
    rw [hDfix]
    exact roundPos_le_rel _ hΔpos hlogΔ
  have hDd := round64_idem _ _ hD
  have hstep := gridStep_eq round64 xmin xmax D hD
  have hdiv := round64_div32 D hDd (le_trans (zpow_le_zpow_right₀ (by norm_num) (by norm_num)) hD0)
  rw [hdiv, hdx] at hstep
  injection hstep with hstep
  have hdxpos : 0 < dx := by rw [hstep]; positivity
  have hdxlo : (2 : ℚ) ^ (-557 : Int) ≤ dx := by
    rw [hstep, show (-557 : Int) = -552 + -5 by norm_num,
      zpow_add₀ (by norm_num : (2 : ℚ) ≠ 0)]
    have e5 : (2 : ℚ) ^ (-5 : Int) = 1 / 32 := by norm_num
    rw [e5, mul_one_div]
    exact div_le_div_of_nonneg_right hD0 (by norm_num)
  have hdxhi : dx ≤ 2 ^ (500 : Int) := by
    rw [hstep]
    rw [e501] at hD1
    linarith
  have h506 := round64_two_zpow 506 (by norm_num) (by norm_num)
  have e506 : (2 : ℚ) ^ (506 : Int) = 64 * 2 ^ (500 : Int) := by
    rw [show (506 : Int) = 6 + 500 by norm_num, zpow_add₀ (by norm_num : (2 : ℚ) ≠ 0)]
    norm_num
  have hi31 : (i : ℚ) ≤ 31 := by
    have : i ≤ 31 := Nat.le_of_lt_succ hi
    exact_mod_cast this
  have hi0 : (0 : ℚ) ≤ (i : ℚ) := Nat.cast_nonneg i
  obtain ⟨p, hp1, hp0, -⟩ := round64_between 0 ((i : ℚ) * dx) _ 0 _
    (mul_nonneg hi0 (le_of_lt hdxpos)) (by
      rw [e506]
      have := mul_le_mul hi31 hdxhi (le_of_lt hdxpos) (by norm_num : (0 : ℚ) ≤ 31)
      linarith) round64_zero h506
  have h31pos : 0 < 31 * dx := by positivity
  obtain ⟨p31, hq1, hq0, -⟩ := round64_between ((i : ℚ) * dx) (31 * dx) _ p _
    (mul_le_mul_of_nonneg_right hi31 (le_of_lt hdxpos)) (by
      rw [e506]
      linarith) hp1 h506
  obtain ⟨hp31fix, -⟩ := round64_pos_fin (31 * dx) p31 h31pos hq1
  have hlog31 : -1022 ≤ Int.log 2 (31 * dx) := by
    have h557 : (2 : ℚ) ^ (-557 : Int) ≤ 31 * dx := by linarith
    have : -557 ≤ Int.log 2 (31 * dx) :=
      (Int.zpow_le_iff_le_log (by norm_num) h31pos).mp (by exact_mod_cast h557)
    omega
  have hp31rel : p31 ≤ 31 * dx * (1 + 2 ^ (-53 : Int)) := by
    rw [hp31fix]
    exact roundPos_le_rel _ h31pos hlog31
  have hε : (0 : ℚ) ≤ 1 + 2 ^ (-53 : Int) := by positivity
  have hc : (31 : ℚ) / 32 * (1 + 2 ^ (-53 : Int)) * (1 + 2 ^ (-53 : Int)) ≤ 1 := by norm_num
  have hbound : p31 ≤ xmax - xmin := by
    have h1 : 31 * dx * (1 + 2 ^ (-53 : Int)) =
        31 / 32 * (1 + 2 ^ (-53 : Int)) * D := by rw [hstep]; ring
    have h2 : 31 / 32 * (1 + 2 ^ (-53 : Int)) * D ≤
        31 / 32 * (1 + 2 ^ (-53 : Int)) * ((xmax - xmin) * (1 + 2 ^ (-53 : Int))) :=
      mul_le_mul_of_nonneg_left hDrel (by positivity)
    have h3 : 31 / 32 * (1 + 2 ^ (-53 : Int)) * ((xmax - xmin) * (1 + 2 ^ (-53 : Int))) =
        (31 / 32 * (1 + 2 ^ (-53 : Int)) * (1 + 2 ^ (-53 : Int))) * (xmax - xmin) := by ring
    have h4 := mul_le_mul_of_nonneg_right hc (le_of_lt hΔpos)
    calc p31 ≤ 31 * dx * (1 + 2 ^ (-53 : Int)) := hp31rel
      _ = 31 / 32 * (1 + 2 ^ (-53 : Int)) * D := h1
      _ ≤ _ := h2
      _ = _ := h3
      _ ≤ 1 * (xmax - xmin) := h4
      _ = xmax - xmin := one_mul _
  have hgp := gridPoint_eq round64 xmin dx i p hp1
  rw [hk] at hgp
  obtain ⟨c, hc1, -, hc2⟩ := round64_between (xmin + p) (xmin + p) xmax k xmax (le_refl _)
    (by linarith) hgp.symm hdmax
  rw [← hgp] at hc1
  injection hc1 with hc1
  rw [hc1]
  exact hc2

/-- The quotient of two positive doubles up to `2 ^ 1000` apart, the larger over the
smaller, rounds to a finite double that is at least 1. -/
theorem round64_div_ge_one (a b : ℚ) (ha : 0 < a) (hab : a ≤ b)
    (hq : b / a ≤ 2 ^ (1000 : Int)) : ∃ r, round64 (b / a) = Dbl.fin r ∧ 1 ≤ r := by
  obtain ⟨r, hr, h1, -⟩ := round64_between 1 (b / a) _ 1 _ ((one_le_div ha).mpr hab) hq
    round64_one (round64_two_zpow 1000 (by norm_num) (by norm_num))
  exact ⟨r, hr, h1⟩

/-- The quotient of two distinct positive doubles, the larger over the smaller, does not
round to 1. -/
theorem round64_div_gt_one (x0 x1 r : ℚ) (h0 : 0 < x0) (hlt : x0 < x1)
    (hd0 : round64 x0 = Dbl.fin x0) (hd1 : round64 x1 = Dbl.fin x1)
    (hr : round64 (x1 / x0) = Dbl.fin r) : 1 < r := by
  have hgap := double_gap x0 x1 h0 hlt hd0 hd1
  have htop := lt_quantum_top x0
  have hq : (0 : ℚ) < 2 ^ quantumExp x0 := zpow_pos (by norm_num) _
  have hy : 1 + 2 ^ (-53 : Int) < x1 / x0 := by
    rw [lt_div_iff₀ h0]
    have h1 : x0 * 2 ^ (-53 : Int) < 2 ^ quantumExp x0 := by
      have h2 : (2 : ℚ) ^ (quantumExp x0 + 53) * 2 ^ (-53 : Int) = 2 ^ quantumExp x0 := by
        rw [← zpow_add₀ (by norm_num : (2 : ℚ) ≠ 0)]
        congr 1
        omega
      have h3 := mul_lt_mul_of_pos_right htop (zpow_pos (by norm_num : (0 : ℚ) < 2) (-53))
      linarith
    linarith
  have hypos : 0 < x1 / x0 := div_pos (lt_trans h0 hlt) h0
  obtain ⟨hfix, -⟩ := round64_pos_fin (x1 / x0) r hypos hr
  rcases lt_or_le (x1 / x0) 2 with h2 | h2
  · have hqy : quantumExp (x1 / x0) ≤ -52 :=
      quantumExp_le_of_lt _ hypos (-52) (by norm_num) (by norm_num; exact h2)
    have h3 := roundPos_ge_sub (x1 / x0)
    have h4 : (2 : ℚ) ^ (quantumExp (x1 / x0) - 1) ≤ 2 ^ (-53 : Int) :=
      zpow_le_zpow_right₀ (by norm_num) (by omega)
    rw [hfix]
    linarith
  · have h3 := roundPos_mono 2 (x1 / x0) (by norm_num) h2
    have h4 : roundPos 2 = 2 := by
      have := round64_two_zpow 1 (by norm_num) (by norm_num)
      rw [zpow_one] at this
      exact ((round64_pos_fin 2 2 (by norm_num) this).1).symm
    rw [hfix]
    linarith

end GridLemmas

section GridSeparation

/-- In the normal range the rounding error is at most `2 ^ -53` of the value, downwards as
upwards. -/
theorem roundPos_rel (x : ℚ) (hx : 0 < x) (hn : -1022 ≤ Int.log 2 x) :
    x - x / 9007199254740992 ≤ roundPos x ∧ roundPos x ≤ x + x / 9007199254740992 := by
  have h1 := roundPos_le_add x
  have h0 := roundPos_ge_sub x
  have h2 := quantum_bot_le x hx hn
  have h3 : (2 : ℚ) ^ (quantumExp x - 1) = 2 ^ (quantumExp x + 52) / 9007199254740992 := by
    rw [show quantumExp x - 1 = (quantumExp x + 52) + (-53) by ring,
      zpow_add₀ (by norm_num : (2 : ℚ) ≠ 0)]
    norm_num
    ring
  have h4 : (2 : ℚ) ^ (quantumExp x + 52) / 9007199254740992 ≤ x / 9007199254740992 :=
    div_le_div_of_nonneg_right h2 (by norm_num)
  rw [h3] at h1 h0
  constructor <;> linarith

/-- A positive value up to a double `b` of the normal range rounds to within
`b * 2 ^ -53` of itself. -/
theorem round64_near (s b k : ℚ) (hs : 0 < s) (hsb : s ≤ b) (hb : 2 ^ (-500 : Int) ≤ b)
    (hk : round64 s = Dbl.fin k) :
    s - b / 9007199254740992 ≤ k ∧ k ≤ s + b / 9007199254740992 := by
  have hbpos : 0 < b := lt_of_lt_of_le hs hsb
  obtain ⟨hfix, -⟩ := round64_pos_fin s k hs hk
  have hlog : -1022 ≤ Int.log 2 b := by
    have : -500 ≤ Int.log 2 b :=
      (Int.zpow_le_iff_le_log (by norm_num) hbpos).mp (by exact_mod_cast hb)
    omega
  have h1 := roundPos_le_add s
  have h0 := roundPos_ge_sub s
  have hq := quantumExp_mono s b hs hsb
  have h2 := quantum_bot_le b hbpos hlog
  have h3 : (2 : ℚ) ^ (quantumExp s - 1) ≤ 2 ^ (quantumExp b - 1) :=
    zpow_le_zpow_right₀ (by norm_num) (by omega)
  have h4 : (2 : ℚ) ^ (quantumExp b - 1) = 2 ^ (quantumExp b + 52) / 9007199254740992 := by
    rw [show quantumExp b - 1 = (quantumExp b + 52) + (-53) by ring,
      zpow_add₀ (by norm_num : (2 : ℚ) ≠ 0)]
    norm_num
    ring
  have h5 : (2 : ℚ) ^ (quantumExp b + 52) / 9007199254740992 ≤ b / 9007199254740992 :=
    div_le_div_of_nonneg_right h2 (by norm_num)
  rw [hfix]
  constructor <;> linarith

/-- The computed step and targets for positive doubles from `2 ^ -500` to `2 ^ 500`: the
step is the rounded difference divided by 32 without further error, the product `i * dx`
carries one rounding error, and the exact sum `xmin + i * dx` does not pass `xmax`. -/
theorem grid_normal (xmin xmax : ℚ) (hlt : xmin < xmax)
    (hdmin : round64 xmin = Dbl.fin xmin) (hdmax : round64 xmax = Dbl.fin xmax)
    (hlo : 2 ^ (-500 : Int) ≤ xmin) (hhi : xmax ≤ 2 ^ (500 : Int)) (dx : ℚ)
    (hdx : gridStep round64 xmin xmax = Dbl.fin dx) :
    0 < dx ∧
      (xmax - xmin) - (xmax - xmin) / 9007199254740992 ≤ 32 * dx ∧
      32 * dx ≤ (xmax - xmin) + (xmax - xmin) / 9007199254740992 ∧
      ∀ i : Nat, i < 32 → ∃ p, round64 ((i : ℚ) * dx) = Dbl.fin p ∧
        (i : ℚ) * dx - (i : ℚ) * dx / 9007199254740992 ≤ p ∧
        p ≤ (i : ℚ) * dx + (i : ℚ) * dx / 9007199254740992 ∧
        gridPoint round64 xmin dx i = round64 (xmin + p) ∧ xmin + p ≤ xmax := by
  have hxmin : 0 < xmin := lt_of_lt_of_le (zpow_pos (by norm_num) _) hlo
  have hgap := double_gap xmin xmax hxmin hlt hdmin hdmax
  have hlogmin : -500 ≤ Int.log 2 xmin :=
    (Int.zpow_le_iff_le_log (by norm_num) hxmin).mp (by exact_mod_cast hlo)
  have hqmin : -552 ≤ quantumExp xmin := by
    rw [quantumExp_eq_log xmin hxmin]
    have := le_max_left (Int.log 2 xmin) (-1022)
    omega
  have hΔ : (2 : ℚ) ^ (-552 : Int) ≤ xmax - xmin := by
    have : (2 : ℚ) ^ (-552 : Int) ≤ 2 ^ quantumExp xmin :=
      zpow_le_zpow_right₀ (by norm_num) hqmin
    linarith
  have hΔpos : 0 < xmax - xmin := by linarith
  have h552 := round64_two_zpow (-552) (by norm_num) (by norm_num)
  have h501 := round64_two_zpow 501 (by norm_num) (by norm_num)
  have e501 : (2 : ℚ) ^ (501 : Int) = 2 * 2 ^ (500 : Int) := by
    rw [show (501 : Int) = 1 + 500 by norm_num, zpow_add₀ (by norm_num : (2 : ℚ) ≠ 0)]
    norm_num
  have hp500 : (0 : ℚ) < 2 ^ (500 : Int) := zpow_pos (by norm_num) _
  obtain ⟨D, hD, hD0, hD1⟩ := round64_between _ (xmax - xmin) _ _ _ hΔ
    (by rw [e501]; linarith) h552 h501
  have hDpos : 0 < D := lt_of_lt_of_le (zpow_pos (by norm_num) _) hD0
  obtain ⟨hDfix, -⟩ := round64_pos_fin (xmax - xmin) D hΔpos hD
  have hlogΔ : -1022 ≤ Int.log 2 (xmax - xmin) := by
    have : -552 ≤ Int.log 2 (xmax - xmin) :=
      (Int.zpow_le_iff_le_log (by norm_num) hΔpos).mp (by exact_mod_cast hΔ)
    omega
  obtain ⟨hDlo, hDhi⟩ := roundPos_rel _ hΔpos hlogΔ
  rw [← hDfix] at hDlo hDhi
  have hDd := round64_idem _ _ hD
  have hstep := gridStep_eq round64 xmin xmax D hD
  have hdiv := round64_div32 D hDd
    (le_trans (zpow_le_zpow_right₀ (by norm_num) (by norm_num)) hD0)
  rw [hdiv, hdx] at hstep
  injection hstep with hstep
  have hdxpos : 0 < dx := by rw [hstep]; positivity
  have hdxlo : (2 : ℚ) ^ (-557 : Int) ≤ dx := by
    rw [hstep, show (-557 : Int) = -552 + -5 by norm_num,
      zpow_add₀ (by norm_num : (2 : ℚ) ≠ 0)]
    have e5 : (2 : ℚ) ^ (-5 : Int) = 1 / 32 := by norm_num
    rw [e5, mul_one_div]
    exact div_le_div_of_nonneg_right hD0 (by norm_num)
  have hdxhi : dx ≤ 2 ^ (500 : Int) := by
    rw [hstep]
    rw [e501] at hD1
    linarith
  have h506 := round64_two_zpow 506 (by norm_num) (by norm_num)
  have e506 : (2 : ℚ) ^ (506 : Int) = 64 * 2 ^ (500 : Int) := by
    rw [show (506 : Int) = 6 + 500 by norm_num, zpow_add₀ (by norm_num : (2 : ℚ) ≠ 0)]
    norm_num
  refine ⟨hdxpos, by rw [hstep]; linarith, by rw [hstep]; linarith, ?_⟩
  intro i hi
  have hi31 : (i : ℚ) ≤ 31 := by
    have : i ≤ 31 := Nat.le_of_lt_succ hi
    exact_mod_cast this
  have hi0 : (0 : ℚ) ≤ (i : ℚ) := Nat.cast_nonneg i
  obtain ⟨p, hp1, hp0, -⟩ := round64_between 0 ((i : ℚ) * dx) _ 0 _
    (mul_nonneg hi0 (le_of_lt hdxpos)) (by
      rw [e506]
      have := mul_le_mul hi31 hdxhi (le_of_lt hdxpos) (by norm_num : (0 : ℚ) ≤ 31)
      linarith) round64_zero h506
  have hbounds : (i : ℚ) * dx - (i : ℚ) * dx / 9007199254740992 ≤ p ∧
      p ≤ (i : ℚ) * dx + (i : ℚ) * dx / 9007199254740992 := by
    rcases Nat.eq_zero_or_pos i with h0 | h0
    · subst h0
      rw [Nat.cast_zero, zero_mul, round64_zero] at hp1
      injection hp1 with hp1
      rw [← hp1]
      norm_num
    · have hi1 : (1 : ℚ) ≤ (i : ℚ) := by exact_mod_cast h0
      have hipos : 0 < (i : ℚ) * dx := mul_pos (by linarith) hdxpos
      obtain ⟨hpfix, -⟩ := round64_pos_fin _ p hipos hp1
      have hlogi : -1022 ≤ Int.log 2 ((i : ℚ) * dx) := by
        have h557 : (2 : ℚ) ^ (-557 : Int) ≤ (i : ℚ) * dx := by
          have := mul_le_mul hi1 (le_refl dx) (le_of_lt hdxpos) (by linarith : (0 : ℚ) ≤ (i : ℚ))
          linarith
        have : -557 ≤ Int.log 2 ((i : ℚ) * dx) :=
          (Int.zpow_le_iff_le_log (by norm_num) hipos).mp (by exact_mod_cast h557)
        omega
      have := roundPos_rel _ hipos hlogi
      rw [← hpfix] at this
      exact this
  refine ⟨p, hp1, hbounds.1, hbounds.2, gridPoint_eq round64 xmin dx i p hp1, ?_⟩
  have h1 : (i : ℚ) * dx ≤ 31 * dx := mul_le_mul_of_nonneg_right hi31 (le_of_lt hdxpos)
  have h2 := hbounds.2
  linarith

/-- For positive doubles from `2 ^ -500` to `2 ^ 500` whose range `xmax - xmin` is at
least `2 ^ -46` of `xmax`, the 32 target wavelengths increase strictly and stay below
`xmax`. -/
theorem grid_separated (xmin xmax : ℚ) (hlt : xmin < xmax)
    (hdmin : round64 xmin = Dbl.fin xmin) (hdmax : round64 xmax = Dbl.fin xmax)
    (hlo : 2 ^ (-500 : Int) ≤ xmin) (hhi : xmax ≤ 2 ^ (500 : Int))
    (hsep : xmax / 2 ^ 46 ≤ xmax - xmin) (dx : ℚ) (t : Nat → ℚ)
    (hdx : gridStep round64 xmin xmax = Dbl.fin dx)
    (ht : ∀ i, i < 32 → gridPoint round64 xmin dx i = Dbl.fin (t i)) :
    (∀ i, i < 32 → t i < xmax) ∧ ∀ i, i + 1 < 32 → t i < t (i + 1) := by
  have hxmin : 0 < xmin := lt_of_lt_of_le (zpow_pos (by norm_num) _) hlo
  have hxmax : 0 < xmax := lt_trans hxmin hlt
  have hmaxlo : 2 ^ (-500 : Int) ≤ xmax := le_trans hlo (le_of_lt hlt)
  obtain ⟨hdxpos, hdlo, hdhi, hpass⟩ :=
    grid_normal xmin xmax hlt hdmin hdmax hlo hhi dx hdx
  have hsep1 : xmax / 70368744177664 ≤ xmax - xmin := by
    have e : (2 : ℚ) ^ 46 = 70368744177664 := by norm_num
    rw [e] at hsep
    exact hsep
  have hnear : ∀ i : Nat, i < 32 → ∃ p, xmin + p ≤ xmax ∧
      (i : ℚ) * dx - (i : ℚ) * dx / 9007199254740992 ≤ p ∧
      p ≤ (i : ℚ) * dx + (i : ℚ) * dx / 9007199254740992 ∧
      xmin + p - xmax / 9007199254740992 ≤ t i ∧ t i ≤ xmin + p + xmax / 9007199254740992 := by
    intro i hi
    obtain ⟨p, hp1, hplo, hphi, hgp, hle⟩ := hpass i hi
    have hp0 : 0 ≤ p := by
      have hi0 : (0 : ℚ) ≤ (i : ℚ) * dx := mul_nonneg (Nat.cast_nonneg i) (le_of_lt hdxpos)
      have : (i : ℚ) * dx / 9007199254740992 ≤ (i : ℚ) * dx :=
        div_le_self hi0 (by norm_num)
      linarith
    rw [ht i hi] at hgp
    obtain ⟨h1, h2⟩ := round64_near (xmin + p) xmax (t i) (by linarith) hle hmaxlo hgp.symm
    exact ⟨p, hle, hplo, hphi, h1, h2⟩
  constructor
  · intro i hi
    obtain ⟨p, -, -, hphi, -, hthi⟩ := hnear i hi
    have hi31 : (i : ℚ) ≤ 31 := by
      have : i ≤ 31 := Nat.le_of_lt_succ hi
      exact_mod_cast this
    have h1 : (i : ℚ) * dx ≤ 31 * dx := mul_le_mul_of_nonneg_right hi31 (le_of_lt hdxpos)
    linarith
  · intro i hi
    obtain ⟨p, -, hplo, hphi, -, hthi⟩ := hnear i (by omega)
    obtain ⟨q, -, hqlo, -, htlo, -⟩ := hnear (i + 1) hi
    have hi30 : (i : ℚ) ≤ 30 := by
      have : i ≤ 30 := by omega
      exact_mod_cast this
    have hi0 : (0 : ℚ) ≤ (i : ℚ) := Nat.cast_nonneg i
    have h1 : (i : ℚ) * dx ≤ 30 * dx := mul_le_mul_of_nonneg_right hi30 (le_of_lt hdxpos)
    have h2 : (0 : ℚ) ≤ (i : ℚ) * dx := mul_nonneg hi0 (le_of_lt hdxpos)
    push_cast at hqlo
    linarith

end GridSeparation

section RunLemmas

variable {F : Type} [LinearOrderedField F]

/-- Two strictly increasing lists with the same members are equal. -/
theorem sorted_lt_ext (l1 l2 : List F) (h1 : l1.Pairwise (· < ·)) (h2 : l2.Pairwise (· < ·))
    (h : ∀ k, k ∈ l1 ↔ k ∈ l2) : l1 = l2 := by
  have n1 : l1.Nodup := h1.imp (fun hab => ne_of_lt hab)
  have n2 : l2.Nodup := h2.imp (fun hab => ne_of_lt hab)
  have hp : l1.Perm l2 := (List.perm_ext_iff_of_nodup n1 n2).mpr h
  exact List.eq_of_perm_of_sorted hp (h1.imp le_of_lt) (h2.imp le_of_lt)

/-- A list that does not decrease, with its repetitions removed, increases strictly. -/
theorem dedup_pairwise_lt (l : List F) (h : l.Pairwise (· ≤ ·)) :
    l.dedup.Pairwise (· < ·) := by
  have h1 : l.dedup.Pairwise (· ≤ ·) := h.sublist (List.dedup_sublist l)
  have h2 : l.dedup.Pairwise (· ≠ ·) := List.nodup_dedup l
  exact (h1.and h2).imp (fun hab => lt_of_le_of_ne hab.1 hab.2)

/-- The exact targets `xmin + i * dx` increase with the index when `dx` is positive. -/
theorem grid_pairwise (xmin dx : F) (hdx : 0 < dx) (n : Nat) :
    ((List.range n).map fun i : Nat => xmin + (i : F) * dx).Pairwise (· < ·) := by
  rw [List.pairwise_map]
  refine List.Pairwise.imp ?_ (List.pairwise_lt_range n)
  intro a b hab
  have : (a : F) < (b : F) := Nat.cast_lt.mpr hab
  have := mul_lt_mul_of_pos_right this hdx
  linarith

/-- When the target wavelengths increase strictly and every previously stored wavelength
lies below them, the stored spectrum after the call is the previous one followed by the 32
computed entries. -/
theorem setPdeSpectrum_append (fl : F → Dbl F) (L : Libm F) (wav pde : List F)
    (s : SiPMProperties F) (input : List (F × F)) (xmin xmax ymin ymax dx : F) (t : Nat → F)
    (hin : fillInput wav pde [] = some input) (hhead : input.head? = some (xmin, ymin))
    (hlast : input.getLast? = some (xmax, ymax)) (h2 : 2 ≤ input.length)
    (hdx : gridStep fl xmin xmax = Dbl.fin dx)
    (ht : ∀ i, i < 32 → gridPoint fl xmin dx i = Dbl.fin (t i))
    (hinc : ((List.range 32).map t).Pairwise (· < ·))
    (hprev : ∀ k0 ∈ s.m_PdeSpectrum.map Prod.fst, ∀ i, i < 32 → k0 < t i) :
    ∃ s1, setPdeSpectrum fl L wav pde s = some s1 ∧
      s1.m_PdeSpectrum = s.m_PdeSpectrum ++ (List.range 32).map fun i : Nat =>
        (t i, (pdePoint fl L input (t i)).getD Dbl.nan) := by
  obtain ⟨r, hr, hrun⟩ := setPdeSpectrum_run fl L wav pde s input xmin xmax ymin ymax dx t
    hin hhead hlast h2 hdx ht
  have happ := pdeLoop_append fl L input xmin dx t h2 (List.range 32) s.m_PdeSpectrum
    (fun i hi => ht i (List.mem_range.mp hi)) hinc
    (fun k0 hk0 i hi => hprev k0 hk0 i (List.mem_range.mp hi))
  rw [hr, Option.some.injEq] at happ
  exact ⟨_, hrun, happ⟩

end RunLemmas

section Binary64Run

/-- A run of `setPdeSpectrum` in binary64 arithmetic on doubles of magnitude at most
`2 ^ 1022` with at least two distinct wavelengths: the input map is sorted with first key
`xmin`, last key `xmax` and at least two entries, the step and the 32 target wavelengths are
finite, the first target is `xmin`, no target lies below `xmin`, the targets do not
decrease, and the call returns the state in which the map left by the main loop is
stored. -/
theorem setPdeSpectrum_binary64 (L : Libm ℚ) (wav pde : List ℚ) (s : SiPMProperties ℚ)
    (hlen : wav.length = pde.length) (h2 : ∃ a ∈ wav, ∃ b ∈ wav, a ≠ b)
    (hdbl : ∀ w ∈ wav, round64 w = Dbl.fin w ∧ |w| ≤ 2 ^ (1022 : Int)) (xmin xmax : ℚ)
    (hmin : xmin ∈ wav) (hminle : ∀ w ∈ wav, xmin ≤ w)
    (hmax : xmax ∈ wav) (hmaxle : ∀ w ∈ wav, w ≤ xmax) :
    ∃ (input : List (ℚ × ℚ)) (ymin ymax dx : ℚ) (t : Nat → ℚ) (r : List (ℚ × Dbl ℚ)),
      fillInput wav pde [] = some input ∧ (input.map Prod.fst).Pairwise (· < ·) ∧
      input.head? = some (xmin, ymin) ∧ input.getLast? = some (xmax, ymax) ∧
      (∀ k, k ∈ input.map Prod.fst ↔ k ∈ wav) ∧ 2 ≤ input.length ∧
      gridStep round64 xmin xmax = Dbl.fin dx ∧
      (∀ i, i < 32 → gridPoint round64 xmin dx i = Dbl.fin (t i)) ∧ t 0 = xmin ∧
      (∀ i, i < 32 → xmin ≤ t i) ∧ (∀ i j, i ≤ j → j < 32 → t i ≤ t j) ∧
      pdeLoop round64 L input xmin dx (List.range 32) s.m_PdeSpectrum = some r ∧
      setPdeSpectrum round64 L wav pde s =
        some { s with m_PdeSpectrum := r, m_HasPde := PdeType.kSpectrumPde } := by
  have hlt := lt_of_two_distinct wav h2 xmin xmax hminle hmaxle
  obtain ⟨input, ymin, ymax, hin, hsorted, hhead, hlast, hkeys⟩ :=
    fillInput_spec wav pde (le_of_eq hlen) xmin xmax hmin hminle hmax hmaxle
  obtain ⟨a, ha, b, hb, hab⟩ := h2
  have hlen2 : 2 ≤ input.length :=
    two_le_length_of_distinct input a b ((hkeys a).mpr ha) ((hkeys b).mpr hb) hab
  obtain ⟨dx, t, hdx, -, ht, ht0, htlo, htmono⟩ := grid_finite xmin xmax hlt
    (hdbl xmin hmin).1 (hdbl xmin hmin).2 (hdbl xmax hmax).2
  obtain ⟨r, hr, hrun⟩ := setPdeSpectrum_run round64 L wav pde s input xmin xmax ymin ymax dx
    t hin hhead hlast hlen2 hdx ht
  exact ⟨input, ymin, ymax, dx, t, r, hin, hsorted, hhead, hlast, hkeys, hlen2, hdx, ht, ht0,
    htlo, htmono, hr, hrun⟩

theorem range_map_pairwise_le (t : Nat → ℚ) (n : Nat)
    (h : ∀ i j, i ≤ j → j < n → t i ≤ t j) : ((List.range n).map t).Pairwise (· ≤ ·) := by
  rw [List.pairwise_map, List.pairwise_iff_getElem]
  intro i j hi hj hij
  simp only [List.getElem_range]
  rw [List.length_range] at hj
  exact h i j (le_of_lt hij) hj

/-- Targets that increase from each index to the next increase strictly along the whole
range. -/
theorem range_map_pairwise_lt (t : Nat → ℚ) (n : Nat)
    (h : ∀ i, i + 1 < n → t i < t (i + 1)) : ((List.range n).map t).Pairwise (· < ·) := by
  have hlt : ∀ j, j < n → ∀ i, i < j → t i < t j := by
    intro j
    induction j with
    | zero =>
      intro _ i hi
      omega
    | succ j ih =>
      intro hj i hi
      rcases Nat.lt_succ_iff_lt_or_eq.mp hi with h1 | h1
      · exact lt_trans (ih (by omega) i h1) (h j hj)
      · subst h1
        exact h i hj
  rw [List.pairwise_map, List.pairwise_iff_getElem]
  intro i j hi hj hij
  simp only [List.getElem_range]
  rw [List.length_range] at hj
  exact hlt j hj i hij

end Binary64Run

section Claims

variable {F : Type} [LinearOrderedField F]

/-- C1 (counterexample): for the two adjacent doubles `wav = [1, 1 + 2 ^ -52]` the step is
`2 ^ -57`, the targets `1 + i * dx` round to 1 for `i ≤ 16` and to `1 + 2 ^ -52` from
`i = 17` on, and the stored spectrum has 2 entries, not 32. -/
theorem setPdeSpectrum_grid_counterexample :
    gridStep round64 1 (1 + 1 / 2 ^ 52) = Dbl.fin (1 / 2 ^ 57) ∧
      gridPoint round64 1 (1 / 2 ^ 57) 16 = Dbl.fin 1 ∧
      gridPoint round64 1 (1 / 2 ^ 57) 17 = Dbl.fin (1 + 1 / 2 ^ 52) ∧
      (setPdeSpectrum round64 sampleLibm [1, 1 + 1 / 2 ^ 52] [1, 1] blankProperties).map
        (fun s1 => s1.m_PdeSpectrum.map Prod.fst) = some [1, 1 + 1 / 2 ^ 52] := by
  decide!

/-- C1 (amended): in binary64 arithmetic, on equal-length inputs whose wavelengths are
doubles of magnitude at most `2 ^ 1022`, at least two of them distinct, applied to
properties that hold no stored spectrum, `setPdeSpectrum` returns; the step `dx` and the 32
targets `xmin + i * dx` are finite; the stored wavelengths are these targets with the
repetitions removed, in strictly increasing order, so at most 32 entries; there are
exactly 32 entries, the targets themselves, when the 32 targets are pairwise distinct; and
the targets are pairwise distinct when the wavelengths lie between `2 ^ -500` and
`2 ^ 500` and the range `xmax - xmin` is at least `2 ^ -46` of `xmax`. -/
theorem setPdeSpectrum_grid (L : Libm ℚ) (wav pde : List ℚ) (s : SiPMProperties ℚ)
    (hlen : wav.length = pde.length) (h2 : ∃ a ∈ wav, ∃ b ∈ wav, a ≠ b)
    (hdbl : ∀ w ∈ wav, round64 w = Dbl.fin w ∧ |w| ≤ 2 ^ (1022 : Int)) (xmin xmax : ℚ)
    (hmin : xmin ∈ wav) (hminle : ∀ w ∈ wav, xmin ≤ w)
    (hmax : xmax ∈ wav) (hmaxle : ∀ w ∈ wav, w ≤ xmax) (hs : s.m_PdeSpectrum = []) :
    ∃ (dx : ℚ) (t : Nat → ℚ) (s1 : SiPMProperties ℚ),
      gridStep round64 xmin xmax = Dbl.fin dx ∧
      (∀ i, i < 32 → gridPoint round64 xmin dx i = Dbl.fin (t i)) ∧
      setPdeSpectrum round64 L wav pde s = some s1 ∧
      s1.m_PdeSpectrum.map Prod.fst = ((List.range 32).map t).dedup ∧
      (s1.m_PdeSpectrum.map Prod.fst).Pairwise (· < ·) ∧
      s1.m_PdeSpectrum.length ≤ 32 ∧
      (((List.range 32).map t).Nodup →
        s1.m_PdeSpectrum.length = 32 ∧
          s1.m_PdeSpectrum.map Prod.fst = (List.range 32).map t) ∧
      (2 ^ (-500 : Int) ≤ xmin → xmax ≤ 2 ^ (500 : Int) → xmax / 2 ^ 46 ≤ xmax - xmin →
        s1.m_PdeSpectrum.length = 32 ∧
          s1.m_PdeSpectrum.map Prod.fst = (List.range 32).map t) := by
  have hlt := lt_of_two_distinct wav h2 xmin xmax hminle hmaxle
  obtain ⟨input, ymin, ymax, dx, t, r, -, -, -, -, -, hlen2, hdx, ht, -, -, htmono, hr, hrun⟩ :=
    setPdeSpectrum_binary64 L wav pde s hlen h2 hdbl xmin xmax hmin hminle hmax hmaxle
  obtain ⟨r1, hr1, hkeys, hsorted, hle, -⟩ := pdeLoop_spec round64 L input xmin dx t hlen2
    (List.range 32) s.m_PdeSpectrum (fun i hi => ht i (List.mem_range.mp hi))
  rw [hr, Option.some.injEq] at hr1
  subst hr1
  have hsort : (r.map Prod.fst).Pairwise (· < ·) := hsorted (by simp [hs])
  have hmem : ∀ k, k ∈ r.map Prod.fst ↔ k ∈ ((List.range 32).map t).dedup := by
    intro k
    rw [hkeys k, List.mem_dedup]
    simp [hs]
  have hded : r.map Prod.fst = ((List.range 32).map t).dedup :=
    sorted_lt_ext _ _ hsort (dedup_pairwise_lt _ (range_map_pairwise_le t 32 htmono)) hmem
  have hall : ((List.range 32).map t).Nodup →
      r.length = 32 ∧ r.map Prod.fst = (List.range 32).map t := by
    intro hnd
    have h1 : r.map Prod.fst = (List.range 32).map t := by
      rw [hded, List.Nodup.dedup hnd]
    refine ⟨?_, h1⟩
    have := congrArg List.length h1
    simpa using this
  refine ⟨dx, t, _, hdx, ht, hrun, hded, hsort, ?_, hall, ?_⟩
  · have := hle
    simp only [hs, List.length_nil, List.length_range, zero_add] at this
    exact this
  · intro hlo hhi hsep
    have hstrict := (grid_separated xmin xmax hlt (hdbl xmin hmin).1 (hdbl xmax hmax).1 hlo hhi
      hsep dx t hdx ht).2
    exact hall ((range_map_pairwise_lt t 32 hstrict).imp fun hab => ne_of_lt hab)

/-- Witness for C1 (amended): the input `wav = [1, 2]`, `pde = [1, 1]`, for which exactly
32 entries are stored. -/
theorem setPdeSpectrum_grid_witness :
    ∃ (dx : ℚ) (t : Nat → ℚ) (s1 : SiPMProperties ℚ),
      gridStep round64 1 2 = Dbl.fin dx ∧
      (∀ i, i < 32 → gridPoint round64 1 dx i = Dbl.fin (t i)) ∧
      setPdeSpectrum round64 sampleLibm [1, 2] [1, 1] blankProperties = some s1 ∧
      s1.m_PdeSpectrum.map Prod.fst = ((List.range 32).map t).dedup ∧
      (s1.m_PdeSpectrum.map Prod.fst).Pairwise (· < ·) ∧
      s1.m_PdeSpectrum.length = 32 ∧
      s1.m_PdeSpectrum.map Prod.fst = (List.range 32).map t := by
  obtain ⟨dx, t, s1, h1, h2, h3, h4, h5, -, -, h8⟩ :=
    setPdeSpectrum_grid sampleLibm [1, 2] [1, 1] blankProperties rfl
      ⟨1, by simp, 2, by simp, by norm_num⟩
      (by
        intro w hw
        simp only [List.mem_cons, List.mem_singleton, List.not_mem_nil, or_false] at hw
        rcases hw with rfl | rfl
        · exact ⟨by decide!, by norm_num⟩
        · exact ⟨by decide!, by norm_num⟩)
      1 2 (by simp)
      (by intro w hw; simp at hw; rcases hw with rfl | rfl <;> norm_num) (by simp)
      (by intro w hw; simp at hw; rcases hw with rfl | rfl <;> norm_num) rfl
  obtain ⟨h9, h10⟩ := h8 (by norm_num) (by norm_num) (by norm_num)
  exact ⟨dx, t, s1, h1, h2, h3, h4, h5, h9, h10⟩

end Claims

section Claims2

variable {F : Type} [LinearOrderedField F]

/-- C2 (counterexample): for `wav = [1, 2]` the largest stored wavelength is `63/32`, and
every stored wavelength is below the maximum input wavelength `2`. -/
theorem setPdeSpectrum_span_counterexample :
    (setPdeSpectrum round64 sampleLibm [1, 2] [1, 1] blankProperties).map
        (fun s1 => (s1.m_PdeSpectrum.map Prod.fst).getLast?) = some (some (63 / 32)) ∧
      (setPdeSpectrum round64 sampleLibm [1, 2] [1, 1] blankProperties).map
        (fun s1 => (s1.m_PdeSpectrum.map Prod.fst).all fun k => decide (k < 2)) =
        some true := by
  decide!

/-- C2 (amended): in binary64 arithmetic, on equal-length inputs whose wavelengths are
doubles of magnitude at most `2 ^ 1022`, at least two of them distinct, applied to
properties that hold no stored spectrum, the smallest stored wavelength is the minimum input
wavelength `xmin`, and the largest stored wavelength is the last target `xmin + 31 * dx`
as computed, `dx` being the computed `(xmax - xmin) / 32`; for wavelengths from `2 ^ -500`
to `2 ^ 500` that target is at most the maximum input wavelength `xmax`, and it is below
`xmax`, which is then not stored, when the range `xmax - xmin` is at least `2 ^ -46` of
`xmax`. -/
theorem setPdeSpectrum_span (L : Libm ℚ) (wav pde : List ℚ) (s : SiPMProperties ℚ)
    (hlen : wav.length = pde.length) (h2 : ∃ a ∈ wav, ∃ b ∈ wav, a ≠ b)
    (hdbl : ∀ w ∈ wav, round64 w = Dbl.fin w ∧ |w| ≤ 2 ^ (1022 : Int)) (xmin xmax : ℚ)
    (hmin : xmin ∈ wav) (hminle : ∀ w ∈ wav, xmin ≤ w)
    (hmax : xmax ∈ wav) (hmaxle : ∀ w ∈ wav, w ≤ xmax) (hs : s.m_PdeSpectrum = []) :
    ∃ (dx : ℚ) (t : Nat → ℚ) (s1 : SiPMProperties ℚ),
      gridStep round64 xmin xmax = Dbl.fin dx ∧
      (∀ i, i < 32 → gridPoint round64 xmin dx i = Dbl.fin (t i)) ∧
      setPdeSpectrum round64 L wav pde s = some s1 ∧
      xmin ∈ s1.m_PdeSpectrum.map Prod.fst ∧
      (∀ k ∈ s1.m_PdeSpectrum.map Prod.fst, xmin ≤ k) ∧
      t 31 ∈ s1.m_PdeSpectrum.map Prod.fst ∧
      (∀ k ∈ s1.m_PdeSpectrum.map Prod.fst, k ≤ t 31) ∧
      (2 ^ (-500 : Int) ≤ xmin → xmax ≤ 2 ^ (500 : Int) → t 31 ≤ xmax) ∧
      (2 ^ (-500 : Int) ≤ xmin → xmax ≤ 2 ^ (500 : Int) → xmax / 2 ^ 46 ≤ xmax - xmin →
        t 31 < xmax ∧ xmax ∉ s1.m_PdeSpectrum.map Prod.fst) := by
  have hlt := lt_of_two_distinct wav h2 xmin xmax hminle hmaxle
  obtain ⟨input, ymin, ymax, dx, t, r, -, -, -, -, -, hlen2, hdx, ht, ht0, htlo, htmono, hr,
    hrun⟩ := setPdeSpectrum_binary64 L wav pde s hlen h2 hdbl xmin xmax hmin hminle hmax hmaxle
  obtain ⟨r1, hr1, hkeys, -⟩ := pdeLoop_spec round64 L input xmin dx t hlen2
    (List.range 32) s.m_PdeSpectrum (fun i hi => ht i (List.mem_range.mp hi))
  rw [hr, Option.some.injEq] at hr1
  subst hr1
  have hmem : ∀ k, k ∈ r.map Prod.fst ↔ ∃ i, i < 32 ∧ t i = k := by
    intro k
    rw [hkeys k]
    simp [hs]
  refine ⟨dx, t, _, hdx, ht, hrun, ?_, ?_, ?_, ?_, ?_, ?_⟩
  · exact (hmem xmin).mpr ⟨0, by norm_num, ht0⟩
  · intro k hk
    obtain ⟨i, hi, rfl⟩ := (hmem k).mp hk
    exact htlo i hi
  · exact (hmem (t 31)).mpr ⟨31, by norm_num, rfl⟩
  · intro k hk
    obtain ⟨i, hi, rfl⟩ := (hmem k).mp hk
    exact htmono i 31 (Nat.le_of_lt_succ hi) (by norm_num)
  · intro hlo hhi
    exact grid_le_xmax xmin xmax hlt (hdbl xmin hmin).1 (hdbl xmax hmax).1 hlo hhi dx hdx 31
      (by norm_num) (t 31) (ht 31 (by norm_num))
  · intro hlo hhi hsep
    have hbelow := (grid_separated xmin xmax hlt (hdbl xmin hmin).1 (hdbl xmax hmax).1 hlo hhi
      hsep dx t hdx ht).1
    refine ⟨hbelow 31 (by norm_num), ?_⟩
    intro hk
    obtain ⟨i, hi, hti⟩ := (hmem xmax).mp hk
    exact absurd hti (ne_of_lt (hbelow i hi))

/-- Witness for C2 (amended): the input `wav = [1, 2]`, `pde = [1, 1]`, for which the
largest stored wavelength is below 2. -/
theorem setPdeSpectrum_span_witness :
    ∃ (dx : ℚ) (t : Nat → ℚ) (s1 : SiPMProperties ℚ),
      gridStep round64 1 2 = Dbl.fin dx ∧
      (∀ i, i < 32 → gridPoint round64 1 dx i = Dbl.fin (t i)) ∧
      setPdeSpectrum round64 sampleLibm [1, 2] [1, 1] blankProperties = some s1 ∧
      (1 : ℚ) ∈ s1.m_PdeSpectrum.map Prod.fst ∧
      (∀ k ∈ s1.m_PdeSpectrum.map Prod.fst, (1 : ℚ) ≤ k) ∧
      t 31 ∈ s1.m_PdeSpectrum.map Prod.fst ∧
      (∀ k ∈ s1.m_PdeSpectrum.map Prod.fst, k ≤ t 31) ∧
      t 31 ≤ 2 ∧ t 31 < 2 ∧ (2 : ℚ) ∉ s1.m_PdeSpectrum.map Prod.fst := by
  obtain ⟨dx, t, s1, h1, h2, h3, h4, h5, h6, h7, h8, h9⟩ :=
    setPdeSpectrum_span sampleLibm [1, 2] [1, 1] blankProperties rfl
      ⟨1, by simp, 2, by simp, by norm_num⟩
      (by
        intro w hw
        simp only [List.mem_cons, List.mem_singleton, List.not_mem_nil, or_false] at hw
        rcases hw with rfl | rfl
        · exact ⟨by decide!, by norm_num⟩
        · exact ⟨by decide!, by norm_num⟩)
      1 2 (by simp)
      (by intro w hw; simp at hw; rcases hw with rfl | rfl <;> norm_num) (by simp)
      (by intro w hw; simp at hw; rcases hw with rfl | rfl <;> norm_num) rfl
  obtain ⟨h10, h11⟩ := h9 (by norm_num) (by norm_num) (by norm_num)
  exact ⟨dx, t, s1, h1, h2, h3, h4, h5, h6, h7, h8 (by norm_num) (by norm_num), h10, h11⟩

/-- The run of `setPdeSpectrum` in binary64 arithmetic on the wavelengths `a` and `a + 1`
for `a = 1` and `a = 3`: the step is `1/32`, the targets are `a + i/32` without rounding
error, and the 32 entries are appended when every stored wavelength lies below `a`. -/
theorem setPdeSpectrum_unit_range (L : Libm ℚ) (a p0 p1 : ℚ) (s : SiPMProperties ℚ)
    (hstep : gridStep round64 a (a + 1) = Dbl.fin (1 / 32))
    (hpts : ∀ i, i < 32 → gridPoint round64 a (1 / 32) i = Dbl.fin (a + (i : ℚ) * (1 / 32)))
    (hprev : ∀ k0 ∈ s.m_PdeSpectrum.map Prod.fst, k0 < a) :
    ∃ s1, setPdeSpectrum round64 L [a, a + 1] [p0, p1] s = some s1 ∧
      s1.m_PdeSpectrum = s.m_PdeSpectrum ++ (List.range 32).map fun i : Nat =>
        (a + (i : ℚ) * (1 / 32),
          (pdePoint round64 L [(a, p0), (a + 1, p1)] (a + (i : ℚ) * (1 / 32))).getD Dbl.nan) := by
  have hin : fillInput [a, a + 1] [p0, p1] [] = some [(a, p0), (a + 1, p1)] := by
    simp [fillInput, mapAssign]
  refine setPdeSpectrum_append round64 L [a, a + 1] [p0, p1] s [(a, p0), (a + 1, p1)] a (a + 1)
    p0 p1 (1 / 32) (fun i => a + (i : ℚ) * (1 / 32)) hin rfl rfl (by simp) hstep hpts
    (grid_pairwise a (1 / 32) (by norm_num) 32) ?_
  intro k0 hk0 i _
  have h0 : (0 : ℚ) ≤ (i : ℚ) * (1 / 32) := by positivity
  linarith [hprev k0 hk0]

/-- C3 (the code at the failing input): two successive calls, over the wavelength ranges
`[1, 2]` and then `[3, 4]`, leave 64 stored entries, the wavelength `1` of the first call
among them, while the second call alone leaves 32: the entries of the previous spectrum are
kept, and the stored spectrum depends on the prior state. -/
theorem setPdeSpectrum_keeps_previous (L : Libm ℚ) :
    ∃ s1 s2 s3, setPdeSpectrum round64 L [1, 2] [1, 1] blankProperties = some s1 ∧
      setPdeSpectrum round64 L [3, 4] [1, 1] s1 = some s2 ∧
      setPdeSpectrum round64 L [3, 4] [1, 1] blankProperties = some s3 ∧
      s2.m_PdeSpectrum.length = 64 ∧ s3.m_PdeSpectrum.length = 32 ∧
      (1 : ℚ) ∈ s2.m_PdeSpectrum.map Prod.fst ∧
      (1 : ℚ) ∉ s3.m_PdeSpectrum.map Prod.fst := by
  have hb : blankProperties.m_PdeSpectrum = [] := rfl
  have e2 : ((1 : ℚ) + 1) = 2 := by norm_num
  have e4 : ((3 : ℚ) + 1) = 4 := by norm_num
  obtain ⟨s1, h1, k1⟩ := setPdeSpectrum_unit_range L 1 1 1 blankProperties (by decide!)
    (by decide!) (by simp [blankProperties])
  have hprev : ∀ k0 ∈ s1.m_PdeSpectrum.map Prod.fst, k0 < (3 : ℚ) := by
    intro k0 hk0
    rw [k1, hb, List.nil_append, List.map_map] at hk0
    obtain ⟨i, hi, rfl⟩ := List.mem_map.mp hk0
    have hi32 : (i : ℚ) < 32 := by exact_mod_cast List.mem_range.mp hi
    simp only [Function.comp_apply]
    linarith
  obtain ⟨s2, h2, k2⟩ := setPdeSpectrum_unit_range L 3 1 1 s1 (by decide!) (by decide!) hprev
  obtain ⟨s3, h3, k3⟩ := setPdeSpectrum_unit_range L 3 1 1 blankProperties (by decide!)
    (by decide!) (by simp [blankProperties])
  rw [e2] at h1
  rw [e4] at h2 h3
  refine ⟨s1, s2, s3, h1, h2, h3, ?_, ?_, ?_, ?_⟩
  · rw [k2, k1, hb]
    simp
  · rw [k3, hb]
    simp
  · rw [k2, k1, hb, List.nil_append, List.map_append]
    refine List.mem_append_left _ ?_
    rw [List.map_map]
    exact List.mem_map.mpr ⟨0, by simp, by simp⟩
  · rw [k3, hb, List.nil_append, List.map_map]
    intro hmem
    obtain ⟨i, hi, hval⟩ := List.mem_map.mp hmem
    have h0 : (0 : ℚ) ≤ (i : ℚ) * (1 / 32) := by positivity
    simp only [Function.comp_apply] at hval
    linarith

/-- A negative efficiency at the lower bracket end makes the computed value NaN: the
logarithm is NaN, and NaN compares below nothing, so neither the fallback nor the clamp
applies. -/
theorem interpolate_neg_left (fl : F → Dbl F) (L : Libm F) (x0 y0 x1 y1 newx : F)
    (hy0 : y0 < 0) : interpolate fl L x0 y0 x1 y1 newx = Dbl.nan := by
  simp [interpolate, Dbl.log, hy0, Dbl.mul, Dbl.add, Dbl.div, Dbl.exp, Dbl.lt, Dbl.rnd,
    Dbl.mulR, Dbl.addR, Dbl.divR]

/-- In an input map of two entries the bracket of every target wavelength is made of
these two entries. -/
theorem pdePoint_two (fl : F → Dbl F) (L : Libm F) (e0 e1 : F × F) (k : F) :
    pdePoint fl L [e0, e1] k = some (interpolate fl L e0.1 e0.2 e1.1 e1.2 k) := by
  have h := bracketIndex_range [e0, e1] (by simp) k
  have h1 : bracketIndex [e0, e1] k = 1 := by
    simp only [List.length_cons, List.length_nil] at h
    omega
  unfold pdePoint
  simp only [h1]
  rfl

/-- C4 (the code at the failing input): for `wav = [1, 2]`, `pde = [-1, 1]` each of the 32
stored efficiencies is NaN, which is not greater than or equal to 0. -/
theorem setPdeSpectrum_negative_efficiency (L : Libm ℚ) :
    ∃ s1, setPdeSpectrum round64 L [1, 2] [-1, 1] blankProperties = some s1 ∧
      s1.m_PdeSpectrum.length = 32 ∧
      ∀ e ∈ s1.m_PdeSpectrum, e.2 = Dbl.nan ∧ Dbl.ge e.2 (Dbl.fin 0) = false := by
  have hb : blankProperties.m_PdeSpectrum = [] := rfl
  have e2 : ((1 : ℚ) + 1) = 2 := by norm_num
  obtain ⟨s1, h1, k1⟩ := setPdeSpectrum_unit_range L 1 (-1) 1 blankProperties (by decide!)
    (by decide!) (by simp [blankProperties])
  rw [e2] at h1
  rw [hb, List.nil_append] at k1
  refine ⟨s1, h1, by simp [k1], ?_⟩
  intro e he
  rw [k1] at he
  obtain ⟨i, hi, rfl⟩ := List.mem_map.mp he
  simp only [pdePoint_two, Option.getD_some]
  rw [interpolate_neg_left round64 L _ _ _ _ _ (by norm_num)]
  exact ⟨rfl, rfl⟩

theorem fillInput_values (wav pde : List F) (m r : List (F × F))
    (h : fillInput wav pde m = some r) (e : F × F) (he : e ∈ r) : e ∈ m ∨ e.2 ∈ pde := by
  induction wav generalizing pde m with
  | nil =>
    simp only [fillInput, Option.some.injEq] at h
    subst h
    exact Or.inl he
  | cons w ws ih =>
    cases pde with
    | nil => simp [fillInput] at h
    | cons p ps =>
      simp only [fillInput] at h
      rcases ih ps _ h with h1 | h1
      · rcases mapAssign_mem m w p e h1 with h2 | h2
        · subst h2
          exact Or.inr (by simp)
        · exact Or.inl h2
      · exact Or.inr (List.mem_cons_of_mem _ h1)

end Claims2

section RoundTrip

variable {F : Type} [LinearOrderedField F]

/-- With an `exp` that returns no negative value the loop body stores `exp(logNewy)`. -/
theorem interpolate_eq_exp (fl : F → Dbl F) (L : Libm F) (hexp : ∀ x, 0 ≤ L.exp x)
    (x0 y0 x1 y1 newx : F) :
    interpolate fl L x0 y0 x1 y1 newx = Dbl.exp L (logNewy fl L x0 y0 x1 y1 newx) := by
  have hlt : ∀ v : Dbl F, Dbl.lt (Dbl.exp L v) (Dbl.fin 0) = false := by
    intro v
    cases v with
    | nan => rfl
    | ninf => simp [Dbl.exp, Dbl.lt]
    | pinf => rfl
    | fin x => simp [Dbl.exp, Dbl.lt, hexp x]
  have h := hlt (logNewy fl L x0 y0 x1 y1 newx)
  unfold interpolate
  unfold logNewy at h ⊢
  simp only [h, Bool.false_eq_true, if_false]

end RoundTrip

section PropertyClaims

variable {F : Type}

/-- C6: two property names that are equal after lower-casing give the same resulting
properties state, for every state and value. -/
theorem setProperty_case_insensitive (σ : Setters F) (name1 name2 : String) (v : Dbl F)
    (s : SiPMProperties F) (h : lowercase name1 = lowercase name2) :
    (setProperty σ name1 v s).1 = (setProperty σ name2 v s).1 := by
  unfold setProperty
  simp only
  rw [h]
  simp only [apply_ite Prod.fst]

/-- Witness for C6: the names `SIZE`, `Size` and `size`. -/
theorem setProperty_case_insensitive_witness :
    (setProperty sampleSetters "SIZE" (Dbl.fin 6) blankProperties).1 =
        (setProperty sampleSetters "size" (Dbl.fin 6) blankProperties).1 ∧
      (setProperty sampleSetters "Size" (Dbl.fin 6) blankProperties).1 =
        (setProperty sampleSetters "size" (Dbl.fin 6) blankProperties).1 :=
  ⟨setProperty_case_insensitive sampleSetters "SIZE" "size" (Dbl.fin 6) blankProperties
      (by decide),
    setProperty_case_insensitive sampleSetters "Size" "size" (Dbl.fin 6) blankProperties
      (by decide)⟩

/-- C7: for a name whose lower-cased form is not a recognized token, `setProperty` returns,
leaves the properties object unchanged, and writes the one diagnostic line. -/
theorem setProperty_unknown (σ : Setters F) (name : String) (v : Dbl F)
    (s : SiPMProperties F) (h : lowercase name ∉ propertyTokens) :
    setProperty σ name v s = (s, ["Property: " ++ name ++ " not found!"]) := by
  unfold setProperty
  simp only [propertyTokens, List.mem_cons, List.mem_singleton, List.not_mem_nil, or_false,
    not_or] at h
  simp only [h, if_false]

/-- Witness for C7: the name `bogus`. -/
theorem setProperty_unknown_witness :
    setProperty sampleSetters "bogus" (Dbl.fin 1) blankProperties =
      (blankProperties, ["Property: " ++ "bogus" ++ " not found!"]) :=
  setProperty_unknown sampleSetters "bogus" (Dbl.fin 1) blankProperties (by decide)

/-- C8: `setProperty` reaches a typed setter (and writes no diagnostic) exactly when the
lower-cased name is one of the 19 tokens; each token calls the one setter of the field it
names with the value `v` (handed over as `float(v)` for `ccgv`, as the source writes it),
and `cellrecovery` and `recoverytime` both call `setRecoveryTime`. -/
theorem setProperty_dispatch (σ : Setters F) (name : String) (v : Dbl F)
    (s : SiPMProperties F) :
    ((setProperty σ name v s).2 = [] ↔ lowercase name ∈ propertyTokens) ∧
    (lowercase name = "size" → setProperty σ name v s = (σ.setSize v s, [])) ∧
    (lowercase name = "pitch" → setProperty σ name v s = (σ.setPitch v s, [])) ∧
    (lowercase name = "sampling" → setProperty σ name v s = (σ.setSampling v s, [])) ∧
    (lowercase name = "cellrecovery" →
      setProperty σ name v s = (σ.setRecoveryTime v s, [])) ∧
    (lowercase name = "recoverytime" →
      setProperty σ name v s = (σ.setRecoveryTime v s, [])) ∧
    (lowercase name = "signallength" →
      setProperty σ name v s = (σ.setSignalLength v s, [])) ∧
    (lowercase name = "risetime" → setProperty σ name v s = (σ.setRiseTime v s, [])) ∧
    (lowercase name = "falltimefast" →
      setProperty σ name v s = (σ.setFallTimeFast v s, [])) ∧
    (lowercase name = "falltimeslow" →
      setProperty σ name v s = (σ.setFallTimeSlow v s, [])) ∧
    (lowercase name = "slowcomponentfraction" →
      setProperty σ name v s = (σ.setSlowComponentFraction v s, [])) ∧
    (lowercase name = "tauapfast" →
      setProperty σ name v s = (σ.setTauApFastComponent v s, [])) ∧
    (lowercase name = "tauapslow" →
      setProperty σ name v s = (σ.setTauApSlowComponent v s, [])) ∧
    (lowercase name = "ccgv" → setProperty σ name v s = (σ.setCcgv (σ.toFloat v) s, [])) ∧
    (lowercase name = "snr" → setProperty σ name v s = (σ.setSnr v s, [])) ∧
    (lowercase name = "pde" → setProperty σ name v s = (σ.setPde v s, [])) ∧
    (lowercase name = "dcr" → setProperty σ name v s = (σ.setDcr v s, [])) ∧
    (lowercase name = "xt" → setProperty σ name v s = (σ.setXt v s, [])) ∧
    (lowercase name = "dxt" → setProperty σ name v s = (σ.setDXt v s, [])) ∧
    (lowercase name = "ap" → setProperty σ name v s = (σ.setAp v s, [])) := by
  unfold setProperty
  simp only
  generalize lowercase name = a
  refine ⟨?_, ?_, ?_, ?_, ?_, ?_, ?_, ?_, ?_, ?_, ?_, ?_, ?_, ?_, ?_, ?_, ?_, ?_, ?_, ?_⟩
  · simp only [apply_ite Prod.snd, propertyTokens, List.mem_cons, List.mem_singleton,
      List.not_mem_nil, or_false]
    by_cases h : a = "size" ∨ a = "pitch" ∨ a = "sampling" ∨ a = "cellrecovery" ∨
        a = "recoverytime" ∨ a = "signallength" ∨ a = "risetime" ∨ a = "falltimefast" ∨
        a = "falltimeslow" ∨ a = "slowcomponentfraction" ∨ a = "tauapfast" ∨
        a = "tauapslow" ∨ a = "ccgv" ∨ a = "snr" ∨ a = "pde" ∨ a = "dcr" ∨ a = "xt" ∨
        a = "dxt" ∨ a = "ap"
    · simp only [h, iff_true]
      rcases h with h | h | h | h | h | h | h | h | h | h | h | h | h | h | h | h | h | h | h <;>
        (subst h; simp only [String.reduceEq, if_false, if_true])
    · simp only [h, iff_false]
      simp only [not_or] at h
      simp only [h, if_false]
      simp
  all_goals
    intro h
    subst h
    simp only [String.reduceEq, if_false, if_true]

end PropertyClaims

section SettingsClaims

variable {F : Type}

/-- C9 (the code at the failing input): a settings text with Windows line ends and one
blank line, `size=6`, blank, `pitch=25`.  The blank line is the single character `\r`; it
passes the emptiness test, is emptied by the whitespace removal and reaches `std::stod`
with the empty string, so the load throws, although without the blank line it returns the
state of the two assignments applied in order. -/
theorem readSettings_blank_line_crlf (stod : String → Option (Dbl F)) (σ : Setters F)
    (retval : SiPMProperties F) (fname : String) (d6 d25 : Dbl F)
    (h0 : stod "" = none) (h6 : stod "6" = some d6) (h25 : stod "25" = some d25) :
    readSettings stod σ retval fname (some "size=6\r\n\r\npitch=25\r\n") = none ∧
      readSettings stod σ retval fname (some "size=6\r\npitch=25\r\n") =
        some ((setProperty σ "pitch" d25 (setProperty σ "size" d6 retval).1).1,
          (setProperty σ "size" d6 retval).2 ++
            (setProperty σ "pitch" d25 (setProperty σ "size" d6 retval).1).2) := by
  constructor
  · simp [readSettings, getlines, readLines, readLine, removeSpaces, isspace, find, h0, h6]
  · simp [readSettings, getlines, readLines, readLine, removeSpaces, isspace, find, h6, h25]

/-- Witness for `readSettings_blank_line_crlf`. -/
theorem readSettings_blank_line_crlf_witness :
    readSettings sampleStod sampleSetters blankProperties "settings.txt"
        (some "size=6\r\n\r\npitch=25\r\n") = none ∧
      readSettings sampleStod sampleSetters blankProperties "settings.txt"
        (some "size=6\r\npitch=25\r\n") =
        some ((setProperty sampleSetters "pitch" (Dbl.fin 25)
            (setProperty sampleSetters "size" (Dbl.fin 6) blankProperties).1).1,
          (setProperty sampleSetters "size" (Dbl.fin 6) blankProperties).2 ++
            (setProperty sampleSetters "pitch" (Dbl.fin 25)
              (setProperty sampleSetters "size" (Dbl.fin 6) blankProperties).1).2) :=
  readSettings_blank_line_crlf sampleStod sampleSetters blankProperties "settings.txt"
    (Dbl.fin 6) (Dbl.fin 25) (by decide!) (by decide!) (by decide!)

/-- C10 (the code at the failing input): the text `size=6` followed by a line that holds
one space.  The load throws, while the text with that line deleted loads and sets the
size. -/
theorem readSettings_whitespace_line (stod : String → Option (Dbl F)) (σ : Setters F)
    (retval : SiPMProperties F) (fname : String) (d6 : Dbl F)
    (h0 : stod "" = none) (h6 : stod "6" = some d6) :
    readSettings stod σ retval fname (some "size=6\n \n") = none ∧
      readSettings stod σ retval fname (some "size=6\n") =
        some (setProperty σ "size" d6 retval) := by
  constructor
  · simp [readSettings, getlines, readLines, readLine, removeSpaces, isspace, find, h0, h6]
  · simp [readSettings, getlines, readLines, readLine, removeSpaces, isspace, find, h6]

/-- Witness for `readSettings_whitespace_line`. -/
theorem readSettings_whitespace_line_witness :
    readSettings sampleStod sampleSetters blankProperties "settings.txt"
        (some "size=6\n \n") = none ∧
      readSettings sampleStod sampleSetters blankProperties "settings.txt"
        (some "size=6\n") =
        some (setProperty sampleSetters "size" (Dbl.fin 6) blankProperties) :=
  readSettings_whitespace_line sampleStod sampleSetters blankProperties "settings.txt"
    (Dbl.fin 6) (by decide!) (by decide!)

/-- One pass of the loop on a line that is empty, a comment, or an assignment whose value
`std::stod` reads: the pass returns, and does what the spec says for that line. -/
theorem readLine_of_wellformed (stod : String → Option (Dbl F)) (σ : Setters F)
    (line : List Char) (retval : SiPMProperties F) (out : List String)
    (h : line = [] ∨ (isBlankLine line = false ∧ (isCommentLine line = true ∨
      ∃ name value d, splitAssignment line = some (name, value) ∧ stod value = some d))) :
    ∃ r, readLine stod σ line retval = some r ∧
      ∀ rest, applyAssignments stod σ (line :: rest) (retval, out) =
        applyAssignments stod σ rest (r.1, out ++ r.2) := by
  rcases h with h | ⟨hb, h⟩
  · subst h
    refine ⟨(retval, []), by simp [readLine], ?_⟩
    intro rest
    simp [applyAssignments, isBlankLine, removeSpaces]
  · have hne : line ≠ [] := by
      intro h0
      subst h0
      simp [isBlankLine, removeSpaces] at hb
    simp only [isBlankLine, decide_eq_false_iff_not] at hb
    obtain ⟨c, t, hct⟩ := List.exists_cons_of_ne_nil hb
    by_cases hc : c = '#' ∨ c = '/'
    · refine ⟨(retval, []), ?_, ?_⟩
      · simp [readLine, hne, hct, hc]
      · intro rest
        have : isCommentLine line = true := by
          simp only [isCommentLine, hct]
          simpa using hc
        simp [applyAssignments, this]
    · have hnc : isCommentLine line = false := by
        simp only [isCommentLine, hct]
        simpa using hc
      rcases h with h | ⟨name, value, d, hsplit, hd⟩
      · rw [hnc] at h
        exact absurd h (by simp)
      · unfold splitAssignment at hsplit
        cases hf : find (removeSpaces line) '=' with
        | none => simp [hf] at hsplit
        | some p =>
          simp only [hf, Option.some.injEq, Prod.mk.injEq] at hsplit
          obtain ⟨hn, hv⟩ := hsplit
          refine ⟨setProperty σ name d retval, ?_, ?_⟩
          · unfold readLine
            rw [if_neg hne]
            simp only [hct, List.headD_cons, if_neg hc]
            rw [← hct]
            simp only [hf, hn, hv, hd]
          · intro rest
            have hbl : isBlankLine line = false := by
              simp [isBlankLine, hct]
            simp only [applyAssignments, hbl, hnc, Bool.or_self, Bool.false_eq_true,
              if_false, splitAssignment, hf, hn, hv, hd]

/-- The settings loop refines the spec on well-formed lines: when every line is empty, or
is non-blank after whitespace removal and either a comment or an assignment whose value
`std::stod` reads, the loop returns the state and diagnostics that result from applying
`setProperty` once per assignment line in file order. -/
theorem readLines_of_wellformed (stod : String → Option (Dbl F)) (σ : Setters F)
    (lines : List (List Char)) (retval : SiPMProperties F) (out : List String)
    (h : ∀ line ∈ lines, line = [] ∨ (isBlankLine line = false ∧
      (isCommentLine line = true ∨
        ∃ name value d, splitAssignment line = some (name, value) ∧ stod value = some d))) :
    readLines stod σ lines retval out =
      some (applyAssignments stod σ lines (retval, out)) := by
  induction lines generalizing retval out with
  | nil => rfl
  | cons line rest ih =>
    obtain ⟨r, hr, hspec⟩ := readLine_of_wellformed stod σ line retval out
      (h line (List.mem_cons_self _ _))
    unfold readLines
    rw [hr, hspec rest]
    exact ih r.1 (out ++ r.2) (fun l hl => h l (List.mem_cons_of_mem _ hl))

end SettingsClaims

section SettingsLines

variable {F : Type}

/-- A comment line leaves the pass without any effect. -/
theorem readLine_comment (stod : String → Option (Dbl F)) (σ : Setters F)
    (line : List Char) (retval : SiPMProperties F) (h : isCommentLine line = true) :
    readLine stod σ line retval = some (retval, []) := by
  unfold isCommentLine at h
  cases hs : removeSpaces line with
  | nil => simp [hs] at h
  | cons c t =>
    simp only [hs, Bool.or_eq_true, decide_eq_true_eq] at h
    have hne : line ≠ [] := by
      intro h0
      subst h0
      simp [removeSpaces] at hs
    simp [readLine, hne, hs, h]

/-- A line that is not a comment and splits at its first `=` reaches `std::stod` with the
text after the `=`, and `setProperty` with the text before it. -/
theorem readLine_assignment (stod : String → Option (Dbl F)) (σ : Setters F)
    (line : List Char) (retval : SiPMProperties F) (name value : String)
    (hc : isCommentLine line = false) (hs : splitAssignment line = some (name, value)) :
    readLine stod σ line retval =
      (stod value).map fun val => setProperty σ name val retval := by
  unfold splitAssignment at hs
  cases hf : find (removeSpaces line) '=' with
  | none => simp [hf] at hs
  | some p =>
    simp only [hf, Option.some.injEq, Prod.mk.injEq] at hs
    obtain ⟨hn, hv⟩ := hs
    have hne : line ≠ [] := by
      intro h0
      subst h0
      simp [removeSpaces, find] at hf
    have hhead : ¬ ((removeSpaces line).headD '\x00' = '#' ∨
        (removeSpaces line).headD '\x00' = '/') := by
      unfold isCommentLine at hc
      cases hr : removeSpaces line with
      | nil => simp [hr, find] at hf
      | cons c t =>
        simp only [hr, Bool.or_eq_false_iff, decide_eq_false_iff_not] at hc
        simp [hc.1, hc.2]
    unfold readLine
    rw [if_neg hne]
    simp only [if_neg hhead, hf, hn, hv]
    cases stod value <;> rfl

theorem readLines_cons (stod : String → Option (Dbl F)) (σ : Setters F)
    (line : List Char) (rest : List (List Char)) (retval : SiPMProperties F)
    (out : List String) :
    readLines stod σ (line :: rest) retval out =
      (readLine stod σ line retval).bind fun r => readLines stod σ rest r.1 (out ++ r.2) := by
  cases h : readLine stod σ line retval with
  | none => simp only [readLines, h, Option.none_bind]
  | some r => simp only [readLines, h, Option.some_bind]

theorem readSettings_some (stod : String → Option (Dbl F)) (σ : Setters F)
    (retval : SiPMProperties F) (fname text : String) :
    readSettings stod σ retval fname (some text) =
      readLines stod σ (getlines text.data []) retval [] := rfl

/-- The loop fails as soon as one of its lines makes the pass fail. -/
theorem readLines_none_of_mem (stod : String → Option (Dbl F)) (σ : Setters F)
    (lines : List (List Char)) (line : List Char) (hmem : line ∈ lines)
    (hfail : ∀ retval, readLine stod σ line retval = none)
    (retval : SiPMProperties F) (out : List String) :
    readLines stod σ lines retval out = none := by
  induction lines generalizing retval out with
  | nil => simp at hmem
  | cons l rest ih =>
    unfold readLines
    rcases List.mem_cons.mp hmem with h | h
    · subst h
      rw [hfail retval]
    · cases hl : readLine stod σ l retval with
      | none => rfl
      | some r => exact ih h r.1 (out ++ r.2)

/-- The returned object does not depend on the diagnostics collected so far. -/
theorem readLines_fst_out (stod : String → Option (Dbl F)) (σ : Setters F)
    (lines : List (List Char)) (retval : SiPMProperties F) (out1 out2 : List String) :
    (readLines stod σ lines retval out1).map Prod.fst =
      (readLines stod σ lines retval out2).map Prod.fst := by
  induction lines generalizing retval out1 out2 with
  | nil => rfl
  | cons l rest ih =>
    unfold readLines
    cases hl : readLine stod σ l retval with
    | none => rfl
    | some r => exact ih r.1 _ _

/-- The loop over two runs of lines is the loop over the second run started from the
result of the first. -/
theorem readLines_append (stod : String → Option (Dbl F)) (σ : Setters F)
    (pre post : List (List Char)) (retval : SiPMProperties F) (out : List String) :
    readLines stod σ (pre ++ post) retval out =
      (readLines stod σ pre retval out).bind fun r => readLines stod σ post r.1 r.2 := by
  induction pre generalizing retval out with
  | nil => rfl
  | cons l rest ih =>
    rw [List.cons_append, readLines_cons, readLines_cons]
    cases hl : readLine stod σ l retval with
    | none => rfl
    | some r => exact ih r.1 _

/-- Deleting the comment lines does not change what the loop returns. -/
theorem readLines_filter_comments (stod : String → Option (Dbl F)) (σ : Setters F)
    (lines : List (List Char)) (retval : SiPMProperties F) (out : List String) :
    readLines stod σ (lines.filter fun l => !isCommentLine l) retval out =
      readLines stod σ lines retval out := by
  induction lines generalizing retval out with
  | nil => rfl
  | cons l rest ih =>
    by_cases hc : isCommentLine l = true
    · rw [List.filter_cons_of_neg (by simp [hc])]
      conv_rhs => unfold readLines
      rw [readLine_comment stod σ l retval hc]
      simp only [List.append_nil]
      exact ih retval out
    · rw [List.filter_cons_of_pos (by simpa using hc)]
      unfold readLines
      cases hl : readLine stod σ l retval with
      | none => rfl
      | some r => exact ih r.1 _

end SettingsLines

section SettingsClaims2

variable {F : Type}

/-- C11 (counterexample): the value text `1abc` is not a floating-point literal, yet the
settings text `pitch=1abc` loads, and sets the pitch to 1. -/
theorem readSettings_malformed_counterexample :
    isFloatLiteral "1abc" = false ∧
      splitAssignment "pitch=1abc".data = some ("pitch", "1abc") ∧
      readSettings stod sampleSetters blankProperties "settings.txt" (some "pitch=1abc") =
        some (setProperty sampleSetters "pitch" (Dbl.fin 1) blankProperties) := by
  decide!

/-- C11 (amended): the load fails as a whole, returning no properties, for every settings
text that contains a non-comment line with an `=` from whose value part, the text after the
first `=`, `std::stod` can read no number at its start. -/
theorem readSettings_unreadable_value (stod : String → Option (Dbl F)) (σ : Setters F)
    (retval : SiPMProperties F) (fname text : String) (line : List Char)
    (name value : String) (hline : line ∈ getlines text.data [])
    (hc : isCommentLine line = false) (hs : splitAssignment line = some (name, value))
    (hv : stod value = none) :
    readSettings stod σ retval fname (some text) = none := by
  rw [readSettings_some]
  exact readLines_none_of_mem stod σ _ line hline
    (fun r => by rw [readLine_assignment stod σ line r name value hc hs, hv]; rfl) retval []

/-- Witness for C11 (amended): the settings text `size=6`, `pitch=abc`. -/
theorem readSettings_unreadable_value_witness :
    readSettings stod sampleSetters blankProperties "settings.txt"
      (some "size=6\npitch=abc\n") = none :=
  readSettings_unreadable_value stod sampleSetters blankProperties "settings.txt"
    "size=6\npitch=abc\n" "pitch=abc".data "pitch" "abc" (by decide) (by decide) (by decide)
    (by decide!)

/-- C12: a line whose first non-whitespace character is `#` or `/` is ignored: a settings
text loads to the same result (object, diagnostics, or failure) as the text with all such
lines deleted, whatever else those lines hold. -/
theorem readSettings_comments_ignored (stod : String → Option (Dbl F)) (σ : Setters F)
    (retval : SiPMProperties F) (fname text text1 : String)
    (h : getlines text1.data [] =
      (getlines text.data []).filter fun l => !isCommentLine l) :
    readSettings stod σ retval fname (some text1) =
      readSettings stod σ retval fname (some text) := by
  rw [readSettings_some, readSettings_some, h]
  exact readLines_filter_comments stod σ _ retval []

/-- Witness for C12: comment lines that hold an `=` and non-numeric text. -/
theorem readSettings_comments_ignored_witness :
    readSettings stod sampleSetters blankProperties "settings.txt"
        (some "size=6\npitch=25\n") =
      readSettings stod sampleSetters blankProperties "settings.txt"
        (some "size=6\n  # pitch = abc\n/ size=x=y\npitch=25\n") :=
  readSettings_comments_ignored stod sampleSetters blankProperties "settings.txt"
    "size=6\n  # pitch = abc\n/ size=x=y\npitch=25\n" "size=6\npitch=25\n" (by decide)

/-- C13: a line `name=value` whose name is not a recognized token and whose value
`std::stod` reads neither fails the load nor changes the returned properties: the text
loads to the same object (or fails alike) as the text with that line deleted. -/
theorem readSettings_unknown_name (stod : String → Option (Dbl F)) (σ : Setters F)
    (retval : SiPMProperties F) (fname text text1 : String)
    (pre post : List (List Char)) (line : List Char) (name value : String) (d : Dbl F)
    (htext : getlines text.data [] = pre ++ line :: post)
    (htext1 : getlines text1.data [] = pre ++ post)
    (hs : splitAssignment line = some (name, value))
    (hname : lowercase name ∉ propertyTokens) (hv : stod value = some d) :
    (readSettings stod σ retval fname (some text)).map Prod.fst =
      (readSettings stod σ retval fname (some text1)).map Prod.fst := by
  have hline : ∀ r : SiPMProperties F, ∃ msgs, readLine stod σ line r = some (r, msgs) := by
    intro r
    by_cases hc : isCommentLine line = true
    · exact ⟨[], readLine_comment stod σ line r hc⟩
    · rw [readLine_assignment stod σ line r name value (by simpa using hc) hs, hv]
      refine ⟨["Property: " ++ name ++ " not found!"], ?_⟩
      simp only [Option.map_some', Option.some.injEq]
      unfold setProperty
      simp only [propertyTokens, List.mem_cons, List.mem_singleton, List.not_mem_nil,
        or_false, not_or] at hname
      simp only [hname, if_false]
  rw [readSettings_some, readSettings_some, htext, htext1, readLines_append,
    readLines_append]
  cases hp : readLines stod σ pre retval [] with
  | none => rfl
  | some r =>
    obtain ⟨msgs, hm⟩ := hline r.1
    simp only [Option.some_bind, readLines_cons, hm]
    exact readLines_fst_out stod σ post r.1 _ _

/-- Witness for C13: the settings text `size=6`, `pitch=25`, `sampling=1`, `snr=30`,
`# comment`, `badkey=1` loads, and to the same object as its first four lines. -/
theorem readSettings_unknown_name_witness :
    (readSettings stod sampleSetters blankProperties "settings.txt"
        (some "size=6\npitch=25\nsampling=1\nsnr=30\n# comment\nbadkey=1")).map Prod.fst =
      (readSettings stod sampleSetters blankProperties "settings.txt"
        (some "size=6\npitch=25\nsampling=1\nsnr=30\n# comment")).map Prod.fst ∧
    (readSettings stod sampleSetters blankProperties "settings.txt"
        (some "size=6\npitch=25\nsampling=1\nsnr=30\n# comment\nbadkey=1")).map Prod.fst =
      (readSettings stod sampleSetters blankProperties "settings.txt"
        (some "size=6\npitch=25\nsampling=1\nsnr=30")).map Prod.fst ∧
    (readSettings stod sampleSetters blankProperties "settings.txt"
        (some "size=6\npitch=25\nsampling=1\nsnr=30\n# comment\nbadkey=1")).isSome = true :=
  ⟨readSettings_unknown_name stod sampleSetters blankProperties "settings.txt"
      "size=6\npitch=25\nsampling=1\nsnr=30\n# comment\nbadkey=1"
      "size=6\npitch=25\nsampling=1\nsnr=30\n# comment"
      ["size=6".data, "pitch=25".data, "sampling=1".data, "snr=30".data, "# comment".data]
      [] "badkey=1".data "badkey" "1" (Dbl.fin 1) (by decide) (by decide) (by decide)
      (by decide) (by decide!),
    by decide!, by decide!⟩

end SettingsClaims2

section ConstructorClaims

variable {F : Type} [LinearOrderedField F] [FloorRing F]

theorem cround_nonneg (x : F) (hx : 0 ≤ x) : 0 ≤ cround x := by
  unfold cround
  rw [if_pos hx]
  exact Int.floor_nonneg.mpr (by linarith)

theorem roundToUInt32_fin (x : F) (hx : 0 ≤ x) (hlt : cround x < 2 ^ 32) :
    ∃ n : Nat, roundToUInt32 (Dbl.fin x) = some n ∧ (n : Int) = cround x := by
  have h0 := cround_nonneg x hx
  refine ⟨(cround x).toNat, ?_, Int.toNat_of_nonneg h0⟩
  simp only [roundToUInt32]
  rw [if_pos ⟨h0, hlt⟩]

/-- C14: the constructor, started from default members with finite size, pitch, signal
length and sampling (size and signal length not negative, pitch and sampling positive, the
two rounded quotients below 2^32), returns an object whose derived members are
`sideCells = round(1000 * size / pitch)`, `nCells = sideCells^2` modulo 2^32,
`signalPoints = round(signalLength / sampling)` and `snrLinear = pow(10, -snrdB / 20)`,
the raw members being those of the defaults. -/
theorem construct_derived (pow : Dbl F → Dbl F → Dbl F) (members : SiPMProperties F)
    (size pitch signalLength sampling : F)
    (hsize : members.m_Size = Dbl.fin size) (hpitch : members.m_Pitch = Dbl.fin pitch)
    (hlength : members.m_SignalLength = Dbl.fin signalLength)
    (hsampling : members.m_Sampling = Dbl.fin sampling)
    (hsize0 : 0 ≤ size) (hpitch0 : 0 < pitch) (hlength0 : 0 ≤ signalLength)
    (hsampling0 : 0 < sampling)
    (hside : cround (1000 * size / pitch) < 2 ^ 32)
    (hpoints : cround (signalLength / sampling) < 2 ^ 32) :
    ∃ s, SiPMProperties.construct pow members = some s ∧
      (s.m_SideCells : Int) = cround (1000 * size / pitch) ∧
      s.m_Ncells = s.m_SideCells ^ 2 % 2 ^ 32 ∧
      (s.m_SignalPoints : Int) = cround (signalLength / sampling) ∧
      s.m_SnrLinear = pow (Dbl.fin 10) (Dbl.div (Dbl.neg members.m_SnrdB) (Dbl.fin 20)) ∧
      s.m_Size = members.m_Size ∧ s.m_Pitch = members.m_Pitch ∧
      s.m_SignalLength = members.m_SignalLength ∧ s.m_Sampling = members.m_Sampling ∧
      s.m_SnrdB = members.m_SnrdB := by
  have h1 : Dbl.div (Dbl.mul (Dbl.fin 1000) members.m_Size) members.m_Pitch =
      Dbl.fin (1000 * size / pitch) := by
    rw [hsize, hpitch]
    simp [Dbl.mul, Dbl.div, ne_of_gt hpitch0]
  have h2 : Dbl.div members.m_SignalLength members.m_Sampling =
      Dbl.fin (signalLength / sampling) := by
    rw [hlength, hsampling]
    simp [Dbl.div, ne_of_gt hsampling0]
  obtain ⟨n1, hn1, hc1⟩ := roundToUInt32_fin (1000 * size / pitch)
    (div_nonneg (mul_nonneg (by norm_num) hsize0) (le_of_lt hpitch0)) hside
  obtain ⟨n2, hn2, hc2⟩ := roundToUInt32_fin (signalLength / sampling)
    (div_nonneg hlength0 (le_of_lt hsampling0)) hpoints
  have hrun : SiPMProperties.construct pow members = some { members with
      m_SideCells := n1
      m_Ncells := (n1 * n1) % 2 ^ 32
      m_SignalPoints := n2
      m_SnrLinear := pow (Dbl.fin 10) (Dbl.div (Dbl.neg members.m_SnrdB) (Dbl.fin 20)) } := by
    simp only [SiPMProperties.construct, h1, h2, hn1, hn2]
  refine ⟨_, hrun, hc1, ?_, hc2, rfl, rfl, rfl, rfl, rfl, rfl⟩
  simp only [pow_two]

/-- Witness for C14: size 6, pitch 25, signal length 500, sampling 1, SNR 20 dB. -/
theorem construct_derived_witness :
    ∃ s, SiPMProperties.construct samplePow
        { blankProperties with m_Size := Dbl.fin 6, m_SnrdB := Dbl.fin 20 } = some s ∧
      (s.m_SideCells : Int) = cround ((1000 : ℚ) * 6 / 25) ∧
      s.m_Ncells = s.m_SideCells ^ 2 % 2 ^ 32 ∧
      (s.m_SignalPoints : Int) = cround ((500 : ℚ) / 1) ∧
      s.m_SnrLinear = samplePow (Dbl.fin 10) (Dbl.div (Dbl.neg (Dbl.fin 20)) (Dbl.fin 20)) ∧
      s.m_Size = Dbl.fin 6 ∧ s.m_Pitch = Dbl.fin 25 ∧
      s.m_SignalLength = Dbl.fin 500 ∧ s.m_Sampling = Dbl.fin 1 ∧
      s.m_SnrdB = Dbl.fin 20 :=
  construct_derived samplePow
    { blankProperties with m_Size := Dbl.fin 6, m_SnrdB := Dbl.fin 20 } 6 25 500 1
    rfl rfl rfl rfl (by norm_num) (by norm_num) (by norm_num) (by norm_num)
    (by decide!) (by decide!)

end ConstructorClaims

section AnalogSignalClaims

variable {F : Type} [LinearOrderedField F]

/-- C15: for an analog signal built from a waveform `wav` and a positive sampling `sp`,
`length()` is the number of samples divided by `sp`, which differs from the number of
samples multiplied by `sp` unless the waveform is empty or `sp` is 1; `sampling()` is the
sampling and `waveform()` the waveform given at construction; and, the number of samples
being below 2^32, `size()` is that number and `length()` is `size() / sampling()`. -/
theorem analogSignal_length (wav : List (Dbl F)) (sp : F) (hsp : 0 < sp) :
    (SiPMAnalogSignal.mk wav (Dbl.fin sp)).length = Dbl.fin ((wav.length : F) / sp) ∧
      (wav ≠ [] → sp ≠ 1 →
        (SiPMAnalogSignal.mk wav (Dbl.fin sp)).length ≠ Dbl.fin ((wav.length : F) * sp)) ∧
      (SiPMAnalogSignal.mk wav (Dbl.fin sp)).sampling = Dbl.fin sp ∧
      (SiPMAnalogSignal.mk wav (Dbl.fin sp)).waveform = wav ∧
      (wav.length < 2 ^ 32 →
        (SiPMAnalogSignal.mk wav (Dbl.fin sp)).size = wav.length ∧
        (SiPMAnalogSignal.mk wav (Dbl.fin sp)).length =
          Dbl.div (Dbl.fin (((SiPMAnalogSignal.mk wav (Dbl.fin sp)).size : Nat) : F))
            (SiPMAnalogSignal.mk wav (Dbl.fin sp)).sampling) := by
  have hlen : (SiPMAnalogSignal.mk wav (Dbl.fin sp)).length =
      Dbl.fin ((wav.length : F) / sp) := by
    simp [SiPMAnalogSignal.length, Dbl.div, ne_of_gt hsp]
  refine ⟨hlen, ?_, rfl, rfl, ?_⟩
  · intro hne hsp1 heq
    rw [hlen] at heq
    have heq1 : (wav.length : F) / sp = (wav.length : F) * sp := Dbl.fin.inj heq
    have hpos : (0 : F) < (wav.length : F) := by
      have : 0 < wav.length := List.length_pos.mpr hne
      exact_mod_cast this
    rw [div_eq_iff (ne_of_gt hsp), mul_assoc] at heq1
    have h1 : sp * sp = 1 := by
      have := mul_left_cancel₀ (ne_of_gt hpos) (heq1.symm.trans (mul_one _).symm)
      exact this
    have h2 : (sp - 1) * (sp + 1) = 0 := by ring_nf; linarith
    rcases mul_eq_zero.mp h2 with h3 | h3
    · exact hsp1 (by linarith)
    · linarith
  · intro hn
    have hsize : (SiPMAnalogSignal.mk wav (Dbl.fin sp)).size = wav.length :=
      Nat.mod_eq_of_lt hn
    refine ⟨hsize, ?_⟩
    rw [hsize]
    rfl

/-- Witness for C15: three samples at sampling 2 give the length 3/2, not 6. -/
theorem analogSignal_length_witness :
    (SiPMAnalogSignal.mk [Dbl.fin (0 : ℚ), Dbl.fin 1, Dbl.fin 0] (Dbl.fin 2)).length =
        Dbl.fin (3 / 2) ∧
      (SiPMAnalogSignal.mk [Dbl.fin (0 : ℚ), Dbl.fin 1, Dbl.fin 0] (Dbl.fin 2)).length ≠
        Dbl.fin 6 ∧
      (SiPMAnalogSignal.mk [Dbl.fin (0 : ℚ), Dbl.fin 1, Dbl.fin 0] (Dbl.fin 2)).size = 3 ∧
      (SiPMAnalogSignal.mk [Dbl.fin (0 : ℚ), Dbl.fin 1, Dbl.fin 0] (Dbl.fin 2)).length =
        Dbl.div (Dbl.fin (((SiPMAnalogSignal.mk [Dbl.fin (0 : ℚ), Dbl.fin 1, Dbl.fin 0]
          (Dbl.fin 2)).size : Nat) : ℚ))
          (SiPMAnalogSignal.mk [Dbl.fin (0 : ℚ), Dbl.fin 1, Dbl.fin 0] (Dbl.fin 2)).sampling := by
  have h := analogSignal_length [Dbl.fin (0 : ℚ), Dbl.fin 1, Dbl.fin 0] 2 (by norm_num)
  refine ⟨?_, ?_, (h.2.2.2.2 (by decide)).1, (h.2.2.2.2 (by decide)).2⟩
  · rw [h.1]
    norm_num
  · have h6 := h.2.1 (by simp) (by norm_num)
    intro h0
    apply h6
    rw [h0]
    norm_num

end AnalogSignalClaims

section BracketClaims

variable {F : Type} [LinearOrderedField F]

omit [LinearOrderedField F] in
/-- The entry at the last index is the last entry. -/
theorem getElem?_last_key (m : List (F × F)) (e e1 : F × F) (j : Nat)
    (hlast : m.getLast? = some e) (hj : j + 2 = m.length) (hg : m[j + 1]? = some e1) :
    e1 = e := by
  rw [List.getLast?_eq_getElem?] at hlast
  have : m.length - 1 = j + 1 := by omega
  rw [this, hg] at hlast
  exact Option.some.inj hlast

/-- C16 (counterexample): for `wav = [1, 3/2, 2]` the target of index 16 is the interior
input wavelength `3/2`, and its bracket is `(3/2, 1)`, `(2, 1)`: the lower wavelength `x0`
equals `newx`, it is not below it.  For `wav = [1, 2]` the first target `newx = 1` has the
bracket `(1, 1)`, `(2, 1)` in the same way. -/
theorem bracket_strict_counterexample :
    gridStep round64 1 2 = Dbl.fin (1 / 32) ∧
      gridPoint round64 1 (1 / 32) 16 = Dbl.fin (3 / 2) ∧
      fillInput [(1 : ℚ), 3 / 2, 2] [1, 1, 1] [] = some [(1, 1), (3 / 2, 1), (2, 1)] ∧
      bracket [((1 : ℚ), (1 : ℚ)), (3 / 2, 1), (2, 1)] (3 / 2) = some ((3 / 2, 1), (2, 1)) ∧
      ¬ ((3 / 2 : ℚ) < 3 / 2) ∧
      gridPoint round64 1 (1 / 32) 0 = Dbl.fin 1 ∧
      bracket [((1 : ℚ), (1 : ℚ)), (2, 1)] 1 = some ((1, 1), (2, 1)) := by
  decide!

/-- C16 (amended): in binary64 arithmetic, on equal-length inputs whose wavelengths are
doubles of magnitude at most `2 ^ 1022`, at least two of them distinct, for each of the 32
target wavelengths `newx` the bracket that `setPdeSpectrum` interpolates between consists of
two adjacent entries `(x0, y0)`, `(x1, y1)` of the sorted input mapping, so `x0 < x1`, with
`x0 ≤ newx`; and `newx < x1`, unless the upper bound of `newx` is `end()`: then the target
has reached the largest input wavelength, the bracket is made of the last two entries, and
`x1 = xmax ≤ newx`.  For wavelengths from `2 ^ -500` to `2 ^ 500` no target passes `xmax`,
so that `x0 ≤ newx ≤ x1` throughout; and when moreover the range `xmax - xmin` is at least
`2 ^ -46` of `xmax`, no target reaches `xmax`, so that `x0 ≤ newx < x1` throughout. -/
theorem setPdeSpectrum_bracket (L : Libm ℚ) (wav pde : List ℚ)
    (hlen : wav.length = pde.length) (h2 : ∃ a ∈ wav, ∃ b ∈ wav, a ≠ b)
    (hdbl : ∀ w ∈ wav, round64 w = Dbl.fin w ∧ |w| ≤ 2 ^ (1022 : Int)) (xmin xmax : ℚ)
    (hmin : xmin ∈ wav) (hminle : ∀ w ∈ wav, xmin ≤ w)
    (hmax : xmax ∈ wav) (hmaxle : ∀ w ∈ wav, w ≤ xmax) :
    ∃ (dx : ℚ) (t : Nat → ℚ) (input : List (ℚ × ℚ)),
      gridStep round64 xmin xmax = Dbl.fin dx ∧
      (∀ i, i < 32 → gridPoint round64 xmin dx i = Dbl.fin (t i)) ∧
      fillInput wav pde [] = some input ∧
      (input.map Prod.fst).Pairwise (· < ·) ∧
      ∀ i : Nat, i < 32 → ∃ j e0 e1, input[j]? = some e0 ∧ input[j + 1]? = some e1 ∧
        bracket input (t i) = some (e0, e1) ∧
        pdePoint round64 L input (t i) =
          some (interpolate round64 L e0.1 e0.2 e1.1 e1.2 (t i)) ∧
        e0.1 < e1.1 ∧ e0.1 ≤ t i ∧
        (t i < e1.1 ∨
          (upper_bound input (t i) = input.length ∧ j + 2 = input.length ∧ e1.1 = xmax ∧
            xmax ≤ t i)) ∧
        (2 ^ (-500 : Int) ≤ xmin → xmax ≤ 2 ^ (500 : Int) → t i ≤ e1.1) ∧
        (2 ^ (-500 : Int) ≤ xmin → xmax ≤ 2 ^ (500 : Int) → xmax / 2 ^ 46 ≤ xmax - xmin →
          t i < e1.1) := by
  have hlt := lt_of_two_distinct wav h2 xmin xmax hminle hmaxle
  obtain ⟨input, ymin, ymax, dx, t, r, hin, hsorted, hhead, hlast, hkeys, hlen2, hdx, ht, ht0,
    htlo, -, -, -⟩ := setPdeSpectrum_binary64 L wav pde blankProperties hlen h2 hdbl xmin xmax
    hmin hminle hmax hmaxle
  refine ⟨dx, t, input, hdx, ht, hin, hsorted, ?_⟩
  intro i hi
  obtain ⟨j, e0, e1, hg0, hg1, hb, -, hadj, hcase⟩ := bracket_cases input hsorted hlen2 (t i)
  have hpt : pdePoint round64 L input (t i) =
      some (interpolate round64 L e0.1 e0.2 e1.1 e1.2 (t i)) := by
    rw [pdePoint_bracket, hb]
    rfl
  refine ⟨j, e0, e1, hg0, hg1, hb, hpt, hadj, ?_⟩
  rcases hcase with ⟨h0, -, -⟩ | ⟨-, -, hle, hgt⟩ | ⟨hub, hj2, hge⟩
  · have := upper_bound_pos input (t i) (xmin, ymin) hhead (htlo i hi)
    omega
  · exact ⟨hle, Or.inl hgt, fun _ _ => le_of_lt hgt, fun _ _ _ => hgt⟩
  · have he1 : e1 = (xmax, ymax) := getElem?_last_key input _ e1 j hlast hj2 hg1
    have hx1 : e1.1 = xmax := by rw [he1]
    refine ⟨le_trans (le_of_lt hadj) hge, Or.inr ⟨hub, hj2, hx1, by rw [← hx1]; exact hge⟩,
      ?_, ?_⟩
    · intro hlo hhi
      rw [hx1]
      exact grid_le_xmax xmin xmax hlt (hdbl xmin hmin).1 (hdbl xmax hmax).1 hlo hhi dx hdx i hi
        (t i) (ht i hi)
    · intro hlo hhi hsep
      rw [hx1]
      exact (grid_separated xmin xmax hlt (hdbl xmin hmin).1 (hdbl xmax hmax).1 hlo hhi
        hsep dx t hdx ht).1 i hi

/-- Witness for C16 (amended): the input `wav = [1, 2]`, `pde = [1, 1]`, for which
`x0 ≤ newx < x1` at each target. -/
theorem setPdeSpectrum_bracket_witness :
    ∃ (dx : ℚ) (t : Nat → ℚ) (input : List (ℚ × ℚ)),
      gridStep round64 1 2 = Dbl.fin dx ∧
      (∀ i, i < 32 → gridPoint round64 1 dx i = Dbl.fin (t i)) ∧
      fillInput [(1 : ℚ), 2] [1, 1] [] = some input ∧
      (input.map Prod.fst).Pairwise (· < ·) ∧
      ∀ i : Nat, i < 32 → ∃ j e0 e1, input[j]? = some e0 ∧ input[j + 1]? = some e1 ∧
        bracket input (t i) = some (e0, e1) ∧
        pdePoint round64 sampleLibm input (t i) =
          some (interpolate round64 sampleLibm e0.1 e0.2 e1.1 e1.2 (t i)) ∧
        e0.1 < e1.1 ∧ e0.1 ≤ t i ∧ t i < e1.1 := by
  obtain ⟨dx, t, input, h1, h2, h3, h4, h5⟩ :=
    setPdeSpectrum_bracket sampleLibm [1, 2] [1, 1] rfl
      ⟨1, by simp, 2, by simp, by norm_num⟩
      (by
        intro w hw
        simp only [List.mem_cons, List.mem_singleton, List.not_mem_nil, or_false] at hw
        rcases hw with rfl | rfl
        · exact ⟨by decide!, by norm_num⟩
        · exact ⟨by decide!, by norm_num⟩)
      1 2 (by simp)
      (by intro w hw; simp at hw; rcases hw with rfl | rfl <;> norm_num) (by simp)
      (by intro w hw; simp at hw; rcases hw with rfl | rfl <;> norm_num)
  refine ⟨dx, t, input, h1, h2, h3, h4, ?_⟩
  intro i hi
  obtain ⟨j, e0, e1, g1, g2, g3, g4, g5, g6, -, -, g9⟩ := h5 i hi
  exact ⟨j, e0, e1, g1, g2, g3, g4, g5, g6, g9 (by norm_num) (by norm_num) (by norm_num)⟩

/-- C17 (the code on every bracket): with an `exp` that returns no negative value, the
test `newy < 0` after `exp` is false for every bracket and target wavelength, so the
linear fallback is never taken and the value stored is `exp(logNewy)` itself (NaN when the
logarithms are undefined). -/
theorem interpolate_never_linear (fl : F → Dbl F) (L : Libm F) (hexp : ∀ x, 0 ≤ L.exp x)
    (x0 y0 x1 y1 newx : F) :
    Dbl.lt (Dbl.exp L (logNewy fl L x0 y0 x1 y1 newx)) (Dbl.fin 0) = false ∧
      interpolate fl L x0 y0 x1 y1 newx = Dbl.exp L (logNewy fl L x0 y0 x1 y1 newx) := by
  have hlt : ∀ v : Dbl F, Dbl.lt (Dbl.exp L v) (Dbl.fin 0) = false := by
    intro v
    cases v with
    | nan => rfl
    | ninf => simp [Dbl.exp, Dbl.lt]
    | pinf => rfl
    | fin x => simp [Dbl.exp, Dbl.lt, hexp x]
  refine ⟨hlt _, ?_⟩
  have h := hlt (logNewy fl L x0 y0 x1 y1 newx)
  unfold interpolate
  unfold logNewy at h ⊢
  simp only [h, Bool.false_eq_true, if_false]

/-- Witness for `interpolate_never_linear`: the bracket `(1, -1)`, `(2, 1)` at the target
wavelength 7/4, where the value stored is NaN and the linear interpolation would be 1/2. -/
theorem interpolate_never_linear_witness :
    (Dbl.lt (Dbl.exp sampleLibm (logNewy round64 sampleLibm 1 (-1) 2 1 (7 / 4)))
        (Dbl.fin 0) = false ∧
      interpolate round64 sampleLibm 1 (-1) 2 1 (7 / 4) =
        Dbl.exp sampleLibm (logNewy round64 sampleLibm 1 (-1) 2 1 (7 / 4))) ∧
      interpolate round64 sampleLibm 1 (-1) 2 1 (7 / 4) = Dbl.nan ∧
      linearNewy round64 (1 : ℚ) (-1) 2 1 (7 / 4) = Dbl.fin (1 / 2) :=
  ⟨interpolate_never_linear round64 sampleLibm
      (by intro x; exact le_max_right _ _) 1 (-1) 2 1 (7 / 4),
    by decide!, by decide!⟩

/-- C20 (counterexample): for the two adjacent doubles `wav = [1, 1 + 2 ^ -52]` the target
of index 17 rounds to the largest input wavelength, the upper-bound search returns `end()`
(index 2 of a map of 2 entries), and the bracket index is 1 only through the boundary
adjustment `--it1`. -/
theorem setPdeSpectrum_in_range_counterexample :
    fillInput [(1 : ℚ), 1 + 1 / 2 ^ 52] [1, 1] [] = some [(1, 1), (1 + 1 / 2 ^ 52, 1)] ∧
      gridStep round64 1 (1 + 1 / 2 ^ 52) = Dbl.fin (1 / 2 ^ 57) ∧
      gridPoint round64 1 (1 / 2 ^ 57) 17 = Dbl.fin (1 + 1 / 2 ^ 52) ∧
      upper_bound [((1 : ℚ), (1 : ℚ)), (1 + 1 / 2 ^ 52, 1)] (1 + 1 / 2 ^ 52) = 2 ∧
      [((1 : ℚ), (1 : ℚ)), (1 + 1 / 2 ^ 52, 1)].length = 2 ∧
      bracketIndex [((1 : ℚ), (1 : ℚ)), (1 + 1 / 2 ^ 52, 1)] (1 + 1 / 2 ^ 52) = 1 := by
  decide!

/-- C20 (amended): in binary64 arithmetic, on equal-length inputs whose wavelengths are
doubles of magnitude at most `2 ^ 1022`, at least two of them distinct, every access of
`setPdeSpectrum` is in range: every `pde[i]` read exists, the input mapping is not empty
when its first key `xmin` and last key `xmax` are read, and for each of the 32 target
wavelengths both bracket entries exist.  The upper bound is never `begin()`.  It is
`end()` exactly when the target has reached `xmax`, and then the boundary adjustment
`--it1` is what brings the bracket index back into the map; otherwise no adjustment
applies.  For wavelengths from `2 ^ -500` to `2 ^ 500` whose range `xmax - xmin` is at
least `2 ^ -46` of `xmax` no target reaches `xmax`, so that no adjustment applies at any
target.  The call returns. -/
theorem setPdeSpectrum_in_range (L : Libm ℚ) (wav pde : List ℚ) (s : SiPMProperties ℚ)
    (hlen : wav.length = pde.length) (h2 : ∃ a ∈ wav, ∃ b ∈ wav, a ≠ b)
    (hdbl : ∀ w ∈ wav, round64 w = Dbl.fin w ∧ |w| ≤ 2 ^ (1022 : Int)) (xmin xmax : ℚ)
    (hmin : xmin ∈ wav) (hminle : ∀ w ∈ wav, xmin ≤ w)
    (hmax : xmax ∈ wav) (hmaxle : ∀ w ∈ wav, w ≤ xmax) :
    ∃ (dx : ℚ) (t : Nat → ℚ) (input : List (ℚ × ℚ)) (s1 : SiPMProperties ℚ),
      fillInput wav pde [] = some input ∧ input ≠ [] ∧
      input.head?.map Prod.fst = some xmin ∧ input.getLast?.map Prod.fst = some xmax ∧
      gridStep round64 xmin xmax = Dbl.fin dx ∧
      (∀ i : Nat, i < 32 → gridPoint round64 xmin dx i = Dbl.fin (t i) ∧
        0 < upper_bound input (t i) ∧
        1 ≤ bracketIndex input (t i) ∧ bracketIndex input (t i) < input.length ∧
        (bracket input (t i)).isSome = true ∧
        (upper_bound input (t i) = input.length ↔ xmax ≤ t i) ∧
        (upper_bound input (t i) < input.length →
          bracketIndex input (t i) = upper_bound input (t i)) ∧
        (upper_bound input (t i) = input.length →
          bracketIndex input (t i) = upper_bound input (t i) - 1) ∧
        (2 ^ (-500 : Int) ≤ xmin → xmax ≤ 2 ^ (500 : Int) → xmax / 2 ^ 46 ≤ xmax - xmin →
          upper_bound input (t i) < input.length ∧
            bracketIndex input (t i) = upper_bound input (t i))) ∧
      setPdeSpectrum round64 L wav pde s = some s1 := by
  have hlt := lt_of_two_distinct wav h2 xmin xmax hminle hmaxle
  obtain ⟨input, ymin, ymax, dx, t, r, hin, hsorted, hhead, hlast, hkeys, hlen2, hdx, ht, ht0,
    htlo, -, -, hrun⟩ :=
    setPdeSpectrum_binary64 L wav pde s hlen h2 hdbl xmin xmax hmin hminle hmax hmaxle
  refine ⟨dx, t, input, _, hin, ?_, by rw [hhead]; rfl, by rw [hlast]; rfl, hdx, ?_, hrun⟩
  · intro h0
    rw [h0] at hhead
    simp at hhead
  · intro i hi
    have hpos := upper_bound_pos input (t i) (xmin, ymin) hhead (htlo i hi)
    obtain ⟨hlo, hhi⟩ := bracketIndex_range input hlen2 (t i)
    obtain ⟨j, e0, e1, hg0, hg1, hb, hidx, -, hcase⟩ :=
      bracket_cases input hsorted hlen2 (t i)
    have hxmax : xmax ∈ input.map Prod.fst := (hkeys xmax).mpr hmax
    have hend : upper_bound input (t i) = input.length ↔ xmax ≤ t i := by
      constructor
      · intro hub
        rcases hcase with ⟨h0, -, -⟩ | ⟨hub1, hj1, -, -⟩ | ⟨-, hj2, hge⟩
        · omega
        · omega
        · have he1 : e1 = (xmax, ymax) := getElem?_last_key input _ e1 j hlast hj2 hg1
          rw [he1] at hge
          exact hge
      · intro hge
        by_contra hne
        have hlt : upper_bound input (t i) < input.length :=
          lt_of_le_of_ne (upper_bound_le_length input (t i)) hne
        have hg : input[upper_bound input (t i)]? = some input[upper_bound input (t i)] :=
          List.getElem?_eq_getElem hlt
        have h1 := upper_bound_key_gt input (t i) _ hg
        have h2 := sorted_le_getLast input hsorted (xmax, ymax) hlast _
          (List.mem_map_of_mem Prod.fst (List.getElem?_mem hg))
        exact absurd (lt_of_lt_of_le h1 h2) (not_lt.mpr hge)
    refine ⟨ht i hi, hpos, hlo, hhi, by rw [hb]; rfl, hend, ?_, ?_, ?_⟩
    · intro hlt
      exact bracketIndex_eq input (t i) hpos hlt
    · intro hub
      rcases hcase with ⟨h0, -, -⟩ | ⟨hub1, hj1, -, -⟩ | ⟨-, hj2, -⟩
      · omega
      · omega
      · omega
    · intro hlo500 hhi500 hsep
      have hbelow := (grid_separated xmin xmax hlt (hdbl xmin hmin).1 (hdbl xmax hmax).1 hlo500
        hhi500 hsep dx t hdx ht).1 i hi
      have hne : upper_bound input (t i) ≠ input.length := fun h =>
        absurd (hend.mp h) (not_le.mpr hbelow)
      have hlt1 : upper_bound input (t i) < input.length :=
        lt_of_le_of_ne (upper_bound_le_length input (t i)) hne
      exact ⟨hlt1, bracketIndex_eq input (t i) hpos hlt1⟩

/-- Witness for C20 (amended): the input `wav = [1, 3, 2]`, `pde = [1, 1, 1]`, for which
no adjustment applies at any target. -/
theorem setPdeSpectrum_in_range_witness :
    ∃ (dx : ℚ) (t : Nat → ℚ) (input : List (ℚ × ℚ)) (s1 : SiPMProperties ℚ),
      fillInput [(1 : ℚ), 3, 2] [1, 1, 1] [] = some input ∧ input ≠ [] ∧
      input.head?.map Prod.fst = some 1 ∧ input.getLast?.map Prod.fst = some 3 ∧
      gridStep round64 1 3 = Dbl.fin dx ∧
      (∀ i : Nat, i < 32 → gridPoint round64 1 dx i = Dbl.fin (t i) ∧
        0 < upper_bound input (t i) ∧
        1 ≤ bracketIndex input (t i) ∧ bracketIndex input (t i) < input.length ∧
        (bracket input (t i)).isSome = true ∧
        (upper_bound input (t i) = input.length ↔ 3 ≤ t i) ∧
        upper_bound input (t i) < input.length ∧
        bracketIndex input (t i) = upper_bound input (t i)) ∧
      setPdeSpectrum round64 sampleLibm [1, 3, 2] [1, 1, 1] blankProperties = some s1 := by
  obtain ⟨dx, t, input, s1, h1, h2, h3, h4, h5, h6, h7⟩ :=
    setPdeSpectrum_in_range sampleLibm [1, 3, 2] [1, 1, 1] blankProperties rfl
      ⟨1, by simp, 2, by simp, by norm_num⟩
      (by
        intro w hw
        simp only [List.mem_cons, List.mem_singleton, List.not_mem_nil, or_false] at hw
        rcases hw with rfl | rfl | rfl
        · exact ⟨by decide!, by norm_num⟩
        · exact ⟨by decide!, by norm_num⟩
        · exact ⟨by decide!, by norm_num⟩)
      1 3 (by simp)
      (by intro w hw; simp at hw; rcases hw with rfl | rfl | rfl <;> norm_num) (by simp)
      (by intro w hw; simp at hw; rcases hw with rfl | rfl | rfl <;> norm_num)
  refine ⟨dx, t, input, s1, h1, h2, h3, h4, h5, ?_, h7⟩
  intro i hi
  obtain ⟨g1, g2, g3, g4, g5, g6, -, -, g9⟩ := h6 i hi
  obtain ⟨g10, g11⟩ := g9 (by norm_num) (by norm_num) (by norm_num)
  exact ⟨g1, g2, g3, g4, g5, g6, g10, g11⟩

end BracketClaims

section MappingClaims

variable {F : Type} [LinearOrderedField F]

theorem mapFind_append {V : Type} (l1 l2 : List (F × V)) (k : F) :
    mapFind (l1 ++ l2) k = (mapFind l1 k).elim (mapFind l2 k) some := by
  induction l1 with
  | nil => rfl
  | cons h t ih =>
    obtain ⟨k0, v0⟩ := h
    simp only [List.cons_append, mapFind]
    split_ifs
    · rfl
    · exact ih

theorem mapFind_mapAssign {V : Type} (m : List (F × V)) (w : F) (p : V) (k : F) :
    mapFind (mapAssign m w p) k = if w = k then some p else mapFind m k := by
  split_ifs with h
  · subst h
    exact mapFind_mapAssign_self m w p
  · exact mapFind_mapAssign_of_ne m w p k (Ne.symm h)

theorem mapFind_mem {V : Type} (m : List (F × V)) (k : F) (v : V)
    (h : mapFind m k = some v) : (k, v) ∈ m := by
  induction m with
  | nil => simp [mapFind] at h
  | cons e t ih =>
    obtain ⟨k0, v0⟩ := e
    unfold mapFind at h
    split_ifs at h with h0
    · simp only [Option.some.injEq] at h
      subst h0
      subst h
      exact List.mem_cons_self _ _
    · exact List.mem_cons_of_mem _ (ih h)

theorem mapFind_none_of_not_mem {V : Type} (m : List (F × V)) (k : F)
    (h : k ∉ m.map Prod.fst) : mapFind m k = none := by
  cases hf : mapFind m k with
  | none => rfl
  | some v => exact absurd (List.mem_map_of_mem Prod.fst (mapFind_mem m k v hf)) h

theorem mapFind_some_of_mem_keys {V : Type} (m : List (F × V)) (k : F)
    (h : k ∈ m.map Prod.fst) : ∃ v, mapFind m k = some v := by
  induction m with
  | nil => simp at h
  | cons e t ih =>
    obtain ⟨k0, v0⟩ := e
    unfold mapFind
    split_ifs with h1
    · exact ⟨_, rfl⟩
    · simp only [List.map_cons, List.mem_cons] at h
      rcases h with h2 | h2
      · exact absurd h2.symm h1
      · exact ih h2

/-- With pairwise distinct keys, the lookup finds exactly the pairs of the list. -/
theorem mapFind_eq_some_iff {V : Type} (m : List (F × V)) (hnd : (m.map Prod.fst).Nodup)
    (k : F) (v : V) : mapFind m k = some v ↔ (k, v) ∈ m := by
  constructor
  · exact mapFind_mem m k v
  · intro hmem
    induction m with
    | nil => simp at hmem
    | cons e t ih =>
      obtain ⟨k0, v0⟩ := e
      simp only [List.map_cons, List.nodup_cons] at hnd
      unfold mapFind
      rcases List.mem_cons.mp hmem with h | h
      · simp only [Prod.mk.injEq] at h
        rw [if_pos h.1.symm, h.2]
      · have hne : k0 ≠ k := by
          intro h0
          subst h0
          exact hnd.1 (List.mem_map_of_mem Prod.fst h)
        rw [if_neg hne]
        exact ih hnd.2 h

/-- Two sorted maps with the same lookups are equal. -/
theorem sorted_map_ext (m1 m2 : List (F × F))
    (h1 : (m1.map Prod.fst).Pairwise (· < ·)) (h2 : (m2.map Prod.fst).Pairwise (· < ·))
    (h : ∀ k, mapFind m1 k = mapFind m2 k) : m1 = m2 := by
  induction m1 generalizing m2 with
  | nil =>
    cases m2 with
    | nil => rfl
    | cons e t =>
      have := h e.1
      simp [mapFind] at this
  | cons e1 t1 ih =>
    cases m2 with
    | nil =>
      have := h e1.1
      simp [mapFind] at this
    | cons e2 t2 =>
      obtain ⟨k1, v1⟩ := e1
      obtain ⟨k2, v2⟩ := e2
      simp only [List.map_cons, List.pairwise_cons] at h1 h2
      have hk : k1 = k2 := by
        have a1 := h k1
        have a2 := h k2
        simp only [mapFind, if_true] at a1 a2
        by_contra hne
        rw [if_neg (Ne.symm hne)] at a1
        rw [if_neg hne] at a2
        have m2' := List.mem_map_of_mem Prod.fst (mapFind_mem t2 k1 v1 a1.symm)
        have m1' := List.mem_map_of_mem Prod.fst (mapFind_mem t1 k2 v2 a2)
        exact lt_asymm (h2.1 k1 m2') (h1.1 k2 m1')
      subst hk
      have hv : v1 = v2 := by
        have a1 := h k1
        simpa [mapFind] using a1
      subst hv
      have htail : ∀ k, mapFind t1 k = mapFind t2 k := by
        intro k
        by_cases hkk : k1 = k
        · subst hkk
          rw [mapFind_none_of_not_mem t1 k1 (fun hm => lt_irrefl _ (h1.1 k1 hm)),
            mapFind_none_of_not_mem t2 k1 (fun hm => lt_irrefl _ (h2.1 k1 hm))]
        · have := h k
          simpa [mapFind, hkk] using this
      rw [ih t2 h1.2 h2.2 htail]

/-- The map built by the first loop from an input given as pairs: it is sorted, and its
lookups are those of the input mapping, on top of the map the loop starts from. -/
theorem fillInput_pairs (pairs : List (F × F)) (m0 : List (F × F))
    (hm0 : (m0.map Prod.fst).Pairwise (· < ·)) :
    ∃ r, fillInput (pairs.map Prod.fst) (pairs.map Prod.snd) m0 = some r ∧
      (r.map Prod.fst).Pairwise (· < ·) ∧
      ∀ k, mapFind r k = (inputMapping pairs k).elim (mapFind m0 k) some := by
  induction pairs generalizing m0 with
  | nil => exact ⟨m0, rfl, hm0, fun k => rfl⟩
  | cons e t ih =>
    obtain ⟨w, p⟩ := e
    obtain ⟨r, hr, hs, hf⟩ := ih (mapAssign m0 w p) (mapAssign_sorted m0 w p hm0)
    refine ⟨r, by simpa [fillInput] using hr, hs, ?_⟩
    intro k
    rw [hf k]
    unfold inputMapping
    rw [List.reverse_cons, mapFind_append, mapFind_mapAssign]
    cases mapFind t.reverse k with
    | none =>
      simp only [Option.elim, mapFind]
      split_ifs <;> rfl
    | some v => rfl

/-- The result of `setPdeSpectrum` depends on its input only through the input mapping. -/
theorem setPdeSpectrum_of_mapping (fl : F → Dbl F) (L : Libm F) (s : SiPMProperties F)
    (pairs pairs1 : List (F × F)) (h : ∀ k, inputMapping pairs k = inputMapping pairs1 k) :
    setPdeSpectrum fl L (pairs.map Prod.fst) (pairs.map Prod.snd) s =
      setPdeSpectrum fl L (pairs1.map Prod.fst) (pairs1.map Prod.snd) s := by
  obtain ⟨r, hr, hs, hf⟩ := fillInput_pairs pairs ([] : List (F × F)) (by simp)
  obtain ⟨r1, hr1, hs1, hf1⟩ := fillInput_pairs pairs1 ([] : List (F × F)) (by simp)
  have heq : r = r1 := sorted_map_ext r r1 hs hs1 (fun k => by rw [hf k, hf1 k, h k])
  unfold setPdeSpectrum
  rw [hr, hr1, heq]

theorem inputMapping_perm (pairs pairs1 : List (F × F)) (hp : pairs.Perm pairs1)
    (hnd : (pairs.map Prod.fst).Nodup) (k : F) :
    inputMapping pairs k = inputMapping pairs1 k := by
  have hnd1 : (pairs1.map Prod.fst).Nodup := (hp.map Prod.fst).nodup_iff.mp hnd
  have hr : (pairs.reverse.map Prod.fst).Nodup := by
    rw [List.map_reverse]
    exact List.nodup_reverse.mpr hnd
  have hr1 : (pairs1.reverse.map Prod.fst).Nodup := by
    rw [List.map_reverse]
    exact List.nodup_reverse.mpr hnd1
  unfold inputMapping
  apply Option.ext
  intro v
  rw [Option.mem_def, Option.mem_def, mapFind_eq_some_iff _ hr, mapFind_eq_some_iff _ hr1,
    List.mem_reverse, List.mem_reverse]
  exact hp.mem_iff

theorem inputMapping_drop_earlier (a b : List (F × F)) (w p : F)
    (hw : w ∈ b.map Prod.fst) (k : F) :
    inputMapping (a ++ (w, p) :: b) k = inputMapping (a ++ b) k := by
  unfold inputMapping
  simp only [List.reverse_append, List.reverse_cons, List.append_assoc, List.singleton_append,
    mapFind_append]
  cases hb : mapFind b.reverse k with
  | some v => rfl
  | none =>
    have hne : w ≠ k := by
      intro h0
      subst h0
      obtain ⟨v, hv⟩ := mapFind_some_of_mem_keys b.reverse w
        (by rw [List.map_reverse]; exact List.mem_reverse.mpr hw)
      rw [hv] at hb
      exact absurd hb (by simp)
    simp only [Option.elim, mapFind, if_neg hne]

theorem keepLast_keys (pairs : List (F × F)) (k : F) :
    k ∈ (keepLast pairs).map Prod.fst ↔ k ∈ pairs.map Prod.fst := by
  induction pairs with
  | nil => rfl
  | cons e t ih =>
    obtain ⟨w, p⟩ := e
    unfold keepLast
    split_ifs with h
    · rw [ih]
      simp only [List.map_cons, List.mem_cons]
      constructor
      · exact Or.inr
      · rintro (rfl | h1)
        · exact h
        · exact h1
    · simp only [List.map_cons, List.mem_cons, ih]

theorem inputMapping_keepLast (pairs : List (F × F)) (k : F) :
    inputMapping (keepLast pairs) k = inputMapping pairs k := by
  induction pairs with
  | nil => rfl
  | cons e t ih =>
    obtain ⟨w, p⟩ := e
    unfold keepLast
    split_ifs with h
    · rw [ih]
      exact (inputMapping_drop_earlier [] t w p h k).symm
    · unfold inputMapping at ih ⊢
      rw [List.reverse_cons, List.reverse_cons, mapFind_append, mapFind_append, ih]

/-- C18: the result of `setPdeSpectrum` depends only on the wavelength-to-efficiency
mapping of its input, in which a later pair overwrites an earlier one of the same
wavelength: inputs with the same mapping give the same result; permuting the pairs of an
input with pairwise distinct wavelengths leaves it unchanged; and an input gives the same
result as the input that keeps only the last pair of every wavelength. -/
theorem setPdeSpectrum_mapping (fl : F → Dbl F) (L : Libm F) (s : SiPMProperties F)
    (pairs pairs1 : List (F × F)) :
    ((∀ k, inputMapping pairs k = inputMapping pairs1 k) →
      setPdeSpectrum fl L (pairs.map Prod.fst) (pairs.map Prod.snd) s =
        setPdeSpectrum fl L (pairs1.map Prod.fst) (pairs1.map Prod.snd) s) ∧
    (pairs.Perm pairs1 → (pairs.map Prod.fst).Nodup →
      setPdeSpectrum fl L (pairs.map Prod.fst) (pairs.map Prod.snd) s =
        setPdeSpectrum fl L (pairs1.map Prod.fst) (pairs1.map Prod.snd) s) ∧
    setPdeSpectrum fl L ((keepLast pairs).map Prod.fst) ((keepLast pairs).map Prod.snd) s =
      setPdeSpectrum fl L (pairs.map Prod.fst) (pairs.map Prod.snd) s :=
  ⟨setPdeSpectrum_of_mapping fl L s pairs pairs1,
    fun hp hnd => setPdeSpectrum_of_mapping fl L s pairs pairs1
      (inputMapping_perm pairs pairs1 hp hnd),
    setPdeSpectrum_of_mapping fl L s (keepLast pairs) pairs (inputMapping_keepLast pairs)⟩

/-- Witness for C18: a permuted input, and an input in which the wavelength 1 occurs
twice. -/
theorem setPdeSpectrum_mapping_witness :
    setPdeSpectrum round64 sampleLibm [1, 2, 3] [1 / 2, 1 / 4, 1 / 8] blankProperties =
        setPdeSpectrum round64 sampleLibm [3, 1, 2] [1 / 8, 1 / 2, 1 / 4] blankProperties ∧
      setPdeSpectrum round64 sampleLibm [2, 1] [1 / 4, 1 / 2] blankProperties =
        setPdeSpectrum round64 sampleLibm [1, 2, 1] [9, 1 / 4, 1 / 2] blankProperties ∧
      keepLast [((1 : ℚ), (9 : ℚ)), (2, 1 / 4), (1, 1 / 2)] = [(2, 1 / 4), (1, 1 / 2)] :=
  ⟨(setPdeSpectrum_mapping round64 sampleLibm blankProperties
      [(1, 1 / 2), (2, 1 / 4), (3, 1 / 8)] [(3, 1 / 8), (1, 1 / 2), (2, 1 / 4)]).2.1
      (by decide!) (by decide!),
    by decide!, by decide!⟩

end MappingClaims

section RangeClaims

/-- A value that is not positive rounds to a double that is not positive, or to -inf. -/
theorem round64_nonpos (x : ℚ) (hx : x ≤ 0) :
    round64 x = Dbl.ninf ∨ ∃ c, round64 x = Dbl.fin c ∧ c ≤ 0 := by
  rcases lt_or_eq_of_le hx with h | h
  · unfold round64
    rw [if_neg (ne_of_lt h), if_neg (not_lt.mpr hx)]
    split_ifs
    · exact Or.inr ⟨_, rfl, by have := roundPos_nonneg (-x) (by linarith); linarith⟩
    · exact Or.inl rfl
  · rw [h]
    exact Or.inr ⟨0, round64_zero, le_refl _⟩

/-- On a bracket `x0 < x1` around the target, with efficiencies in (0, 1], the value the
loop body computes is a finite number from 0 to 1, for a C library whose `log` is not
positive up to 1, not negative from 1 on and positive above 1, and whose `exp` lies
between 0 and 1 up to 0: both weights are non-negative and both logarithms of the
efficiencies non-positive, so the rounded products, their rounded sum and the rounded
quotient are non-positive or -inf. -/
theorem interpolate_unit (L : Libm ℚ) (hlogle : ∀ y, 0 < y → y ≤ 1 → L.log y ≤ 0)
    (hlogge : ∀ r, 1 ≤ r → 0 ≤ L.log r) (hlogpos : ∀ r, 1 < r → 0 < L.log r)
    (hexp0 : ∀ z, 0 ≤ L.exp z) (hexp1 : ∀ z, z ≤ 0 → L.exp z ≤ 1)
    (x0 y0 x1 y1 newx u v w : ℚ) (hx0 : x0 ≠ 0) (hnx : newx ≠ 0)
    (hu : round64 (x1 / newx) = Dbl.fin u) (hu1 : 1 ≤ u)
    (hv : round64 (newx / x0) = Dbl.fin v) (hv1 : 1 ≤ v)
    (hw : round64 (x1 / x0) = Dbl.fin w) (hw1 : 1 < w)
    (hy0 : 0 < y0) (hy0le : y0 ≤ 1) (hy1 : 0 < y1) (hy1le : y1 ≤ 1) :
    ∃ val, interpolate round64 L x0 y0 x1 y1 newx = Dbl.fin val ∧ 0 ≤ val ∧ val ≤ 1 := by
  have l0 : ∀ r : ℚ, 0 < r → Dbl.log L (Dbl.fin r) = Dbl.fin (L.log r) := by
    intro r hr
    simp [Dbl.log, not_lt.mpr (le_of_lt hr), ne_of_gt hr]
  have d1 : Dbl.divR round64 (Dbl.fin x1) (Dbl.fin newx) = Dbl.fin u := by
    simp only [Dbl.divR, Dbl.div, if_neg hnx, Dbl.rnd, hu]
  have d2 : Dbl.divR round64 (Dbl.fin newx) (Dbl.fin x0) = Dbl.fin v := by
    simp only [Dbl.divR, Dbl.div, if_neg hx0, Dbl.rnd, hv]
  have d3 : Dbl.divR round64 (Dbl.fin x1) (Dbl.fin x0) = Dbl.fin w := by
    simp only [Dbl.divR, Dbl.div, if_neg hx0, Dbl.rnd, hw]
  have hmul : ∀ a b : ℚ, a ≤ 0 → 0 ≤ b →
      (Dbl.mulR round64 (Dbl.fin a) (Dbl.fin b) = Dbl.ninf ∨
        ∃ c, Dbl.mulR round64 (Dbl.fin a) (Dbl.fin b) = Dbl.fin c ∧ c ≤ 0) := by
    intro a b ha hb
    simp only [Dbl.mulR, Dbl.mul, Dbl.rnd]
    exact round64_nonpos _ (mul_nonpos_of_nonpos_of_nonneg ha hb)
  have hadd : ∀ A B : Dbl ℚ, (A = Dbl.ninf ∨ ∃ c, A = Dbl.fin c ∧ c ≤ 0) →
      (B = Dbl.ninf ∨ ∃ c, B = Dbl.fin c ∧ c ≤ 0) →
      (Dbl.addR round64 A B = Dbl.ninf ∨ ∃ c, Dbl.addR round64 A B = Dbl.fin c ∧ c ≤ 0) := by
    intro A B hA hB
    rcases hA with rfl | ⟨a, rfl, ha⟩ <;> rcases hB with rfl | ⟨b, rfl, hb⟩
    · exact Or.inl rfl
    · exact Or.inl rfl
    · exact Or.inl rfl
    · simp only [Dbl.addR, Dbl.add, Dbl.rnd]
      exact round64_nonpos _ (by linarith)
  have hdiv : ∀ (A : Dbl ℚ) (b : ℚ), (A = Dbl.ninf ∨ ∃ c, A = Dbl.fin c ∧ c ≤ 0) → 0 < b →
      (Dbl.divR round64 A (Dbl.fin b) = Dbl.ninf ∨
        ∃ c, Dbl.divR round64 A (Dbl.fin b) = Dbl.fin c ∧ c ≤ 0) := by
    intro A b hA hb
    rcases hA with rfl | ⟨a, rfl, ha⟩
    · left
      simp only [Dbl.divR, Dbl.div, if_pos (le_of_lt hb), Dbl.rnd]
    · simp only [Dbl.divR, Dbl.div, if_neg (ne_of_gt hb), Dbl.rnd]
      exact round64_nonpos _ (div_nonpos_of_nonpos_of_nonneg ha (le_of_lt hb))
  have hu0 : 0 < u := lt_of_lt_of_le zero_lt_one hu1
  have hv0 : 0 < v := lt_of_lt_of_le zero_lt_one hv1
  have hw0 : 0 < w := lt_trans zero_lt_one hw1
  have hz := hdiv _ (L.log w)
    (hadd _ _ (hmul (L.log y0) (L.log u) (hlogle y0 hy0 hy0le) (hlogge u hu1))
      (hmul (L.log y1) (L.log v) (hlogle y1 hy1 hy1le) (hlogge v hv1))) (hlogpos w hw1)
  rw [interpolate_eq_exp round64 L hexp0]
  unfold logNewy
  rw [d1, d2, d3, l0 y0 hy0, l0 y1 hy1, l0 u hu0, l0 v hv0, l0 w hw0]
  rcases hz with hz | ⟨z, hz, hz0⟩
  · rw [hz]
    exact ⟨0, rfl, le_refl _, zero_le_one⟩
  · rw [hz]
    exact ⟨L.exp z, rfl, hexp0 z, hexp1 z hz0⟩

theorem div_le_two_zpow (a b : ℚ) (ha : 2 ^ (-500 : Int) ≤ a) (hb : b ≤ 2 ^ (500 : Int)) :
    b / a ≤ 2 ^ (1000 : Int) := by
  have hapos : 0 < a := lt_of_lt_of_le (zpow_pos (by norm_num) _) ha
  rw [div_le_iff₀ hapos]
  have e : (2 : ℚ) ^ (500 : Int) = 2 ^ (1000 : Int) * 2 ^ (-500 : Int) := by
    rw [← zpow_add₀ (by norm_num : (2 : ℚ) ≠ 0)]
    norm_num
  have h1 : (2 : ℚ) ^ (1000 : Int) * 2 ^ (-500 : Int) ≤ 2 ^ (1000 : Int) * a :=
    mul_le_mul_of_nonneg_left ha (le_of_lt (zpow_pos (by norm_num) _))
  linarith

/-- C19 (counterexample): for `wav = [300, 800]` with both efficiencies the double nearest
to 0.3, with `log` and `exp` rounded to nearest, the value stored at the target 362.5 is
above that efficiency and the value stored at the target 690.625 is below it, while both
ends of the bracket `(300, 800)` carry that efficiency: the stored values leave the
bracket's efficiency range. -/
theorem setPdeSpectrum_within_bracket_counterexample :
    round64 (3 / 10) = Dbl.fin (5404319552844595 / 18014398509481984) ∧
      gridStep round64 300 800 = Dbl.fin (125 / 8) ∧
      gridPoint round64 300 (125 / 8) 4 = Dbl.fin (725 / 2) ∧
      gridPoint round64 300 (125 / 8) 25 = Dbl.fin (5525 / 8) ∧
      bracket [((300 : ℚ), (5404319552844595 / 18014398509481984 : ℚ)),
          (800, 5404319552844595 / 18014398509481984)] (725 / 2) =
        some ((300, 5404319552844595 / 18014398509481984),
          (800, 5404319552844595 / 18014398509481984)) ∧
      bracket [((300 : ℚ), (5404319552844595 / 18014398509481984 : ℚ)),
          (800, 5404319552844595 / 18014398509481984)] (5525 / 8) =
        some ((300, 5404319552844595 / 18014398509481984),
          (800, 5404319552844595 / 18014398509481984)) ∧
      (setPdeSpectrum round64 roundedLibm [300, 800]
          [5404319552844595 / 18014398509481984, 5404319552844595 / 18014398509481984]
          blankProperties).map
        (fun s1 => (mapFind s1.m_PdeSpectrum (725 / 2), mapFind s1.m_PdeSpectrum (5525 / 8))) =
        some (some (Dbl.fin (5404319552844596 / 18014398509481984)),
          some (Dbl.fin (5404319552844593 / 18014398509481984))) ∧
      (5404319552844595 / 18014398509481984 : ℚ) < 5404319552844596 / 18014398509481984 ∧
      (5404319552844593 / 18014398509481984 : ℚ) < 5404319552844595 / 18014398509481984 := by
  decide!

/-- C19 (amended): in binary64 arithmetic a stored value can leave the efficiency range
of its bracket by rounding, but the bound by 1 holds: for a C library whose `log` is not
positive up to 1, not negative from 1 on and positive above 1, and whose `exp` lies
between 0 and 1 up to 0, on inputs whose wavelengths are doubles from `2 ^ -500` to
`2 ^ 500`, at least two of them distinct, and whose efficiencies lie in (0, 1], the value
stored at each of the 32 target wavelengths is a finite number from 0 to 1; applied to
properties that hold no stored spectrum, every stored value is. -/
theorem setPdeSpectrum_within_bracket (L : Libm ℚ)
    (hlogle : ∀ y, 0 < y → y ≤ 1 → L.log y ≤ 0)
    (hlogge : ∀ r, 1 ≤ r → 0 ≤ L.log r) (hlogpos : ∀ r, 1 < r → 0 < L.log r)
    (hexp0 : ∀ z, 0 ≤ L.exp z) (hexp1 : ∀ z, z ≤ 0 → L.exp z ≤ 1)
    (wav pde : List ℚ) (s : SiPMProperties ℚ)
    (hlen : wav.length = pde.length) (h2 : ∃ a ∈ wav, ∃ b ∈ wav, a ≠ b)
    (hdbl : ∀ w ∈ wav, round64 w = Dbl.fin w ∧ 2 ^ (-500 : Int) ≤ w ∧ w ≤ 2 ^ (500 : Int))
    (xmin xmax : ℚ) (hmin : xmin ∈ wav) (hminle : ∀ w ∈ wav, xmin ≤ w)
    (hmax : xmax ∈ wav) (hmaxle : ∀ w ∈ wav, w ≤ xmax)
    (hppos : ∀ y ∈ pde, 0 < y ∧ y ≤ 1) :
    ∃ (dx : ℚ) (t : Nat → ℚ) (s1 : SiPMProperties ℚ),
      gridStep round64 xmin xmax = Dbl.fin dx ∧
      (∀ i, i < 32 → gridPoint round64 xmin dx i = Dbl.fin (t i)) ∧
      setPdeSpectrum round64 L wav pde s = some s1 ∧
      (∀ i : Nat, i < 32 → ∃ v, mapFind s1.m_PdeSpectrum (t i) = some (Dbl.fin v) ∧
        0 ≤ v ∧ v ≤ 1) ∧
      (s.m_PdeSpectrum = [] → ∀ e ∈ s1.m_PdeSpectrum, ∃ v, e.2 = Dbl.fin v ∧ 0 ≤ v ∧ v ≤ 1) := by
  have hlt := lt_of_two_distinct wav h2 xmin xmax hminle hmaxle
  have hpos : ∀ w : ℚ, 2 ^ (-500 : Int) ≤ w → 0 < w :=
    fun w hw => lt_of_lt_of_le (zpow_pos (by norm_num) _) hw
  have hdbl1 : ∀ w ∈ wav, round64 w = Dbl.fin w ∧ |w| ≤ 2 ^ (1022 : Int) := by
    intro w hw
    obtain ⟨h1, h2, h3⟩ := hdbl w hw
    refine ⟨h1, ?_⟩
    rw [abs_of_pos (hpos w h2)]
    exact le_trans h3 (zpow_le_zpow_right₀ (by norm_num) (by norm_num))
  obtain ⟨input, ymin, ymax, dx, t, r, hin, hsorted, hhead, hlast, hkeys, hlen2, hdx, ht, ht0,
    htlo, -, hr, hrun⟩ :=
    setPdeSpectrum_binary64 L wav pde s hlen h2 hdbl1 xmin xmax hmin hminle hmax hmaxle
  obtain ⟨r1, hr1, -, -, -, hfind, -, hvals⟩ := pdeLoop_spec round64 L input xmin dx t hlen2
    (List.range 32) s.m_PdeSpectrum (fun i hi => ht i (List.mem_range.mp hi))
  rw [hr, Option.some.injEq] at hr1
  subst hr1
  have hval : ∀ e ∈ input, 0 < e.2 ∧ e.2 ≤ 1 := by
    intro e he
    rcases fillInput_values wav pde [] input hin e he with h0 | h0
    · simp at h0
    · exact hppos _ h0
  have hkey : ∀ e ∈ input, e.1 ∈ wav := by
    intro e he
    exact (hkeys e.1).mp (List.mem_map_of_mem Prod.fst he)
  have hpoint : ∀ i : Nat, i < 32 → ∃ v, pdePoint round64 L input (t i) = some (Dbl.fin v) ∧
      0 ≤ v ∧ v ≤ 1 := by
    intro i hi
    have hthi : t i ≤ xmax := grid_le_xmax xmin xmax hlt (hdbl xmin hmin).1 (hdbl xmax hmax).1
      (hdbl xmin hmin).2.1 (hdbl xmax hmax).2.2 dx hdx i hi (t i) (ht i hi)
    have htpos : 0 < t i := lt_of_lt_of_le (hpos xmin (hdbl xmin hmin).2.1) (htlo i hi)
    have htlo1 : 2 ^ (-500 : Int) ≤ t i := le_trans (hdbl xmin hmin).2.1 (htlo i hi)
    have hthi1 : t i ≤ 2 ^ (500 : Int) := le_trans hthi (hdbl xmax hmax).2.2
    obtain ⟨j, e0, e1, hg0, hg1, hb, -, hadj, hcase⟩ := bracket_cases input hsorted hlen2 (t i)
    have hm0 := List.getElem?_mem hg0
    have hm1 := List.getElem?_mem hg1
    have hbounds : e0.1 ≤ t i ∧ t i ≤ e1.1 := by
      rcases hcase with ⟨h0, -, -⟩ | ⟨-, -, hle, hgt⟩ | ⟨-, hj2, hge⟩
      · have := upper_bound_pos input (t i) (xmin, ymin) hhead (htlo i hi)
        omega
      · exact ⟨hle, le_of_lt hgt⟩
      · have he1 : e1 = (xmax, ymax) := getElem?_last_key input _ e1 j hlast hj2 hg1
        have hx1 : e1.1 = xmax := by rw [he1]
        exact ⟨le_trans (le_of_lt hadj) hge, by rw [hx1]; exact hthi⟩
    obtain ⟨d0, l0, h0⟩ := hdbl e0.1 (hkey e0 hm0)
    obtain ⟨d1, l1, h1⟩ := hdbl e1.1 (hkey e1 hm1)
    obtain ⟨u, hu, hu1⟩ := round64_div_ge_one (t i) e1.1 htpos hbounds.2
      (div_le_two_zpow _ _ htlo1 h1)
    obtain ⟨v, hv, hv1⟩ := round64_div_ge_one e0.1 (t i) (hpos _ l0) hbounds.1
      (div_le_two_zpow _ _ l0 hthi1)
    obtain ⟨w, hw, -⟩ := round64_div_ge_one e0.1 e1.1 (hpos _ l0) (le_of_lt hadj)
      (div_le_two_zpow _ _ l0 h1)
    have hw1 := round64_div_gt_one e0.1 e1.1 w (hpos _ l0) hadj d0 d1 hw
    obtain ⟨val, hval1, hval2, hval3⟩ := interpolate_unit L hlogle hlogge hlogpos hexp0 hexp1
      e0.1 e0.2 e1.1 e1.2 (t i) u v w (ne_of_gt (hpos _ l0)) (ne_of_gt htpos) hu hu1 hv hv1 hw
      hw1 (hval e0 hm0).1 (hval e0 hm0).2 (hval e1 hm1).1 (hval e1 hm1).2
    refine ⟨val, ?_, hval2, hval3⟩
    rw [pdePoint_bracket, hb]
    simp only [Option.map_some', hval1]
  refine ⟨dx, t, _, hdx, ht, hrun, ?_, ?_⟩
  · intro i hi
    obtain ⟨v, hv, hv0, hv1⟩ := hpoint i hi
    exact ⟨v, by rw [hfind i (List.mem_range.mpr hi), hv], hv0, hv1⟩
  · intro hs e he
    rcases hvals e he with h | ⟨i, hi, -, hpt⟩
    · rw [hs] at h
      simp at h
    · obtain ⟨v, hv, hv0, hv1⟩ := hpoint i (List.mem_range.mp hi)
      rw [hv, Option.some.injEq] at hpt
      exact ⟨v, hpt.symm, hv0, hv1⟩

/-- Witness for C19 (amended): the input `wav = [1, 2]`, `pde = [1/2, 1/4]`. -/
theorem setPdeSpectrum_within_bracket_witness :
    ∃ (dx : ℚ) (t : Nat → ℚ) (s1 : SiPMProperties ℚ),
      gridStep round64 1 2 = Dbl.fin dx ∧
      (∀ i, i < 32 → gridPoint round64 1 dx i = Dbl.fin (t i)) ∧
      setPdeSpectrum round64 sampleLibm [1, 2] [1 / 2, 1 / 4] blankProperties = some s1 ∧
      (∀ i : Nat, i < 32 → ∃ v, mapFind s1.m_PdeSpectrum (t i) = some (Dbl.fin v) ∧
        0 ≤ v ∧ v ≤ 1) ∧
      ∀ e ∈ s1.m_PdeSpectrum, ∃ v, e.2 = Dbl.fin v ∧ 0 ≤ v ∧ v ≤ 1 := by
  obtain ⟨dx, t, s1, h1, h2, h3, h4, h5⟩ :=
    setPdeSpectrum_within_bracket sampleLibm
      (by intro y _ hy; simp only [sampleLibm]; linarith)
      (by intro r hr; simp only [sampleLibm]; linarith)
      (by intro r hr; simp only [sampleLibm]; linarith)
      (by intro z; exact le_max_right _ _)
      (by intro z hz; simp only [sampleLibm]; exact max_le (by linarith) zero_le_one)
      [1, 2] [1 / 2, 1 / 4] blankProperties rfl
      ⟨1, by simp, 2, by simp, by norm_num⟩
      (by
        intro w hw
        simp only [List.mem_cons, List.mem_singleton, List.not_mem_nil, or_false] at hw
        rcases hw with rfl | rfl
        · exact ⟨by decide!, by norm_num, by norm_num⟩
        · exact ⟨by decide!, by norm_num, by norm_num⟩)
      1 2 (by simp)
      (by intro w hw; simp at hw; rcases hw with rfl | rfl <;> norm_num) (by simp)
      (by intro w hw; simp at hw; rcases hw with rfl | rfl <;> norm_num)
      (by intro w hw; simp at hw; rcases hw with rfl | rfl <;> norm_num)
  exact ⟨dx, t, s1, h1, h2, h3, h4, h5 rfl⟩

end RangeClaims

end sipm
